import Mathlib

/-!
# Build-graph construction of `gb` (`build.go`)

A shallow embedding of `BuildPackages`, `BuildPackage`, `BuildDependencies`
and `Compile`.

* A `*Package` is a `PkgPtr`, an index into the package store `Env.pkg`.
* A `*Action` is a `Handle`, an index into the action heap (a list that only
  grows at its end); two handles denote the same Action instance exactly when
  they are equal.
* The closure stored in `Action.Run` is the value `Step`, which records the
  function the closure calls and the variables it captures.
* `targets map[string]*Action` is an association list; an assignment
  `targets[k] = v` conses a binding and `lookup` returns the newest binding.
* The recursion `BuildPackage -> BuildDependencies -> BuildPackage` takes a
  depth budget; `Outcome.fuel` is the result of a run that exceeds it.
* A run of a closure is `Step.run`: it yields the error the closure returns,
  the calls it made to the toolchain and the other collaborators, and the
  closure as the run leaves it.
-/

namespace Gb

/-- The type `*Action`: an index into the action heap. -/
abbrev Handle := Nat

/-- The type `*Package`: an index into the package store. -/
abbrev PkgPtr := Nat

/-- The fields of `Package` that `build.go` reads. -/
structure Package where
  ImportPath : String
  Dir : String
  GoFiles : List String
  CgoFiles : List String
  SFiles : List String
  SysoFiles : List String
  Imports : List PkgPtr
  Main : Bool
  TestScope : Bool
  Install : Bool
  race : Bool
  NotStale : Bool
deriving DecidableEq, Inhabited

/-- The closures assigned to `Action.Run`, with their captured variables. -/
inductive Step where
  /-- Line 49: the umbrella closure; it logs through `pkgs[0]`, returns nil. -/
  | buildDuration (pkg0 : PkgPtr)
  /-- The closure of the Action that `cgo(pkg)` returns (line 120). -/
  | cgo (pkg : PkgPtr)
  /-- Line 138: `gc(pkg, gofiles)`. -/
  | gc (pkg : PkgPtr) (gofiles : List String)
  /-- Line 148: `pkg.tc.Asm(pkg, ofile, filepath.Join(pkg.Dir, sfile))`. -/
  | asm (pkg : PkgPtr) (ofile : String) (sfile : String)
  /-- Line 174: the pack closure; `ofiles` is the captured slice variable. -/
  | pack (pkg : PkgPtr) (ofiles : List String)
  /-- Line 198: `fileutils.Copyfile(pkg.installpath(), pkg.objfile())`. -/
  | copyfile (pkg : PkgPtr)
  /-- Line 207: `pkg.link()`. -/
  | link (pkg : PkgPtr)
  /-- Line 219: the closure built by `logInfoFn(fn, s)`. -/
  | logInfo (fn : Step) (s : String)
deriving DecidableEq, Inhabited

/-- The struct `Action`. -/
structure Action where
  Name : String
  Deps : List Handle
  Run : Step
deriving DecidableEq, Inhabited

/-- The error values `build.go` returns. Go errors are compared by instance,
so an error made by a collaborator is never the instance made at line 32 or
line 131; the constructors record where the instance was made. -/
inductive Err where
  /-- Line 32: `errors.New("no packages supplied")`. -/
  | noPackagesSupplied
  /-- Line 131: `fmt.Errorf("compile %q: no go files supplied", pkg.ImportPath)`. -/
  | noGoFiles (importPath : String)
  /-- The error returned by `pkg.ResolvePackage` (line 256). -/
  | resolve (e : String)
  /-- The error returned by `cgo(pkg)` (line 120). -/
  | cgo (e : String)
deriving DecidableEq, Inhabited

/-- The three non-error results of `cgo(pkg)`: the name of the Action it
returns, `cgoOFILES` and `cgoGOFILES`. -/
structure CgoResult where
  name : String
  ofiles : List String
  gofiles : List String
deriving DecidableEq, Inhabited

/-- What `build.go` uses and does not define: the package store, the resolver
method `pkg.ResolvePackage`, the helper `cgo`, `pkg.Context.Workdir()`,
`filepath.Join`, `stripext`, and the outcome of `version.Version > 1.7`. -/
structure Env where
  pkg : PkgPtr → Package
  ResolvePackage : PkgPtr → String → Except String PkgPtr
  cgo : PkgPtr → Except String CgoResult
  Workdir : PkgPtr → String
  Join : List String → String
  stripext : String → String
  versionAbove1_7 : Bool

/-- The action heap together with the memo table `targets`. -/
structure State where
  heap : List Action
  targets : List (String × Handle)
deriving DecidableEq, Inhabited

/-- The result of a call that threads the state: the budget ran out, or the
call returned an error, or it returned a value. -/
inductive Outcome (α : Type) where
  | fuel : Outcome α
  | error (e : Err) (s : State) : Outcome α
  | ok (a : α) (s : State) : Outcome α
deriving DecidableEq

/-- Taking the address of a new Action value: it is placed at the end of the
heap. -/
def alloc (heap : List Action) (a : Action) : Handle × List Action :=
  (heap.length, heap ++ [a])

/-- The assignment `h.Run = f(h.Run)` through the pointer `h`. -/
def setRun (heap : List Action) (h : Handle) (f : Step → Step) : List Action :=
  match heap[h]? with
  | some a => heap.set h { a with Run := f a.Run }
  | none => heap

/-- The function `logInfoFn` (line 218). -/
def logInfoFn (fn : Step) (s : String) : Step := Step.logInfo fn s

/-- Lines 143-158 of `Compile`: the loop over `pkg.SFiles`. The accumulator is
`(assemble, ofiles, heap)`; `compile` is the handle `&compile`. -/
def asmLoop (E : Env) (pkg : PkgPtr) (compile : Handle) :
    List String → List Handle × List String × List Action →
    List Handle × List String × List Action
  | [], acc => acc
  | sfile :: rest, (assemble, ofiles, heap) =>
    let ofile := E.Join [E.Workdir pkg, (E.pkg pkg).ImportPath, E.stripext sfile ++ ".6"]
    let r := alloc heap
      { Name := "asm: " ++ (E.pkg pkg).ImportPath ++ "/" ++ sfile
        Run := Step.asm pkg ofile sfile
        Deps := [compile] }
    asmLoop E pkg compile rest (assemble ++ [r.1], ofiles ++ [ofile], r.2)

/-- Lines 161-163 of `Compile`: the loop over `pkg.SysoFiles`. -/
def sysoLoop (E : Env) (pkg : PkgPtr) : List String → List String → List String
  | [], ofiles => ofiles
  | syso :: rest, ofiles => sysoLoop E pkg rest (ofiles ++ [E.Join [(E.pkg pkg).Dir, syso]])

/-- Lines 130-215 of `Compile`: everything after the cgo step, given the
values of `gofiles`, `ofiles` and `deps` at line 130. -/
def compileRest (E : Env) (pkg : PkgPtr) (gofiles ofiles : List String)
    (deps : List Handle) (heap : List Action) : Except Err Handle × List Action :=
  let p := E.pkg pkg
  if gofiles.length == 0 then
    (Except.error (Err.noGoFiles p.ImportPath), heap)
  else
    -- step 2
    let c := alloc heap
      { Name := "compile: " ++ p.ImportPath, Deps := deps, Run := Step.gc pkg gofiles }
    let compile := c.1
    -- step 3 and step 4
    let l := asmLoop E pkg compile p.SFiles ([], ofiles, c.2)
    let assemble := l.1
    let ofiles := sysoLoop E pkg p.SysoFiles l.2.1
    let build := compile
    -- pack ?
    let b1 : Handle × List Action :=
      if ofiles.length > 0 then
        alloc l.2.2
          { Name := "pack: " ++ p.ImportPath
            Deps := [compile] ++ assemble
            Run := Step.pack pkg ofiles }
      else (build, l.2.2)
    -- install ?
    let b2 : Handle × List Action :=
      if p.Install && !p.TestScope then
        alloc b1.2
          { Name := "install: " ++ p.ImportPath, Deps := [b1.1], Run := Step.copyfile pkg }
      else b1
    -- link ?
    let b3 : Handle × List Action :=
      if p.Main then
        alloc b2.2 { Name := "link: " ++ p.ImportPath, Deps := [b2.1], Run := Step.link pkg }
      else b2
    if !p.TestScope then
      (Except.ok b3.1, setRun b3.2 b3.1 (fun run => logInfoFn run p.ImportPath))
    else
      (Except.ok b3.1, b3.2)

/-- The function `Compile` (line 113). It returns the result together with
the heap after the call. The Action that `cgo` returns is allocated as one
node without dependencies. -/
def Compile (E : Env) (pkg : PkgPtr) (deps : List Handle) (heap : List Action) :
    Except Err Handle × List Action :=
  let p := E.pkg pkg
  let gofiles := p.GoFiles
  if p.CgoFiles.length > 0 then
    match E.cgo pkg with
    | Except.error e => (Except.error (Err.cgo e), heap)
    | Except.ok r =>
      let a := alloc heap { Name := r.name, Deps := [], Run := Step.cgo pkg }
      compileRest E pkg (gofiles ++ r.gofiles) r.ofiles (deps ++ [a.1]) a.2
  else
    compileRest E pkg gofiles [] deps heap

/-- Lines 232-254 of `BuildDependencies`: the value of `extra`. -/
def extraImports (E : Env) (p : Package) : List String :=
  (if p.Main then
      ["runtime"] ++ (if p.race then ["runtime/race"] else [])
    else if p.CgoFiles.length > 0 && p.ImportPath != "runtime/cgo" then
      ["runtime/cgo"]
    else [])
  ++ (if p.TestScope then
      ["regexp"] ++ (if E.versionAbove1_7 then ["testing/internal/testdeps"] else [])
    else [])

/-- Lines 255-261 of `BuildDependencies`: the loop over `extra`, with `pkgs`
as accumulator. -/
def resolveLoop (E : Env) (pkg : PkgPtr) : List String → List PkgPtr → Except Err (List PkgPtr)
  | [], pkgs => Except.ok pkgs
  | i :: rest, pkgs =>
    match E.ResolvePackage pkg i with
    | Except.error e => Except.error (Err.resolve e)
    | Except.ok p => resolveLoop E pkg rest (pkgs ++ [p])

/-- Lines 262-273 of `BuildDependencies`: the loop over `pkgs`, with `deps` as
accumulator; `bp` is the function `BuildPackage` it calls. -/
def depsLoop (bp : State → PkgPtr → Outcome (Option Handle)) :
    List PkgPtr → List Handle → State → Outcome (List Handle)
  | [], deps, s => Outcome.ok deps s
  | i :: rest, deps, s =>
    match bp s i with
    | Outcome.fuel => Outcome.fuel
    | Outcome.error e s1 => Outcome.error e s1
    | Outcome.ok none s1 => depsLoop bp rest deps s1
    | Outcome.ok (some a) s1 => depsLoop bp rest (deps ++ [a]) s1

/-- The function `BuildDependencies` (line 228); `bp` is the function
`BuildPackage` it calls back. -/
def BuildDependencies (bp : State → PkgPtr → Outcome (Option Handle)) (E : Env)
    (s : State) (pkg : PkgPtr) : Outcome (List Handle) :=
  match resolveLoop E pkg (extraImports E (E.pkg pkg)) (E.pkg pkg).Imports with
  | Except.error e => Outcome.error e s
  | Except.ok pkgs => depsLoop bp pkgs [] s

/-- The function `BuildPackage` (line 75). The first argument bounds the
depth of the recursion through `BuildDependencies`. -/
def BuildPackage (E : Env) : Nat → State → PkgPtr → Outcome (Option Handle)
  | 0, _, _ => Outcome.fuel
  | fuel + 1, s, pkg =>
    match s.targets.lookup (E.pkg pkg).ImportPath with
    | some a => Outcome.ok (some a) s
    | none =>
      if (E.pkg pkg).NotStale then
        Outcome.ok none s
      else
        match BuildDependencies (BuildPackage E fuel) E s pkg with
        | Outcome.fuel => Outcome.fuel
        | Outcome.error e s1 => Outcome.error e s1
        | Outcome.ok deps s1 =>
          match Compile E pkg deps s1.heap with
          | (Except.error e, heap) => Outcome.error e { s1 with heap := heap }
          | (Except.ok build, heap) =>
            Outcome.ok (some build)
              { heap := heap, targets := ((E.pkg pkg).ImportPath, build) :: s1.targets }

/-- Lines 55-69 of `BuildPackages`: the loop over `pkgs`, with `build.Deps` as
accumulator. -/
def rootLoop (E : Env) (fuel : Nat) : List PkgPtr → List Handle → State → Outcome (List Handle)
  | [], deps, s => Outcome.ok deps s
  | pkg :: rest, deps, s =>
    if (E.pkg pkg).GoFiles.length + (E.pkg pkg).CgoFiles.length == 0 then
      rootLoop E fuel rest deps s
    else
      match BuildPackage E fuel s pkg with
      | Outcome.fuel => Outcome.fuel
      | Outcome.error e s1 => Outcome.error e s1
      | Outcome.ok none s1 => rootLoop E fuel rest deps s1
      | Outcome.ok (some a) s1 => rootLoop E fuel rest (deps ++ [a]) s1

/-- Lines 37-43 of `BuildPackages`: the closure `names`. -/
def names (E : Env) (pkgs : List PkgPtr) : List String :=
  pkgs.map (fun pkg => (E.pkg pkg).ImportPath)

/-- The function `BuildPackages` (line 30). It starts from an empty heap and
an empty `targets`; the state it returns holds the final heap and, for
inspection, the final `targets`. -/
def BuildPackages (E : Env) (fuel : Nat) (pkgs : List PkgPtr) : Outcome Handle :=
  match pkgs with
  | [] => Outcome.error Err.noPackagesSupplied { heap := [], targets := [] }
  | pkg0 :: _ =>
    let build : Action :=
      { Name := "build: " ++ ",".intercalate (names E pkgs)
        Deps := []
        Run := Step.buildDuration pkg0 }
    match rootLoop E fuel pkgs build.Deps { heap := [], targets := [] } with
    | Outcome.fuel => Outcome.fuel
    | Outcome.error e s => Outcome.error e s
    | Outcome.ok deps s =>
      let r := alloc s.heap { build with Deps := deps }
      Outcome.ok r.1 { s with heap := r.2 }

/-! ## Observations on Actions -/

/-- The pipeline stage an Action's closure belongs to. -/
inductive Stage where
  | umbrella
  | cgo
  | compile
  | asm
  | pack
  | install
  | link
deriving DecidableEq, Inhabited

/-- The stage of a closure; the completion logger of `logInfoFn` does not
change the stage of the closure it wraps. -/
def Step.stage : Step → Stage
  | Step.buildDuration _ => Stage.umbrella
  | Step.cgo _ => Stage.cgo
  | Step.gc _ _ => Stage.compile
  | Step.asm _ _ _ => Stage.asm
  | Step.pack _ _ => Stage.pack
  | Step.copyfile _ => Stage.install
  | Step.link _ => Stage.link
  | Step.logInfo fn _ => fn.stage

/-- The unit a pipeline closure was built for: the `pkg` it captures. The
umbrella closure is not a pipeline stage of any unit. -/
def Step.unit : Step → Option PkgPtr
  | Step.buildDuration _ => none
  | Step.cgo pkg => some pkg
  | Step.gc pkg _ => some pkg
  | Step.asm pkg _ _ => some pkg
  | Step.pack pkg _ => some pkg
  | Step.copyfile pkg => some pkg
  | Step.link pkg => some pkg
  | Step.logInfo fn _ => fn.unit

/-- The identity (`ImportPath`) of the unit an Action was built for. -/
def unitOf (E : Env) (a : Action) : Option String :=
  a.Run.unit.map (fun pkg => (E.pkg pkg).ImportPath)

/-- An Action at handle `h` is the terminal Action of the unit with identity
`p`: it is a pipeline stage of `p` and no pipeline stage of `p` depends on it. -/
def IsTerminal (E : Env) (heap : List Action) (h : Handle) (p : String) : Prop :=
  (∃ a, heap[h]? = some a ∧ unitOf E a = some p) ∧
    ∀ (h1 : Handle) (a1 : Action), heap[h1]? = some a1 → unitOf E a1 = some p → h ∉ a1.Deps

/-- The Actions a call has added to the heap `before`. -/
def added (before after : List Action) : List Action := after.drop before.length

/-- The unit dependency relation is acyclic on identities: `rank`, a rank of
identities, decreases from a unit to every import and to every implicit
dependency the resolver returns for it. This asks more than that no unit
depends on itself (`AcyclicUnits`): it excludes a unit that depends on another
unit of its own identity. -/
def Acyclic (E : Env) (rank : String → Nat) : Prop :=
  ∀ pkg : PkgPtr,
    (∀ i ∈ (E.pkg pkg).Imports, rank (E.pkg i).ImportPath < rank (E.pkg pkg).ImportPath) ∧
    (∀ name ∈ extraImports E (E.pkg pkg), ∀ i, E.ResolvePackage pkg name = Except.ok i →
      rank (E.pkg i).ImportPath < rank (E.pkg pkg).ImportPath)

/-- A call that turned the heap `before` into `after` added an Action of stage
`st`. -/
def hasStage (before after : List Action) (st : Stage) : Prop :=
  ∃ x ∈ added before after, x.Run.stage = st

/-- The errors `BuildPackage` returns are made at line 131, by the resolver or
by cgo. -/
def BuildErr (e : Err) : Prop :=
  (∃ p, e = Err.noGoFiles p) ∨ (∃ m, e = Err.resolve m) ∨ (∃ m, e = Err.cgo m)

/-- A run of the loop of lines 262-272 from state `s` over `pkgs` that ends in
state `s2` with the Actions `deps`, every call of `BuildPackage` in it being
related to its result by `Post`. -/
inductive Chain (Post : State → PkgPtr → Option Handle → State → Prop) :
    State → List PkgPtr → List Handle → State → Prop where
  | nil (s : State) : Chain Post s [] [] s
  | cons (s s1 s2 : State) (i : PkgPtr) (rest : List PkgPtr) (r : Option Handle)
      (deps : List Handle) (hcall : Post s i r s1) (hrest : Chain Post s1 rest deps s2) :
      Chain Post s (i :: rest) (r.toList ++ deps) s2

/-- The heap `s1` extends the heap `s`: every Action of `s` is still at its
handle. -/
def Grows (s s1 : State) : Prop :=
  ∀ (i : Handle) (a : Action), s.heap[i]? = some a → s1.heap[i]? = some a

/-- Every pipeline Action of the heap was built for a stale unit, and every
memo entry is an Action built for a stale unit of that identity. -/
def InvA (E : Env) (s : State) : Prop :=
  (∀ (h : Handle) (a : Action) (q : PkgPtr), s.heap[h]? = some a → a.Run.unit = some q →
    (E.pkg q).NotStale = false) ∧
  (∀ (p : String) (h : Handle), s.targets.lookup p = some h →
    ∃ (a : Action) (q : PkgPtr), s.heap[h]? = some a ∧ a.Run.unit = some q ∧
      (E.pkg q).ImportPath = p ∧ (E.pkg q).NotStale = false)

/-- What a call of `BuildPackage` keeps: the heap grows and `InvA` is kept. -/
def PostA (E : Env) (s : State) (_pkg : PkgPtr) (_r : Option Handle) (s1 : State) : Prop :=
  Grows s s1 ∧ (InvA E s → InvA E s1)

/-- The sharing invariant of the heap and the memo: every memo entry is an
Action built for the entry's identity; every pipeline Action of an identity is
the memo entry of that identity or a dependency of a pipeline Action of the same
identity; every dependency edge that crosses identities points to the memo entry
of the identity it points into; no dependency dangles; no pipeline Action of an
identity depends on the memo entry of that identity. -/
def InvB (E : Env) (s : State) : Prop :=
  (∀ (p : String) (h : Handle), s.targets.lookup p = some h →
    ∃ a : Action, s.heap[h]? = some a ∧ unitOf E a = some p) ∧
  (∀ (h : Handle) (a : Action) (p : String), s.heap[h]? = some a → unitOf E a = some p →
    s.targets.lookup p = some h ∨
      ∃ (h1 : Handle) (a1 : Action), s.heap[h1]? = some a1 ∧ unitOf E a1 = some p ∧
        h ∈ a1.Deps) ∧
  (∀ (h : Handle) (a : Action) (d : Handle) (b : Action) (q : String),
    s.heap[h]? = some a → d ∈ a.Deps → s.heap[d]? = some b → unitOf E b = some q →
    unitOf E a ≠ some q → s.targets.lookup q = some d) ∧
  (∀ (h : Handle) (a : Action) (d : Handle), s.heap[h]? = some a → d ∈ a.Deps →
    d < s.heap.length) ∧
  (∀ (p : String) (h : Handle), s.targets.lookup p = some h →
    ∀ (h1 : Handle) (a1 : Action), s.heap[h1]? = some a1 → unitOf E a1 = some p →
      h ∉ a1.Deps)

/-- What a call of `BuildPackage` for `pkg` does under an acyclic `rank`: the
heap grows; memo entries stay; identities of a larger rank than `pkg` keep their
memo state; a returned Action is the memo entry of `pkg`; `InvB` is kept. -/
def PostB (E : Env) (rank : String → Nat) (s : State) (pkg : PkgPtr) (r : Option Handle)
    (s1 : State) : Prop :=
  Grows s s1 ∧
  (∀ (q : String) (h : Handle), s.targets.lookup q = some h → s1.targets.lookup q = some h) ∧
  (∀ q : String, rank (E.pkg pkg).ImportPath < rank q →
    s1.targets.lookup q = s.targets.lookup q) ∧
  (∀ h : Handle, r = some h → s1.targets.lookup (E.pkg pkg).ImportPath = some h) ∧
  (InvB E s → InvB E s1)

/-! ## Example inputs -/

/-- A stale library unit with the given identity, Go files and imports. -/
def lib (path : String) (gofiles : List String) (imports : List PkgPtr) : Package :=
  { ImportPath := path, Dir := "/src/" ++ path, GoFiles := gofiles, CgoFiles := [],
    SFiles := [], SysoFiles := [], Imports := imports, Main := false, TestScope := false,
    Install := false, race := false, NotStale := false }

/-- Collaborators of the examples that have no cgo files: the resolver and cgo
fail, paths are joined with a slash. -/
def plainEnv (pkg : PkgPtr → Package) : Env :=
  { pkg := pkg
    ResolvePackage := fun _ name => Except.error name
    cgo := fun _ => Except.error "cgo"
    Workdir := fun _ => "/work"
    Join := fun l => "/".intercalate l
    stripext := fun s => s
    versionAbove1_7 := true }

/-- The diamond: `d` imports `b` and `c`, which both import `a`. -/
def diamondEnv : Env :=
  plainEnv fun i =>
    match i with
    | 0 => lib "a" ["a.go"] []
    | 1 => lib "b" ["b.go"] [0]
    | 2 => lib "c" ["c.go"] [0]
    | 3 => lib "d" ["d.go"] [1, 2]
    | _ => lib "" [] []

/-- A rank for the identities of the diamond. -/
def diamondRank (p : String) : Nat :=
  if p = "d" then 2 else if p = "b" then 1 else if p = "c" then 1 else 0

/-- The state `BuildPackages` returns for the root `d` of the diamond. -/
def diamondState : State :=
  { heap :=
      [{ Name := "compile: a", Deps := [], Run := Step.logInfo (Step.gc 0 ["a.go"]) "a" },
       { Name := "compile: b", Deps := [0], Run := Step.logInfo (Step.gc 1 ["b.go"]) "b" },
       { Name := "compile: c", Deps := [0], Run := Step.logInfo (Step.gc 2 ["c.go"]) "c" },
       { Name := "compile: d", Deps := [1, 2], Run := Step.logInfo (Step.gc 3 ["d.go"]) "d" },
       { Name := "build: d", Deps := [3], Run := Step.buildDuration 3 }]
    targets := [("d", 3), ("c", 2), ("b", 1), ("a", 0)] }

/-- The state after `BuildPackage` has built the unit `a` of the diamond. -/
def builtA : State :=
  { heap := [{ Name := "compile: a", Deps := [], Run := Step.logInfo (Step.gc 0 ["a.go"]) "a" }]
    targets := [("a", 0)] }

/-- Unit 0 is `a`, up to date; unit 1 is `b`, stale, and imports `a`. -/
def upToDateEnv : Env :=
  plainEnv fun i =>
    match i with
    | 0 => { lib "a" ["a.go"] [] with NotStale := true }
    | 1 => lib "b" ["b.go"] [0]
    | _ => lib "" [] []

/-- The state `BuildPackages` returns for the root `b` of `upToDateEnv`. -/
def upToDateState : State :=
  { heap :=
      [{ Name := "compile: b", Deps := [], Run := Step.logInfo (Step.gc 1 ["b.go"]) "b" },
       { Name := "build: b", Deps := [0], Run := Step.buildDuration 1 }]
    targets := [("b", 0)] }

/-- Two units with the identity `a`: unit 0 is stale, unit 1 is up to date. -/
def twinEnv : Env :=
  plainEnv fun i =>
    match i with
    | 0 => lib "a" ["a.go"] []
    | 1 => { lib "a" ["a.go"] [] with NotStale := true }
    | _ => lib "" [] []

/-- The state `BuildPackages` returns for the roots 0 and 1 of `twinEnv`. -/
def twinState : State :=
  { heap :=
      [{ Name := "compile: a", Deps := [], Run := Step.logInfo (Step.gc 0 ["a.go"]) "a" },
       { Name := "build: a,a", Deps := [0, 0], Run := Step.buildDuration 0 }]
    targets := [("a", 0)] }

/-- Units with cgo, assembly and system object files. Unit 0 is the command
`m` with all of them and the install flag; unit 1 is the library `s` with two
assembly files; unit 2 is the library `f` whose cgo step fails; unit 3 is the
library `g` that has only a cgo file, for which cgo generates no Go file. -/
def mixedEnv : Env :=
  { pkg := fun i =>
      match i with
      | 0 => { lib "m" ["m.go"] [] with
                CgoFiles := ["m.c"], SFiles := ["m.s"], SysoFiles := ["m.syso"],
                Main := true, Install := true }
      | 1 => { lib "s" ["s.go"] [] with SFiles := ["x.s", "y.s"] }
      | 2 => { lib "f" ["f.go"] [] with CgoFiles := ["f.c"], SFiles := ["f.s"] }
      | 3 => { lib "g" [] [] with CgoFiles := ["g.c"] }
      | _ => lib "" [] []
    ResolvePackage := fun _ name => Except.error name
    cgo := fun i =>
      match i with
      | 0 => Except.ok { name := "cgo: m", ofiles := ["_cgo.o"], gofiles := ["_cgo.go"] }
      | 3 => Except.ok { name := "cgo: g", ofiles := ["_cgo.o"], gofiles := [] }
      | _ => Except.error "boom"
    Workdir := fun _ => "/work"
    Join := fun l => "/".intercalate l
    stripext := fun s => s
    versionAbove1_7 := true }

/-- The heap `Compile` returns for the command `m` of `mixedEnv`, called with
an empty heap and no dependencies. -/
def mixedHeap : List Action :=
  [{ Name := "cgo: m", Deps := [], Run := Step.cgo 0 },
   { Name := "compile: m", Deps := [0], Run := Step.gc 0 ["m.go", "_cgo.go"] },
   { Name := "asm: m/m.s", Deps := [1], Run := Step.asm 0 "/work/m/m.s.6" "m.s" },
   { Name := "pack: m", Deps := [1, 2],
     Run := Step.pack 0 ["_cgo.o", "/work/m/m.s.6", "/src/m/m.syso"] },
   { Name := "install: m", Deps := [3], Run := Step.copyfile 0 },
   { Name := "link: m", Deps := [4], Run := Step.logInfo (Step.link 0) "m" }]

/-! ## Closed forms used in the proofs -/

/-- The object file of one assembly file (line 145). -/
def asmOfile (E : Env) (pkg : PkgPtr) (sfile : String) : String :=
  E.Join [E.Workdir pkg, (E.pkg pkg).ImportPath, E.stripext sfile ++ ".6"]

/-- The Action of one assembly file (lines 146-156). -/
def asmAction (E : Env) (pkg : PkgPtr) (compile : Handle) (sfile : String) : Action :=
  { Name := "asm: " ++ (E.pkg pkg).ImportPath ++ "/" ++ sfile
    Run := Step.asm pkg (asmOfile E pkg sfile) sfile
    Deps := [compile] }

/-- The value of `ofiles` at line 165, from its value at line 130. -/
def allOfiles (E : Env) (pkg : PkgPtr) (ofiles : List String) : List String :=
  ofiles ++ (E.pkg pkg).SFiles.map (asmOfile E pkg)
    ++ (E.pkg pkg).SysoFiles.map (fun syso => E.Join [(E.pkg pkg).Dir, syso])

/-- Whether `Compile` allocates a pack Action (line 168). -/
def hasPack (E : Env) (pkg : PkgPtr) (ofiles : List String) : Bool :=
  decide (0 < (allOfiles E pkg ofiles).length)

/-- Whether `Compile` allocates an install Action (line 194). -/
def hasInstall (E : Env) (pkg : PkgPtr) : Bool :=
  (E.pkg pkg).Install && !(E.pkg pkg).TestScope

/-- The compile Action (lines 135-139). -/
def compileAction (E : Env) (pkg : PkgPtr) (gofiles : List String) (deps : List Handle) :
    Action :=
  { Name := "compile: " ++ (E.pkg pkg).ImportPath, Deps := deps, Run := Step.gc pkg gofiles }

/-- The pack Action (lines 169-189) for a compile Action at handle `n`. -/
def packAction (E : Env) (pkg : PkgPtr) (ofiles : List String) (n : Nat) : Action :=
  { Name := "pack: " ++ (E.pkg pkg).ImportPath
    Deps := n :: List.range' (n + 1) (E.pkg pkg).SFiles.length
    Run := Step.pack pkg (allOfiles E pkg ofiles) }

/-- The install Action (lines 195-199). -/
def installAction (E : Env) (pkg : PkgPtr) (prior : Handle) : Action :=
  { Name := "install: " ++ (E.pkg pkg).ImportPath, Deps := [prior], Run := Step.copyfile pkg }

/-- The link Action (lines 204-208). -/
def linkAction (E : Env) (pkg : PkgPtr) (prior : Handle) : Action :=
  { Name := "link: " ++ (E.pkg pkg).ImportPath, Deps := [prior], Run := Step.link pkg }

/-- A stage that is present only under a condition. -/
def opt (b : Bool) (a : Action) : List Action := if b then [a] else []

/-- The number of Actions a condition contributes. -/
def cnt (b : Bool) : Nat := if b then 1 else 0

/-- The Actions lines 135-209 allocate, in allocation order, when the heap
holds `n` Actions at line 135. -/
def stages (E : Env) (pkg : PkgPtr) (gofiles ofiles : List String) (deps : List Handle)
    (n : Nat) : List Action :=
  let k := (E.pkg pkg).SFiles.length
  let b1 := n + k + cnt (hasPack E pkg ofiles)
  let b2 := b1 + cnt (hasInstall E pkg)
  compileAction E pkg gofiles deps
    :: ((E.pkg pkg).SFiles.map (asmAction E pkg n)
        ++ opt (hasPack E pkg ofiles) (packAction E pkg ofiles n)
        ++ opt (hasInstall E pkg) (installAction E pkg b1)
        ++ opt (E.pkg pkg).Main (linkAction E pkg b2))

/-- The effect of line 213 on the Action at handle `i`, when `t` is the
terminal handle. -/
def finish (E : Env) (pkg : PkgPtr) (t i : Handle) (a : Action) : Action :=
  if i = t ∧ (E.pkg pkg).TestScope = false then
    { a with Run := logInfoFn a.Run (E.pkg pkg).ImportPath }
  else a

/-- Whether `Compile` runs the cgo step (line 119). -/
def cgoRuns (E : Env) (pkg : PkgPtr) : Bool := decide (0 < (E.pkg pkg).CgoFiles.length)

/-- The value of `gofiles` at line 130 when the cgo step did not fail: the
plain Go files followed by the Go files cgo generated. -/
def effGofiles (E : Env) (pkg : PkgPtr) : List String :=
  (E.pkg pkg).GoFiles ++
    (if cgoRuns E pkg then
      match E.cgo pkg with
      | Except.ok r => r.gofiles
      | Except.error _ => []
    else [])

/-- The value of `ofiles` at line 130 when the cgo step did not fail: the
object files cgo produced. -/
def cgoOfiles (E : Env) (pkg : PkgPtr) : List String :=
  if cgoRuns E pkg then
    match E.cgo pkg with
    | Except.ok r => r.ofiles
    | Except.error _ => []
  else []

/-- The value of `deps` at line 130, when the heap holds `n` Actions at the
entry of `Compile`. -/
def effDeps (E : Env) (pkg : PkgPtr) (deps : List Handle) (n : Nat) : List Handle :=
  deps ++ (if cgoRuns E pkg then [n] else [])

/-- The extra object files of a unit: those cgo produced, one per assembly
file, and the system object files. -/
def extraObjects (E : Env) (pkg : PkgPtr) : List String :=
  allOfiles E pkg (cgoOfiles E pkg)

/-- The cgo step does not fail: it is not run, or `cgo` returns no error. -/
def cgoSucceeds (E : Env) (pkg : PkgPtr) : Prop :=
  (E.pkg pkg).CgoFiles = [] ∨ ∃ r, E.cgo pkg = Except.ok r

/-! ## The calls of the resolver -/

/-- The names the loop of lines 255-261 passes to `pkg.ResolvePackage`, in
call order; the loop returns at the first name the resolver fails on. -/
def resolveCalls (E : Env) (pkg : PkgPtr) : List String → List String
  | [] => []
  | i :: rest =>
    match E.ResolvePackage pkg i with
    | Except.error _ => [i]
    | Except.ok _ => i :: resolveCalls E pkg rest

/-- Unit 0 is the command `cmd/r`, race-instrumented and without cgo files.
The resolver knows no unit. -/
def commandEnv : Env :=
  plainEnv fun i =>
    match i with
    | 0 => { lib "cmd/r" ["r.go"] [] with Main := true, race := true }
    | _ => lib "" [] []

/-- Unit 0 is the library `c` with a cgo file; unit 1 is the unit `runtime/cgo`
itself, with a cgo file; unit 2 is the test-scope library `t`; unit 3 is the
command `cmd/y` with a cgo file; unit 4 is the library `runtime`. The resolver
maps `runtime/cgo` to unit 1 and `runtime` to unit 4 and fails on every other
name. -/
def cgoLibEnv : Env :=
  { pkg := fun i =>
      match i with
      | 0 => { lib "c" ["c.go"] [] with CgoFiles := ["c.c"] }
      | 1 => { lib "runtime/cgo" ["cgo.go"] [] with CgoFiles := ["gcc.c"] }
      | 2 => { lib "t" ["t.go"] [] with TestScope := true }
      | 3 => { lib "cmd/y" ["y.go"] [] with CgoFiles := ["y.c"], Main := true }
      | 4 => lib "runtime" ["runtime.go"] []
      | _ => lib "" [] []
    ResolvePackage := fun _ name =>
      if name = "runtime/cgo" then Except.ok 1
      else if name = "runtime" then Except.ok 4
      else Except.error name
    cgo := fun _ =>
      Except.ok { name := "cgo", ofiles := ["_cgo.o"], gofiles := ["_cgo.go"] }
    Workdir := fun _ => "/work"
    Join := fun l => "/".intercalate l
    stripext := fun s => s
    versionAbove1_7 := true }

/-- The state `BuildDependencies` returns for the command `cmd/y` of
`cgoLibEnv`: the only Action is the compile stage of `runtime`. -/
def commandDepsState : State :=
  { heap :=
      [{ Name := "compile: runtime", Deps := [],
         Run := Step.logInfo (Step.gc 4 ["runtime.go"]) "runtime" }]
    targets := [("runtime", 0)] }

/-! ## The calls of `BuildPackage` -/

/-- Whether the loop of lines 55-69 calls `BuildPackage` for a root unit: the
unit has a Go file or a cgo file (line 56). -/
def hasSource (E : Env) (pkg : PkgPtr) : Bool :=
  !((E.pkg pkg).GoFiles.length + (E.pkg pkg).CgoFiles.length == 0)

/-- The call `BuildPackage(targets, i)` in state `s` returns `r` and leaves the
state `s1`. -/
def Returned (E : Env) (fuel : Nat) (s : State) (i : PkgPtr) (r : Option Handle)
    (s1 : State) : Prop :=
  BuildPackage E fuel s i = Outcome.ok r s1

/-- The umbrella Action of lines 47-53 with the dependency list `deps`. -/
def umbrellaAction (E : Env) (pkgs : List PkgPtr) (pkg0 : PkgPtr) (deps : List Handle) :
    Action :=
  { Name := "build: " ++ ",".intercalate (names E pkgs)
    Deps := deps
    Run := Step.buildDuration pkg0 }

/-- The state of the heap and the memo at line 35 of `BuildPackages`. -/
def emptyState : State := { heap := [], targets := [] }

/-- The call `BuildPackage E fuel s pkg` is, or makes through the loop of lines
262-272 (at any depth), the call `BuildPackage E fuel2 s2 pkg2`: the unit `pkg` is
not in the memo and is stale, its implicit dependencies resolve, the calls for
the units before `i` in `pkgs` return, and the call for `i` reaches the call for
`pkg2`. -/
inductive Reaches (E : Env) : Nat → State → PkgPtr → Nat → State → PkgPtr → Prop where
  | here (fuel : Nat) (s : State) (pkg : PkgPtr) : Reaches E fuel s pkg fuel s pkg
  | dep (fuel : Nat) (s s1 : State) (pkg i : PkgPtr) (pre post : List PkgPtr)
      (d : List Handle) (fuel2 : Nat) (s2 : State) (pkg2 : PkgPtr)
      (hmemo : s.targets.lookup (E.pkg pkg).ImportPath = none)
      (hstale : (E.pkg pkg).NotStale = false)
      (hres : resolveLoop E pkg (extraImports E (E.pkg pkg)) (E.pkg pkg).Imports =
        Except.ok (pre ++ i :: post))
      (hpre : depsLoop (BuildPackage E fuel) pre [] s = Outcome.ok d s1)
      (hrest : Reaches E fuel s1 i fuel2 s2 pkg2) :
      Reaches E (fuel + 1) s pkg fuel2 s2 pkg2

/-- The call `BuildPackages E fuel pkgs` makes the call
`BuildPackage E fuel2 s2 pkg2`, for a root unit that has source files or below
one: the loop of lines 55-69 gets past the roots before the root `i`, and the
call for `i` reaches the call for `pkg2`. -/
def RootReaches (E : Env) (fuel : Nat) (pkgs : List PkgPtr) (fuel2 : Nat) (s2 : State)
    (pkg2 : PkgPtr) : Prop :=
  ∃ (pre : List PkgPtr) (i : PkgPtr) (post : List PkgPtr) (d : List Handle) (s1 : State),
    pkgs = pre ++ i :: post ∧ hasSource E i = true ∧
    rootLoop E fuel pre [] emptyState = Outcome.ok d s1 ∧
    Reaches E fuel s1 i fuel2 s2 pkg2

/-- Unit 0 is the root `r`, which imports `u`; unit 1 is `u`, stale and without
source files, which imports `v`; unit 2 is `v`, a library with a cgo file, whose
implicit dependency `runtime/cgo` the resolver does not know. Unit 3 is the
root `q`, which imports `e`; unit 4 is `e`, stale, without source files and
without imports. -/
def brokenEnv : Env :=
  plainEnv fun i =>
    match i with
    | 0 => lib "r" ["r.go"] [1]
    | 1 => lib "u" [] [2]
    | 2 => { lib "v" ["v.go"] [] with CgoFiles := ["v.c"] }
    | 3 => lib "q" ["q.go"] [4]
    | 4 => lib "e" [] []
    | _ => lib "" [] []

/-! ## Termination -/

/-- The unit dependency relation is well-founded: `rank` decreases from a unit
to every unit it imports and to every unit the resolver returns for one of its
implicit dependencies. -/
def AcyclicUnits (E : Env) (rank : PkgPtr → Nat) : Prop :=
  ∀ pkg : PkgPtr,
    (∀ i ∈ (E.pkg pkg).Imports, rank i < rank pkg) ∧
    (∀ name ∈ extraImports E (E.pkg pkg), ∀ i, E.ResolvePackage pkg name = Except.ok i →
      rank i < rank pkg)

/-- A recursion depth that suffices for the roots `pkgs`: one more than the
largest rank of a root. -/
def depthFor (rank : PkgPtr → Nat) (pkgs : List PkgPtr) : Nat :=
  (pkgs.map rank).foldr max 0 + 1

/-- A rank for the units of the diamond. -/
def diamondUnitRank (i : PkgPtr) : Nat :=
  match i with
  | 1 => 1
  | 2 => 1
  | 3 => 2
  | _ => 0

/-! ## Running a closure -/

/-- What a run of a closure does outside of it: the calls it makes to the
toolchain and to the other collaborators, with their arguments. -/
inductive Event where
  /-- Line 50: `pkgs[0].debug(...)`. -/
  | debug (pkg0 : PkgPtr)
  /-- The run of the closure of the Action that `cgo(pkg)` returns. -/
  | cgo (pkg : PkgPtr)
  /-- Line 278: `pkg.tc.Gc(pkg, gofiles)`. -/
  | Gc (pkg : PkgPtr) (gofiles : List String)
  /-- Line 150: `pkg.tc.Asm(pkg, ofile, sfile)`. -/
  | Asm (pkg : PkgPtr) (ofile : String) (sfile : String)
  /-- Line 184: `pkg.tc.Pack(pkg, ofiles...)`. -/
  | Pack (pkg : PkgPtr) (ofiles : List String)
  /-- Line 285: `pkg.tc.Ld(pkg)`. -/
  | Ld (pkg : PkgPtr)
  /-- Line 198: `fileutils.Copyfile(dst, src)`. -/
  | Copyfile (dst : String) (src : String)
  /-- The call `pkg.Record(name, ...)`. -/
  | Record (pkg : PkgPtr) (name : String)
  /-- Line 221: `fmt.Println(s)`. -/
  | Println (s : String)
deriving DecidableEq, Inhabited

/-- What the closures use and `build.go` does not define: the toolchain
`pkg.tc`, `fileutils.Copyfile`, the closure of the cgo Action, `pkg.objfile()`
and `pkg.installpath()`. A call returns nil (`none`) or an error; what it
returns may depend on the calls made before it, which are the first argument. -/
structure Toolchain where
  Gc : List Event → PkgPtr → List String → Option String
  Asm : List Event → PkgPtr → String → String → Option String
  Pack : List Event → PkgPtr → List String → Option String
  Ld : List Event → PkgPtr → Option String
  Copyfile : List Event → String → String → Option String
  cgoRun : List Event → PkgPtr → Option String
  objfile : PkgPtr → String
  installpath : PkgPtr → String

/-- The result of one run of a closure: the error it returns, the calls it
made, and the closure as the run leaves it (the run of the pack closure
assigns to its captured variable `ofiles`). -/
structure Ran where
  err : Option String
  events : List Event
  next : Step
deriving DecidableEq, Inhabited

/-- One run of a closure after the calls `w`. -/
def Step.run (E : Env) (T : Toolchain) : Step → List Event → Ran
  | Step.buildDuration pkg0, _ =>
    { err := none, events := [Event.debug pkg0], next := Step.buildDuration pkg0 }
  | Step.cgo pkg, w =>
    { err := T.cgoRun w pkg, events := [Event.cgo pkg], next := Step.cgo pkg }
  | Step.gc pkg gofiles, w =>
    { err := T.Gc w pkg gofiles
      events := [Event.Gc pkg gofiles, Event.Record pkg "gc"]
      next := Step.gc pkg gofiles }
  | Step.asm pkg ofile sfile, w =>
    let src := E.Join [(E.pkg pkg).Dir, sfile]
    { err := T.Asm w pkg ofile src
      events := [Event.Asm pkg ofile src, Event.Record pkg "asm"]
      next := Step.asm pkg ofile sfile }
  | Step.pack pkg ofiles, w =>
    let ofiles := [T.objfile pkg] ++ ofiles
    { err := T.Pack w pkg ofiles
      events := [Event.Pack pkg ofiles, Event.Record pkg "pack"]
      next := Step.pack pkg ofiles }
  | Step.copyfile pkg, w =>
    { err := T.Copyfile w (T.installpath pkg) (T.objfile pkg)
      events := [Event.Copyfile (T.installpath pkg) (T.objfile pkg)]
      next := Step.copyfile pkg }
  | Step.link pkg, w =>
    { err := T.Ld w pkg
      events := [Event.Ld pkg, Event.Record pkg "link"]
      next := Step.link pkg }
  | Step.logInfo fn s, w =>
    let r := fn.run E T w
    { err := r.err, events := r.events ++ [Event.Println s], next := Step.logInfo r.next s }

/-- Whether a closure was built by `logInfoFn`. -/
def Step.isLogger : Step → Bool
  | Step.logInfo _ _ => true
  | _ => false

/-- The arguments of the calls of `pkg.tc.Pack` among `evs`, in call order. -/
def packCalls : List Event → List (PkgPtr × List String)
  | [] => []
  | Event.Pack pkg ofiles :: rest => (pkg, ofiles) :: packCalls rest
  | _ :: rest => packCalls rest

/-- The strings a run reported through `fmt.Println`, in call order. -/
def printed : List Event → List String
  | [] => []
  | Event.Println s :: rest => s :: printed rest
  | _ :: rest => printed rest

/-- A toolchain for the examples: the archiver and the linker fail, every other call returns
nil. -/
def failingTools : Toolchain :=
  { Gc := fun _ _ _ => none
    Asm := fun _ _ _ _ => none
    Pack := fun _ _ _ => some "pack failed"
    Ld := fun _ _ => some "ld failed"
    Copyfile := fun _ _ _ => none
    cgoRun := fun _ _ => none
    objfile := fun pkg => "/work/" ++ (mixedEnv.pkg pkg).ImportPath ++ ".a"
    installpath := fun pkg => "/pkg/" ++ (mixedEnv.pkg pkg).ImportPath ++ ".a" }

/-! ## Dependency lists without repetition -/

/-- Whether the units the loop of lines 262-272 calls `BuildPackage` for, on
behalf of `pkg`, have pairwise distinct identities. -/
def depsDistinct (E : Env) (pkg : PkgPtr) : Bool :=
  match resolveLoop E pkg (extraImports E (E.pkg pkg)) (E.pkg pkg).Imports with
  | Except.ok pkgs => decide (names E pkgs).Nodup
  | Except.error _ => true

/-- Every memo entry is an Action built for a unit of the entry's identity, and
the compile Action of a unit whose dependencies have pairwise distinct
identities depends on no Action twice. -/
def InvD (E : Env) (s : State) : Prop :=
  (∀ (p : String) (h : Handle), s.targets.lookup p = some h →
    ∃ (a : Action) (q : PkgPtr), s.heap[h]? = some a ∧ a.Run.unit = some q ∧
      (E.pkg q).ImportPath = p) ∧
  (∀ (h : Handle) (a : Action) (q : PkgPtr), s.heap[h]? = some a →
    a.Run.stage = Stage.compile → a.Run.unit = some q → depsDistinct E q = true →
    a.Deps.Nodup)

/-- What a call of `BuildPackage` for `pkg` keeps: the heap grows, `InvD` is
kept, and a returned Action was built for a unit of the identity of `pkg`. -/
def PostD (E : Env) (s : State) (pkg : PkgPtr) (r : Option Handle) (s1 : State) : Prop :=
  Grows s s1 ∧
  (InvD E s → InvD E s1 ∧
    ∀ h : Handle, r = some h →
      ∃ (a : Action) (q : PkgPtr), s1.heap[h]? = some a ∧ a.Run.unit = some q ∧
        (E.pkg q).ImportPath = (E.pkg pkg).ImportPath)

/-- Unit 0 is the library `runtime`; unit 1 is the command `cmd/x`, which
lists `runtime` among its imports. The resolver maps `runtime` to unit 0. -/
def runtimeEnv : Env :=
  { pkg := fun i =>
      match i with
      | 0 => lib "runtime" ["runtime.go"] []
      | 1 => { lib "cmd/x" ["x.go"] [0] with Main := true }
      | _ => lib "" [] []
    ResolvePackage := fun _ name =>
      if name = "runtime" then Except.ok 0 else Except.error name
    cgo := fun _ => Except.error "cgo"
    Workdir := fun _ => "/work"
    Join := fun l => "/".intercalate l
    stripext := fun s => s
    versionAbove1_7 := true }

/-- The state `BuildPackages` returns for the root `cmd/x` of `runtimeEnv`. -/
def runtimeState : State :=
  { heap :=
      [{ Name := "compile: runtime", Deps := [],
         Run := Step.logInfo (Step.gc 0 ["runtime.go"]) "runtime" },
       { Name := "compile: cmd/x", Deps := [0, 0], Run := Step.gc 1 ["x.go"] },
       { Name := "link: cmd/x", Deps := [1], Run := Step.logInfo (Step.link 1) "cmd/x" },
       { Name := "build: cmd/x", Deps := [2], Run := Step.buildDuration 1 }]
    targets := [("cmd/x", 2), ("runtime", 0)] }

/-- The state `BuildPackages` returns when the unit `a` of the diamond is
listed twice as a root. -/
def twiceState : State :=
  { heap :=
      [{ Name := "compile: a", Deps := [], Run := Step.logInfo (Step.gc 0 ["a.go"]) "a" },
       { Name := "build: a,a", Deps := [0, 0], Run := Step.buildDuration 0 }]
    targets := [("a", 0)] }

/-! ## Two units of one identity in one chain -/

/-- Unit 0 is the library `a`; unit 1 is the library `b`, which lists unit 0
among its imports; unit 2 is a second unit with the identity `a`, which lists
`b` among its imports. No unit depends on itself. -/
def shadowEnv : Env :=
  plainEnv fun i =>
    match i with
    | 0 => lib "a" ["a.go"] []
    | 1 => lib "b" ["b.go"] [0]
    | 2 => lib "a" ["a2.go"] [1]
    | _ => lib "" [] []

/-- A rank for the units of `shadowEnv`. -/
def shadowRank (i : PkgPtr) : Nat :=
  match i with
  | 1 => 1
  | 2 => 2
  | _ => 0

/-- The state `BuildPackages` returns for the root 2 of `shadowEnv`. -/
def shadowState : State :=
  { heap :=
      [{ Name := "compile: a", Deps := [], Run := Step.logInfo (Step.gc 0 ["a.go"]) "a" },
       { Name := "compile: b", Deps := [0], Run := Step.logInfo (Step.gc 1 ["b.go"]) "b" },
       { Name := "compile: a", Deps := [1], Run := Step.logInfo (Step.gc 2 ["a2.go"]) "a" },
       { Name := "build: a", Deps := [2], Run := Step.buildDuration 2 }]
    targets := [("a", 2), ("b", 1), ("a", 0)] }

/-! ## The loops of `Compile` -/

theorem asmLoop_eq (E : Env) (pkg : PkgPtr) (c : Handle) (S : List String) :
    ∀ (as : List Handle) (ofs : List String) (heap : List Action),
      asmLoop E pkg c S (as, ofs, heap) =
        (as ++ List.range' heap.length S.length, ofs ++ S.map (asmOfile E pkg),
          heap ++ S.map (asmAction E pkg c)) := by
  induction S with
  | nil => intro as ofs heap; simp [asmLoop]
  | cons s rest ih =>
    intro as ofs heap
    simp [asmLoop, alloc, ih, asmOfile, asmAction, List.range'_succ]

theorem sysoLoop_eq (E : Env) (pkg : PkgPtr) (Y : List String) :
    ∀ ofs : List String,
      sysoLoop E pkg Y ofs = ofs ++ Y.map (fun syso => E.Join [(E.pkg pkg).Dir, syso]) := by
  induction Y with
  | nil => intro ofs; simp [sysoLoop]
  | cons s rest ih => intro ofs; simp [sysoLoop, ih]

theorem opt_length (b : Bool) (a : Action) : (opt b a).length = cnt b := by
  cases b <;> rfl

theorem mem_opt (b : Bool) (a x : Action) : x ∈ opt b a ↔ b = true ∧ x = a := by
  cases b <;> simp [opt]

theorem allOfiles_length (E : Env) (pkg : PkgPtr) (ofiles : List String) :
    (E.pkg pkg).SFiles.length ≤ (allOfiles E pkg ofiles).length := by
  simp [allOfiles]; omega

theorem hasPack_of_SFiles (E : Env) (pkg : PkgPtr) (ofiles : List String)
    (h : hasPack E pkg ofiles = false) : (E.pkg pkg).SFiles.length = 0 := by
  have hlen := allOfiles_length E pkg ofiles
  have h1 := of_decide_eq_false h
  omega

theorem cnt_le (b : Bool) : cnt b ≤ 1 := by
  cases b <;> simp [cnt]

theorem cnt_true : cnt true = 1 := rfl

theorem cnt_false : cnt false = 0 := rfl

theorem stages_length (E : Env) (pkg : PkgPtr) (gofiles ofiles : List String)
    (deps : List Handle) (n : Nat) :
    (stages E pkg gofiles ofiles deps n).length =
      1 + (E.pkg pkg).SFiles.length + cnt (hasPack E pkg ofiles)
        + cnt (hasInstall E pkg) + cnt (E.pkg pkg).Main := by
  simp only [stages, List.length_cons, List.length_append, List.length_map, opt_length]
  omega

theorem compileRest_eq (E : Env) (pkg : PkgPtr) (gofiles ofiles : List String)
    (deps : List Handle) (heap : List Action) (hg : gofiles ≠ []) :
    compileRest E pkg gofiles ofiles deps heap =
      (Except.ok (heap.length + (stages E pkg gofiles ofiles deps heap.length).length - 1),
        if (E.pkg pkg).TestScope then heap ++ stages E pkg gofiles ofiles deps heap.length
        else setRun (heap ++ stages E pkg gofiles ofiles deps heap.length)
          (heap.length + (stages E pkg gofiles ofiles deps heap.length).length - 1)
          (fun run => logInfoFn run (E.pkg pkg).ImportPath)) := by
  have hk : (allOfiles E pkg ofiles).length = 0 → (E.pkg pkg).SFiles = [] := by
    intro h
    simp [allOfiles] at h
    exact h.2.1
  unfold compileRest
  simp only [List.length_eq_zero, beq_iff_eq, hg, if_false, asmLoop_eq, sysoLoop_eq, alloc]
  by_cases hp : 0 < (allOfiles E pkg ofiles).length <;>
  by_cases hi : ((E.pkg pkg).Install && !(E.pkg pkg).TestScope) = true <;>
  by_cases hm : (E.pkg pkg).Main = true <;>
  by_cases ht : (E.pkg pkg).TestScope = true <;>
  simp_all [stages, hasPack, hasInstall, opt, cnt, compileAction, packAction, installAction,
    linkAction, allOfiles, Nat.add_assoc]

theorem setRun_length (l : List Action) (t : Handle) (f : Step → Step) :
    (setRun l t f).length = l.length := by
  unfold setRun
  split <;> simp

theorem setRun_getElem? (l : List Action) (t i : Handle) (f : Step → Step) :
    (setRun l t f)[i]? = (l[i]?).map (fun a => if i = t then { a with Run := f a.Run } else a) := by
  unfold setRun
  by_cases hit : i = t
  · subst hit
    cases h : l[i]? with
    | none => simp [h]
    | some a =>
      have hlt : i < l.length := (List.getElem?_eq_some_iff.mp h).1
      simp [h, List.getElem?_set, hlt]
  · cases h : l[t]? with
    | none => simp [hit]
    | some a =>
      have hne : ¬ t = i := fun h => hit h.symm
      simp [hit, List.getElem?_set, hne]

theorem compileRest_fst (E : Env) (pkg : PkgPtr) (gofiles ofiles : List String)
    (deps : List Handle) (heap : List Action) (hg : gofiles ≠ []) :
    (compileRest E pkg gofiles ofiles deps heap).1 =
      Except.ok (heap.length + (stages E pkg gofiles ofiles deps heap.length).length - 1) := by
  rw [compileRest_eq E pkg gofiles ofiles deps heap hg]

theorem compileRest_length (E : Env) (pkg : PkgPtr) (gofiles ofiles : List String)
    (deps : List Handle) (heap : List Action) (hg : gofiles ≠ []) :
    (compileRest E pkg gofiles ofiles deps heap).2.length =
      heap.length + (stages E pkg gofiles ofiles deps heap.length).length := by
  rw [compileRest_eq E pkg gofiles ofiles deps heap hg]
  by_cases ht : (E.pkg pkg).TestScope = true <;> simp [ht, setRun_length]

theorem compileRest_getElem? (E : Env) (pkg : PkgPtr) (gofiles ofiles : List String)
    (deps : List Handle) (heap : List Action) (hg : gofiles ≠ []) (i : Handle) :
    (compileRest E pkg gofiles ofiles deps heap).2[i]? =
      ((heap ++ stages E pkg gofiles ofiles deps heap.length)[i]?).map
        (finish E pkg (heap.length + (stages E pkg gofiles ofiles deps heap.length).length - 1) i) := by
  rw [compileRest_eq E pkg gofiles ofiles deps heap hg]
  by_cases ht : (E.pkg pkg).TestScope = true
  · have hf : ∀ t, finish E pkg t i = id := by
      intro t; funext a; simp [finish, ht]
    simp [ht, hf]
  · have hf : ∀ t, finish E pkg t i = fun a => if i = t then
        { a with Run := logInfoFn a.Run (E.pkg pkg).ImportPath } else a := by
      intro t; funext a; simp [finish, ht]
    simp [ht, setRun_getElem?, hf]

theorem finish_Deps (E : Env) (pkg : PkgPtr) (t i : Handle) (a : Action) :
    (finish E pkg t i a).Deps = a.Deps := by
  unfold finish; split <;> rfl

theorem finish_Name (E : Env) (pkg : PkgPtr) (t i : Handle) (a : Action) :
    (finish E pkg t i a).Name = a.Name := by
  unfold finish; split <;> rfl

theorem finish_stage (E : Env) (pkg : PkgPtr) (t i : Handle) (a : Action) :
    (finish E pkg t i a).Run.stage = a.Run.stage := by
  unfold finish; split <;> simp [logInfoFn, Step.stage]

theorem finish_unit (E : Env) (pkg : PkgPtr) (t i : Handle) (a : Action) :
    (finish E pkg t i a).Run.unit = a.Run.unit := by
  unfold finish; split <;> simp [logInfoFn, Step.unit]

theorem stages_unit (E : Env) (pkg : PkgPtr) (gofiles ofiles : List String)
    (deps : List Handle) (n : Nat) :
    ∀ a ∈ stages E pkg gofiles ofiles deps n, a.Run.unit = some pkg := by
  intro a ha
  simp only [stages, List.mem_cons, List.mem_append, List.mem_map, mem_opt] at ha
  rcases ha with rfl | (((⟨s, _, rfl⟩ | ⟨_, rfl⟩) | ⟨_, rfl⟩) | ⟨_, rfl⟩) <;> rfl

theorem stages_Deps (E : Env) (pkg : PkgPtr) (gofiles ofiles : List String)
    (deps : List Handle) (n : Nat) :
    ∀ a ∈ stages E pkg gofiles ofiles deps n, ∀ d ∈ a.Deps,
      d ∈ deps ∨ (n ≤ d ∧ d + 1 < n + (stages E pkg gofiles ofiles deps n).length) := by
  intro a ha d hd
  rw [stages_length]
  have h1 := cnt_le (hasPack E pkg ofiles)
  have h2 := cnt_le (hasInstall E pkg)
  have h3 := cnt_le (E.pkg pkg).Main
  simp only [stages, List.mem_cons, List.mem_append, List.mem_map, mem_opt] at ha
  rcases ha with rfl | (((⟨s, hs, rfl⟩ | ⟨hp, rfl⟩) | ⟨hi, rfl⟩) | ⟨hm, rfl⟩)
  · exact Or.inl hd
  · simp only [asmAction, List.mem_singleton] at hd
    have hk : 0 < (E.pkg pkg).SFiles.length := List.length_pos_of_mem hs
    right; unfold Handle at *; omega
  · simp only [packAction, List.mem_cons, List.mem_range'_1] at hd
    right; rw [hp, cnt_true]; unfold Handle at *; omega
  · simp only [installAction, List.mem_singleton] at hd
    right; rw [hi, cnt_true]; unfold Handle at *; omega
  · simp only [linkAction, List.mem_singleton] at hd
    right; rw [hm, cnt_true]; unfold Handle at *; omega

/-- Every Action of a pipeline but the last is a dependency of a later one. -/
theorem stages_used (E : Env) (pkg : PkgPtr) (gofiles ofiles : List String)
    (deps : List Handle) (n : Nat) (j : Nat)
    (hj : j + 1 < (stages E pkg gofiles ofiles deps n).length) :
    ∃ a ∈ stages E pkg gofiles ofiles deps n, n + j ∈ a.Deps := by
  rw [stages_length] at hj
  have hS := hasPack_of_SFiles E pkg ofiles
  simp only [stages, List.mem_cons, List.mem_append, List.mem_map, mem_opt]
  cases hp : hasPack E pkg ofiles
  · -- no pack Action, hence no assembly file
    have hk : (E.pkg pkg).SFiles.length = 0 := hS hp
    rw [hp, hk, cnt_false] at hj
    cases hi : hasInstall E pkg
    · rw [hi, cnt_false] at hj
      cases hm : (E.pkg pkg).Main
      · rw [hm, cnt_false] at hj; omega
      · rw [hm, cnt_true] at hj
        refine ⟨linkAction E pkg _, Or.inr (Or.inr ⟨rfl, rfl⟩), ?_⟩
        simp only [linkAction, List.mem_singleton, hk, cnt_false]
        omega
    · rw [hi, cnt_true] at hj
      by_cases hj0 : j = 0
      · refine ⟨installAction E pkg _, Or.inr (Or.inl (Or.inr ⟨rfl, rfl⟩)), ?_⟩
        simp only [installAction, List.mem_singleton, hk, cnt_false]
        omega
      · cases hm : (E.pkg pkg).Main
        · rw [hm, cnt_false] at hj; omega
        · rw [hm, cnt_true] at hj
          refine ⟨linkAction E pkg _, Or.inr (Or.inr ⟨rfl, rfl⟩), ?_⟩
          simp only [linkAction, List.mem_singleton, hk, cnt_false, cnt_true]
          omega
  · rw [hp, cnt_true] at hj
    by_cases hj1 : j ≤ (E.pkg pkg).SFiles.length
    · refine ⟨packAction E pkg ofiles n, Or.inr (Or.inl (Or.inl (Or.inr ⟨rfl, rfl⟩))), ?_⟩
      simp only [packAction, List.mem_cons, List.mem_range'_1]
      omega
    · cases hi : hasInstall E pkg
      · rw [hi, cnt_false] at hj
        cases hm : (E.pkg pkg).Main
        · rw [hm, cnt_false] at hj; omega
        · rw [hm, cnt_true] at hj
          refine ⟨linkAction E pkg _, Or.inr (Or.inr ⟨rfl, rfl⟩), ?_⟩
          simp only [linkAction, List.mem_singleton, cnt_false, cnt_true]
          omega
      · rw [hi, cnt_true] at hj
        by_cases hj2 : j = (E.pkg pkg).SFiles.length + 1
        · refine ⟨installAction E pkg _, Or.inr (Or.inl (Or.inr ⟨rfl, rfl⟩)), ?_⟩
          simp only [installAction, List.mem_singleton, cnt_true]
          omega
        · cases hm : (E.pkg pkg).Main
          · rw [hm, cnt_false] at hj; omega
          · rw [hm, cnt_true] at hj
            refine ⟨linkAction E pkg _, Or.inr (Or.inr ⟨rfl, rfl⟩), ?_⟩
            simp only [linkAction, List.mem_singleton, cnt_true]
            omega

theorem append_getElem?_lt (heap st : List Action) (i : Nat) (h : i < heap.length) :
    (heap ++ st)[i]? = heap[i]? := by
  simp [List.getElem?_append, h]

theorem append_getElem?_add (heap st : List Action) (j : Nat) :
    (heap ++ st)[heap.length + j]? = st[j]? := by
  simp [List.getElem?_append]

/-- What a successful run of lines 130-215 does to the heap. -/
theorem compileRest_facts (E : Env) (pkg : PkgPtr) (gofiles ofiles : List String)
    (deps : List Handle) (heap heap1 : List Action) (t : Handle)
    (h : compileRest E pkg gofiles ofiles deps heap = (Except.ok t, heap1)) :
    heap.length ≤ t ∧ heap1.length = t + 1 ∧
    (∀ i, i < heap.length → heap1[i]? = heap[i]?) ∧
    (∀ i a, heap.length ≤ i → heap1[i]? = some a →
      a.Run.unit = some pkg ∧
        ∀ d ∈ a.Deps, d ∈ deps ∨ (heap.length ≤ d ∧ d < t)) ∧
    (∀ i, heap.length ≤ i → i < t →
      ∃ i1 a1, heap.length ≤ i1 ∧ heap1[i1]? = some a1 ∧ i ∈ a1.Deps) ∧
    (∃ a, heap1[heap.length]? = some a ∧ a.Deps = deps) := by
  have hg : gofiles ≠ [] := by
    intro hg
    simp [compileRest, hg] at h
  have h1 := compileRest_fst E pkg gofiles ofiles deps heap hg
  have h2 := compileRest_length E pkg gofiles ofiles deps heap hg
  have h3 := compileRest_getElem? E pkg gofiles ofiles deps heap hg
  rw [h] at h1 h2 h3
  simp only at h1 h2 h3
  have hpos : 0 < (stages E pkg gofiles ofiles deps heap.length).length := by
    rw [stages_length]; omega
  have ht : t = heap.length + (stages E pkg gofiles ofiles deps heap.length).length - 1 :=
    Except.ok.inj h1
  unfold Handle at *
  refine ⟨by omega, by omega, ?_, ?_, ?_, ?_⟩
  · intro i hi
    rw [h3, append_getElem?_lt _ _ _ hi]
    have : ∀ a, finish E pkg
        (heap.length + (stages E pkg gofiles ofiles deps heap.length).length - 1) i a = a := by
      intro a
      have hne : i ≠ heap.length + (stages E pkg gofiles ofiles deps heap.length).length - 1 := by
        omega
      simp [finish, hne]
    cases heap[i]? <;> simp [this]
  · intro i a hi ha
    obtain ⟨j, rfl⟩ : ∃ j, i = heap.length + j := ⟨i - heap.length, by omega⟩
    rw [h3, append_getElem?_add] at ha
    cases hs : (stages E pkg gofiles ofiles deps heap.length)[j]? with
    | none => simp [hs] at ha
    | some a0 =>
      rw [hs] at ha
      simp only [Option.map_some', Option.some.injEq] at ha
      have hmem : a0 ∈ stages E pkg gofiles ofiles deps heap.length :=
        List.getElem?_mem hs
      subst ha
      refine ⟨?_, ?_⟩
      · rw [finish_unit]; exact stages_unit E pkg gofiles ofiles deps heap.length a0 hmem
      · intro d hd
        rw [finish_Deps] at hd
        rcases stages_Deps E pkg gofiles ofiles deps heap.length a0 hmem d hd with k | ⟨k1, k2⟩
        · exact Or.inl k
        · refine Or.inr ⟨k1, ?_⟩
          unfold Handle at *
          omega
  · intro i hi hit
    obtain ⟨j, rfl⟩ : ∃ j, i = heap.length + j := ⟨i - heap.length, by omega⟩
    obtain ⟨a0, hmem, hd⟩ := stages_used E pkg gofiles ofiles deps heap.length j (by omega)
    obtain ⟨j0, hj0⟩ := List.mem_iff_getElem?.mp hmem
    refine ⟨heap.length + j0, finish E pkg t (heap.length + j0) a0, by omega, ?_, ?_⟩
    · rw [h3, append_getElem?_add, hj0, ← ht]; rfl
    · rw [finish_Deps]; exact hd
  · refine ⟨finish E pkg t heap.length (compileAction E pkg gofiles deps), ?_, ?_⟩
    · rw [h3]
      have := append_getElem?_add heap (stages E pkg gofiles ofiles deps heap.length) 0
      rw [Nat.add_zero] at this
      rw [this, ← ht]
      simp only [stages, List.getElem?_cons_zero, Option.map_some']
    · rw [finish_Deps]; rfl

/-- What a successful call of `Compile` does to the heap: it only appends; the
terminal Action is the last one; every added Action is built for `pkg`, its
dependencies are among `deps` or added before the terminal one; every added
Action but the terminal one
is a dependency of an added Action, and the terminal one is a dependency of
none. -/
theorem Compile_facts (E : Env) (pkg : PkgPtr) (deps : List Handle)
    (heap heap1 : List Action) (t : Handle)
    (h : Compile E pkg deps heap = (Except.ok t, heap1)) :
    heap.length ≤ t ∧ heap1.length = t + 1 ∧
    (∀ i, i < heap.length → heap1[i]? = heap[i]?) ∧
    (∀ i a, heap.length ≤ i → heap1[i]? = some a →
      a.Run.unit = some pkg ∧
        ∀ d ∈ a.Deps, d ∈ deps ∨ (heap.length ≤ d ∧ d < t)) ∧
    (∀ i, heap.length ≤ i → i < t →
      ∃ i1 a1, heap.length ≤ i1 ∧ heap1[i1]? = some a1 ∧ i ∈ a1.Deps) := by
  unfold Compile at h
  simp only at h
  split at h
  · split at h
    · simp at h
    · rename_i r hr
      simp only [alloc] at h
      obtain ⟨f1, f2, f3, f4, f5, a, f6, f7⟩ := compileRest_facts E pkg _ _ _ _ _ _ h
      simp only [List.length_append, List.length_singleton] at f1 f3 f4 f5 f6
      refine ⟨by omega, f2, ?_, ?_, ?_⟩
      · intro i hi
        rw [f3 i (by omega), append_getElem?_lt _ _ _ hi]
      · intro i b hi hb
        by_cases hin : i = heap.length
        · subst hin
          rw [f3 _ (by omega)] at hb
          have := append_getElem?_add heap
            [({ Name := r.name, Deps := [], Run := Step.cgo pkg } : Action)] 0
          rw [Nat.add_zero] at this
          rw [this] at hb
          simp only [List.getElem?_cons_zero, Option.some.injEq] at hb
          subst hb
          exact ⟨rfl, by simp⟩
        · obtain ⟨g1, g2⟩ := f4 i b (by omega) hb
          refine ⟨g1, ?_⟩
          intro d hd
          rcases g2 d hd with hd1 | hd1
          · rcases List.mem_append.mp hd1 with hd2 | hd2
            · exact Or.inl hd2
            · simp only [List.mem_singleton] at hd2
              right; unfold Handle at *; omega
          · right; unfold Handle at *; omega
      · intro i hi hit
        by_cases hin : i = heap.length
        · refine ⟨heap.length + 1, a, by omega, f6, ?_⟩
          rw [f7, hin]; simp
        · obtain ⟨i1, a1, g1, g2, g3⟩ := f5 i (by omega) hit
          exact ⟨i1, a1, by omega, g2, g3⟩
  · obtain ⟨f1, f2, f3, f4, f5, _⟩ := compileRest_facts E pkg _ _ _ _ _ _ h
    exact ⟨f1, f2, f3, f4, f5⟩

theorem stages_get_compile (E : Env) (pkg : PkgPtr) (gofiles ofiles : List String)
    (deps : List Handle) (n : Nat) :
    (stages E pkg gofiles ofiles deps n)[0]? = some (compileAction E pkg gofiles deps) := by
  simp [stages]

theorem stages_get_asm (E : Env) (pkg : PkgPtr) (gofiles ofiles : List String)
    (deps : List Handle) (n j : Nat) (hj : j < (E.pkg pkg).SFiles.length) :
    (stages E pkg gofiles ofiles deps n)[1 + j]? =
      ((E.pkg pkg).SFiles[j]?).map (asmAction E pkg n) := by
  simp only [stages, Nat.add_comm 1 j, List.getElem?_cons_succ, List.append_assoc]
  rw [List.getElem?_append_left (by simpa using hj)]
  simp

theorem getElem?_of_split (l r : List Action) (a : Action) (i : Nat) (h : i = l.length) :
    (l ++ a :: r)[i]? = some a := by
  subst h
  rw [List.getElem?_append_right (Nat.le_refl _)]
  simp

theorem stages_get_pack (E : Env) (pkg : PkgPtr) (gofiles ofiles : List String)
    (deps : List Handle) (n : Nat) (hp : hasPack E pkg ofiles = true) :
    (stages E pkg gofiles ofiles deps n)[1 + (E.pkg pkg).SFiles.length]? =
      some (packAction E pkg ofiles n) := by
  have hs : stages E pkg gofiles ofiles deps n =
      (compileAction E pkg gofiles deps :: (E.pkg pkg).SFiles.map (asmAction E pkg n))
        ++ packAction E pkg ofiles n
          :: (opt (hasInstall E pkg) (installAction E pkg
                (n + (E.pkg pkg).SFiles.length + cnt (hasPack E pkg ofiles)))
              ++ opt (E.pkg pkg).Main (linkAction E pkg
                (n + (E.pkg pkg).SFiles.length + cnt (hasPack E pkg ofiles)
                  + cnt (hasInstall E pkg)))) := by
    simp [stages, hp, opt]
  rw [hs]
  exact getElem?_of_split _ _ _ _ (by simp; omega)

theorem stages_get_install (E : Env) (pkg : PkgPtr) (gofiles ofiles : List String)
    (deps : List Handle) (n : Nat) (hi : hasInstall E pkg = true) :
    (stages E pkg gofiles ofiles deps n)[1 + (E.pkg pkg).SFiles.length
        + cnt (hasPack E pkg ofiles)]? =
      some (installAction E pkg (n + (E.pkg pkg).SFiles.length + cnt (hasPack E pkg ofiles))) := by
  have hs : stages E pkg gofiles ofiles deps n =
      (compileAction E pkg gofiles deps :: ((E.pkg pkg).SFiles.map (asmAction E pkg n)
          ++ opt (hasPack E pkg ofiles) (packAction E pkg ofiles n)))
        ++ installAction E pkg (n + (E.pkg pkg).SFiles.length + cnt (hasPack E pkg ofiles))
          :: opt (E.pkg pkg).Main (linkAction E pkg
                (n + (E.pkg pkg).SFiles.length + cnt (hasPack E pkg ofiles)
                  + cnt (hasInstall E pkg))) := by
    simp [stages, hi, opt]
  rw [hs]
  exact getElem?_of_split _ _ _ _ (by simp [opt_length]; omega)

theorem stages_get_link (E : Env) (pkg : PkgPtr) (gofiles ofiles : List String)
    (deps : List Handle) (n : Nat) (hm : (E.pkg pkg).Main = true) :
    (stages E pkg gofiles ofiles deps n)[1 + (E.pkg pkg).SFiles.length
        + cnt (hasPack E pkg ofiles) + cnt (hasInstall E pkg)]? =
      some (linkAction E pkg (n + (E.pkg pkg).SFiles.length + cnt (hasPack E pkg ofiles)
        + cnt (hasInstall E pkg))) := by
  have hs : stages E pkg gofiles ofiles deps n =
      (compileAction E pkg gofiles deps :: ((E.pkg pkg).SFiles.map (asmAction E pkg n)
          ++ opt (hasPack E pkg ofiles) (packAction E pkg ofiles n)
          ++ opt (hasInstall E pkg) (installAction E pkg
                (n + (E.pkg pkg).SFiles.length + cnt (hasPack E pkg ofiles)))))
        ++ linkAction E pkg (n + (E.pkg pkg).SFiles.length + cnt (hasPack E pkg ofiles)
                  + cnt (hasInstall E pkg)) :: [] := by
    simp [stages, hm, opt]
  rw [hs]
  exact getElem?_of_split _ _ _ _ (by simp [opt_length]; omega)

/-- The stage of each Action of a pipeline. -/
theorem stages_stage (E : Env) (pkg : PkgPtr) (gofiles ofiles : List String)
    (deps : List Handle) (n : Nat) (a : Action)
    (ha : a ∈ stages E pkg gofiles ofiles deps n) :
    (a.Run.stage = Stage.compile ∧ a = compileAction E pkg gofiles deps) ∨
    (a.Run.stage = Stage.asm ∧ ∃ s ∈ (E.pkg pkg).SFiles, a = asmAction E pkg n s) ∨
    (a.Run.stage = Stage.pack ∧ hasPack E pkg ofiles = true ∧ a = packAction E pkg ofiles n) ∨
    (a.Run.stage = Stage.install ∧ hasInstall E pkg = true ∧
      a = installAction E pkg (n + (E.pkg pkg).SFiles.length + cnt (hasPack E pkg ofiles))) ∨
    (a.Run.stage = Stage.link ∧ (E.pkg pkg).Main = true ∧
      a = linkAction E pkg (n + (E.pkg pkg).SFiles.length + cnt (hasPack E pkg ofiles)
        + cnt (hasInstall E pkg))) := by
  simp only [stages, List.mem_cons, List.mem_append, List.mem_map, mem_opt] at ha
  rcases ha with rfl | (((⟨s, hs, rfl⟩ | ⟨hp, rfl⟩) | ⟨hi, rfl⟩) | ⟨hm, rfl⟩)
  · exact Or.inl ⟨rfl, rfl⟩
  · exact Or.inr (Or.inl ⟨rfl, s, hs, rfl⟩)
  · exact Or.inr (Or.inr (Or.inl ⟨rfl, hp, rfl⟩))
  · exact Or.inr (Or.inr (Or.inr (Or.inl ⟨rfl, hi, rfl⟩)))
  · exact Or.inr (Or.inr (Or.inr (Or.inr ⟨rfl, hm, rfl⟩)))

/-- A successful call of `Compile` is a successful run of lines 130-215 on the
values the cgo step leaves. -/
theorem Compile_shape (E : Env) (pkg : PkgPtr) (deps : List Handle)
    (heap heap1 : List Action) (t : Handle)
    (h : Compile E pkg deps heap = (Except.ok t, heap1)) :
    ∃ heap0 : List Action,
      heap0.length = heap.length + cnt (cgoRuns E pkg) ∧
      (∀ i, i < heap.length → heap0[i]? = heap[i]?) ∧
      (∀ i x, heap.length ≤ i → heap0[i]? = some x → x.Run.stage = Stage.cgo) ∧
      cgoSucceeds E pkg ∧
      compileRest E pkg (effGofiles E pkg) (cgoOfiles E pkg) (effDeps E pkg deps heap.length)
        heap0 = (Except.ok t, heap1) := by
  unfold Compile at h
  simp only at h
  split at h
  · rename_i hc
    have hr : cgoRuns E pkg = true := by simpa [cgoRuns] using hc
    split at h
    · simp at h
    · rename_i r hcg
      refine ⟨heap ++ [{ Name := r.name, Deps := [], Run := Step.cgo pkg }], ?_, ?_, ?_, ?_, ?_⟩
      · simp [hr, cnt_true]
      · intro i hi
        exact append_getElem?_lt _ _ _ hi
      · intro i x hi hx
        obtain ⟨j, rfl⟩ : ∃ j, i = heap.length + j := ⟨i - heap.length, by omega⟩
        rw [append_getElem?_add] at hx
        cases j with
        | zero => simp at hx; subst hx; rfl
        | succ j => simp at hx
      · exact Or.inr ⟨r, hcg⟩
      · simpa [effGofiles, cgoOfiles, effDeps, hr, hcg, alloc] using h
  · rename_i hc
    have hr : cgoRuns E pkg = false := by simpa [cgoRuns] using hc
    refine ⟨heap, ?_, ?_, ?_, ?_, ?_⟩
    · simp [hr, cnt_false]
    · intro i _; rfl
    · intro i x hi hx
      have := (List.getElem?_eq_some_iff.mp hx).1
      omega
    · left; simpa using hc
    · simpa [effGofiles, cgoOfiles, effDeps, hr] using h

/-- Reading the heap after a successful run of lines 130-215. -/
theorem compileRest_lookup (E : Env) (pkg : PkgPtr) (gofiles ofiles : List String)
    (deps : List Handle) (heap heap1 : List Action) (t : Handle)
    (h : compileRest E pkg gofiles ofiles deps heap = (Except.ok t, heap1)) :
    gofiles ≠ [] ∧
    t = heap.length + (E.pkg pkg).SFiles.length + cnt (hasPack E pkg ofiles)
      + cnt (hasInstall E pkg) + cnt (E.pkg pkg).Main ∧
    (∀ j, heap1[heap.length + j]? =
      ((stages E pkg gofiles ofiles deps heap.length)[j]?).map
        (finish E pkg t (heap.length + j))) := by
  have hg : gofiles ≠ [] := by
    intro hg
    simp [compileRest, hg] at h
  have h1 := compileRest_fst E pkg gofiles ofiles deps heap hg
  have h3 := compileRest_getElem? E pkg gofiles ofiles deps heap hg
  rw [h] at h1 h3
  simp only at h1 h3
  have ht : t = heap.length + (stages E pkg gofiles ofiles deps heap.length).length - 1 :=
    Except.ok.inj h1
  refine ⟨hg, ?_, ?_⟩
  · rw [stages_length] at ht
    unfold Handle at *
    omega
  · intro j
    rw [h3, append_getElem?_add, ← ht]

theorem mem_added (before after : List Action) (x : Action) :
    x ∈ added before after ↔ ∃ i, before.length ≤ i ∧ after[i]? = some x := by
  unfold added
  rw [List.mem_iff_getElem?]
  constructor
  · rintro ⟨j, hj⟩
    rw [List.getElem?_drop] at hj
    exact ⟨before.length + j, by omega, hj⟩
  · rintro ⟨i, hi, hx⟩
    refine ⟨i - before.length, ?_⟩
    rw [List.getElem?_drop]
    have : before.length + (i - before.length) = i := by omega
    rw [this]; exact hx

/-- Every Action a successful `Compile` adds is the cgo Action or one of the
Actions of `stages`, up to the completion logger. -/
theorem Compile_added (E : Env) (pkg : PkgPtr) (deps : List Handle)
    (heap heap1 : List Action) (t : Handle)
    (h : Compile E pkg deps heap = (Except.ok t, heap1)) (i : Nat) (x : Action)
    (hi : heap.length ≤ i) (hx : heap1[i]? = some x) :
    (x.Run.stage = Stage.cgo ∧ x.Run.unit = some pkg) ∨
    ∃ j a0, i = heap.length + cnt (cgoRuns E pkg) + j ∧
      (stages E pkg (effGofiles E pkg) (cgoOfiles E pkg) (effDeps E pkg deps heap.length)
        (heap.length + cnt (cgoRuns E pkg)))[j]? = some a0 ∧
      x = finish E pkg t i a0 := by
  obtain ⟨f1, f2, f3, f4, f5⟩ := Compile_facts E pkg deps heap heap1 t h
  obtain ⟨heap0, g1, g2, g3, g4, g5⟩ := Compile_shape E pkg deps heap heap1 t h
  obtain ⟨k1, k2, k3⟩ := compileRest_lookup E pkg _ _ _ _ _ _ g5
  obtain ⟨r1, r2, r3, r4, r5, r6⟩ := compileRest_facts E pkg _ _ _ _ _ _ g5
  by_cases hlt : i < heap0.length
  · left
    rw [r3 i hlt] at hx
    exact ⟨g3 i x hi hx, (f4 i x hi (by rw [r3 i hlt]; exact hx)).1⟩
  · right
    obtain ⟨j, rfl⟩ : ∃ j, i = heap0.length + j := ⟨i - heap0.length, by omega⟩
    rw [k3 j, g1] at hx
    cases hs : (stages E pkg (effGofiles E pkg) (cgoOfiles E pkg)
        (effDeps E pkg deps heap.length) (heap.length + cnt (cgoRuns E pkg)))[j]? with
    | none => rw [hs] at hx; simp at hx
    | some a0 =>
      rw [hs] at hx
      simp only [Option.map_some', Option.some.injEq] at hx
      exact ⟨j, a0, by rw [g1], hs, by rw [g1]; exact hx.symm⟩

/-- Reading the Action of `stages` at position `j` from the heap a successful
`Compile` returns. -/
theorem Compile_lookup (E : Env) (pkg : PkgPtr) (deps : List Handle)
    (heap heap1 : List Action) (t : Handle)
    (h : Compile E pkg deps heap = (Except.ok t, heap1)) :
    effGofiles E pkg ≠ [] ∧ cgoSucceeds E pkg ∧
    t = heap.length + cnt (cgoRuns E pkg) + (E.pkg pkg).SFiles.length
      + cnt (hasPack E pkg (cgoOfiles E pkg)) + cnt (hasInstall E pkg) + cnt (E.pkg pkg).Main ∧
    ∀ j a0,
      (stages E pkg (effGofiles E pkg) (cgoOfiles E pkg) (effDeps E pkg deps heap.length)
        (heap.length + cnt (cgoRuns E pkg)))[j]? = some a0 →
      heap1[heap.length + cnt (cgoRuns E pkg) + j]? =
        some (finish E pkg t (heap.length + cnt (cgoRuns E pkg) + j) a0) := by
  obtain ⟨heap0, g1, g2, g3, g4, g5⟩ := Compile_shape E pkg deps heap heap1 t h
  obtain ⟨k1, k2, k3⟩ := compileRest_lookup E pkg _ _ _ _ _ _ g5
  refine ⟨k1, g4, by rw [k2, g1], ?_⟩
  intro j a0 hj
  have := k3 j
  rw [g1] at this
  rw [this, hj]; rfl

theorem Compile_hasStage_pack (E : Env) (pkg : PkgPtr) (deps : List Handle)
    (heap heap1 : List Action) (t : Handle)
    (h : Compile E pkg deps heap = (Except.ok t, heap1)) :
    hasStage heap heap1 Stage.pack ↔ hasPack E pkg (cgoOfiles E pkg) = true := by
  obtain ⟨l1, l2, l3, l4⟩ := Compile_lookup E pkg deps heap heap1 t h
  constructor
  · rintro ⟨x, hx, hst⟩
    obtain ⟨i, hi, hxi⟩ := (mem_added _ _ _).mp hx
    rcases Compile_added E pkg deps heap heap1 t h i x hi hxi with ⟨hc, _⟩ | ⟨j, a0, _, hj, rfl⟩
    · rw [hc] at hst; cases hst
    · rw [finish_stage] at hst
      rcases stages_stage E pkg _ _ _ _ a0 (List.getElem?_mem hj) with
        ⟨hs, _⟩ | ⟨hs, _⟩ | ⟨_, hp, _⟩ | ⟨hs, _⟩ | ⟨hs, _⟩
      · rw [hs] at hst; cases hst
      · rw [hs] at hst; cases hst
      · exact hp
      · rw [hs] at hst; cases hst
      · rw [hs] at hst; cases hst
  · intro hp
    have := l4 _ _ (stages_get_pack E pkg (effGofiles E pkg) (cgoOfiles E pkg)
      (effDeps E pkg deps heap.length) (heap.length + cnt (cgoRuns E pkg)) hp)
    refine ⟨_, (mem_added _ _ _).mpr ⟨_, ?_, this⟩, ?_⟩
    · omega
    · rw [finish_stage]; rfl

theorem Compile_hasStage_install (E : Env) (pkg : PkgPtr) (deps : List Handle)
    (heap heap1 : List Action) (t : Handle)
    (h : Compile E pkg deps heap = (Except.ok t, heap1)) :
    hasStage heap heap1 Stage.install ↔ hasInstall E pkg = true := by
  obtain ⟨l1, l2, l3, l4⟩ := Compile_lookup E pkg deps heap heap1 t h
  constructor
  · rintro ⟨x, hx, hst⟩
    obtain ⟨i, hi, hxi⟩ := (mem_added _ _ _).mp hx
    rcases Compile_added E pkg deps heap heap1 t h i x hi hxi with ⟨hc, _⟩ | ⟨j, a0, _, hj, rfl⟩
    · rw [hc] at hst; cases hst
    · rw [finish_stage] at hst
      rcases stages_stage E pkg _ _ _ _ a0 (List.getElem?_mem hj) with
        ⟨hs, _⟩ | ⟨hs, _⟩ | ⟨hs, _⟩ | ⟨_, hp, _⟩ | ⟨hs, _⟩
      · rw [hs] at hst; cases hst
      · rw [hs] at hst; cases hst
      · rw [hs] at hst; cases hst
      · exact hp
      · rw [hs] at hst; cases hst
  · intro hp
    have := l4 _ _ (stages_get_install E pkg (effGofiles E pkg) (cgoOfiles E pkg)
      (effDeps E pkg deps heap.length) (heap.length + cnt (cgoRuns E pkg)) hp)
    refine ⟨_, (mem_added _ _ _).mpr ⟨_, ?_, this⟩, ?_⟩
    · omega
    · rw [finish_stage]; rfl

/-- The Action a link or install Action depends on: the install Action when
there is one (only asked with `inst = true`), else the pack Action when there
is one, else the compile Action. -/
theorem Compile_prior (E : Env) (pkg : PkgPtr) (deps : List Handle)
    (heap heap1 : List Action) (t : Handle)
    (h : Compile E pkg deps heap = (Except.ok t, heap1)) (inst : Bool)
    (hinst : inst = true → hasInstall E pkg = true) :
    ∃ b, heap1[heap.length + cnt (cgoRuns E pkg) + (E.pkg pkg).SFiles.length
          + cnt (hasPack E pkg (cgoOfiles E pkg)) + cnt inst]? = some b ∧
      b.Run.unit = some pkg ∧
      (inst = true → b.Run.stage = Stage.install) ∧
      (inst = false → hasStage heap heap1 Stage.pack → b.Run.stage = Stage.pack) ∧
      (inst = false → ¬ hasStage heap heap1 Stage.pack → b.Run.stage = Stage.compile) := by
  obtain ⟨l1, l2, l3, l4⟩ := Compile_lookup E pkg deps heap heap1 t h
  have hP := Compile_hasStage_pack E pkg deps heap heap1 t h
  have c0 := cnt_false
  have c1 := cnt_true
  cases hi : inst
  · cases hp : hasPack E pkg (cgoOfiles E pkg)
    · have hk := hasPack_of_SFiles E pkg _ hp
      have hb := l4 _ _ (stages_get_compile E pkg (effGofiles E pkg) (cgoOfiles E pkg)
        (effDeps E pkg deps heap.length) (heap.length + cnt (cgoRuns E pkg)))
      have e : heap.length + cnt (cgoRuns E pkg) + 0 = heap.length + cnt (cgoRuns E pkg)
          + (E.pkg pkg).SFiles.length + cnt false + cnt false := by omega
      rw [e] at hb
      refine ⟨_, hb, ?_, ?_, ?_, ?_⟩
      · rw [finish_unit]; rfl
      · intro hc; cases hc
      · intro _ hc; rw [hP, hp] at hc; cases hc
      · intro _ _; rw [finish_stage]; rfl
    · have hb := l4 _ _ (stages_get_pack E pkg (effGofiles E pkg) (cgoOfiles E pkg)
        (effDeps E pkg deps heap.length) (heap.length + cnt (cgoRuns E pkg)) hp)
      have e : heap.length + cnt (cgoRuns E pkg) + (1 + (E.pkg pkg).SFiles.length)
          = heap.length + cnt (cgoRuns E pkg) + (E.pkg pkg).SFiles.length + cnt true
            + cnt false := by omega
      rw [e] at hb
      refine ⟨_, hb, ?_, ?_, ?_, ?_⟩
      · rw [finish_unit]; rfl
      · intro hc; cases hc
      · intro _ _; rw [finish_stage]; rfl
      · intro _ hc; rw [hP, hp] at hc; exact absurd rfl hc
  · have hI := hinst hi
    have hb := l4 _ _ (stages_get_install E pkg (effGofiles E pkg) (cgoOfiles E pkg)
        (effDeps E pkg deps heap.length) (heap.length + cnt (cgoRuns E pkg)) hI)
    have e : heap.length + cnt (cgoRuns E pkg) + (1 + (E.pkg pkg).SFiles.length
          + cnt (hasPack E pkg (cgoOfiles E pkg)))
        = heap.length + cnt (cgoRuns E pkg) + (E.pkg pkg).SFiles.length
          + cnt (hasPack E pkg (cgoOfiles E pkg)) + cnt true := by omega
    rw [e] at hb
    refine ⟨_, hb, ?_, ?_, ?_, ?_⟩
    · rw [finish_unit]; rfl
    · intro _; rw [finish_stage]; rfl
    · intro hc; cases hc
    · intro hc; cases hc

theorem hasInstall_iff (E : Env) (pkg : PkgPtr) :
    hasInstall E pkg = true ↔ ((E.pkg pkg).Install = true ∧ (E.pkg pkg).TestScope = false) := by
  simp [hasInstall]

/-- C6. For every unit with the executable flag `Main` for which `Compile`
succeeds, the terminal Action is the link stage of the unit, and its dependency
list is exactly one Action, the prior terminal stage: the install stage if
`Install` and not `TestScope`, otherwise the pack stage if one was added,
otherwise the compile stage. -/
theorem Compile_main_terminal_is_link (E : Env) (pkg : PkgPtr) (deps : List Handle)
    (heap heap1 : List Action) (t : Handle)
    (hmain : (E.pkg pkg).Main = true)
    (h : Compile E pkg deps heap = (Except.ok t, heap1)) :
    ∃ a d b, heap1[t]? = some a ∧ a.Run.stage = Stage.link ∧ a.Run.unit = some pkg ∧
      a.Deps = [d] ∧ heap.length ≤ d ∧ heap1[d]? = some b ∧ b.Run.unit = some pkg ∧
      (((E.pkg pkg).Install = true ∧ (E.pkg pkg).TestScope = false) →
        b.Run.stage = Stage.install) ∧
      (¬ ((E.pkg pkg).Install = true ∧ (E.pkg pkg).TestScope = false) →
        hasStage heap heap1 Stage.pack → b.Run.stage = Stage.pack) ∧
      (¬ ((E.pkg pkg).Install = true ∧ (E.pkg pkg).TestScope = false) →
        ¬ hasStage heap heap1 Stage.pack → b.Run.stage = Stage.compile) := by
  obtain ⟨l1, l2, l3, l4⟩ := Compile_lookup E pkg deps heap heap1 t h
  obtain ⟨b, hb, hu, hs1, hs2, hs3⟩ :=
    Compile_prior E pkg deps heap heap1 t h (hasInstall E pkg) (fun x => x)
  have hl := l4 _ _ (stages_get_link E pkg (effGofiles E pkg) (cgoOfiles E pkg)
        (effDeps E pkg deps heap.length) (heap.length + cnt (cgoRuns E pkg)) hmain)
  have ht : heap.length + cnt (cgoRuns E pkg) + (1 + (E.pkg pkg).SFiles.length
      + cnt (hasPack E pkg (cgoOfiles E pkg)) + cnt (hasInstall E pkg)) = t := by
    rw [l3, hmain, cnt_true]; omega
  rw [ht] at hl
  have hd : heap.length + cnt (cgoRuns E pkg) + (E.pkg pkg).SFiles.length
      + cnt (hasPack E pkg (cgoOfiles E pkg)) + cnt (hasInstall E pkg) =
      heap.length + cnt (cgoRuns E pkg) + (E.pkg pkg).SFiles.length
        + cnt (hasPack E pkg (cgoOfiles E pkg)) + cnt (hasInstall E pkg) := rfl
  refine ⟨_, heap.length + cnt (cgoRuns E pkg)
      + (E.pkg pkg).SFiles.length + cnt (hasPack E pkg (cgoOfiles E pkg))
      + cnt (hasInstall E pkg), b, hl, ?_, ?_, ?_, ?_, hb, hu, ?_, ?_, ?_⟩
  · rw [finish_stage]; rfl
  · rw [finish_unit]; rfl
  · rw [finish_Deps]; rfl
  · omega
  · intro hc; exact hs1 ((hasInstall_iff E pkg).mpr hc)
  · intro hc
    have : hasInstall E pkg = false := by
      cases hh : hasInstall E pkg
      · rfl
      · exact absurd ((hasInstall_iff E pkg).mp hh) hc
    exact hs2 this
  · intro hc
    have : hasInstall E pkg = false := by
      cases hh : hasInstall E pkg
      · rfl
      · exact absurd ((hasInstall_iff E pkg).mp hh) hc
    exact hs3 this

/-- The Action at each position of a pipeline. -/
theorem stages_index (E : Env) (pkg : PkgPtr) (gofiles ofiles : List String)
    (deps : List Handle) (n j : Nat) (a : Action)
    (hj : (stages E pkg gofiles ofiles deps n)[j]? = some a) :
    (j = 0 ∧ a = compileAction E pkg gofiles deps) ∨
    (∃ i s, j = 1 + i ∧ (E.pkg pkg).SFiles[i]? = some s ∧ a = asmAction E pkg n s) ∨
    (j = 1 + (E.pkg pkg).SFiles.length ∧ hasPack E pkg ofiles = true ∧
      a = packAction E pkg ofiles n) ∨
    (j = 1 + (E.pkg pkg).SFiles.length + cnt (hasPack E pkg ofiles) ∧
      hasInstall E pkg = true ∧
      a = installAction E pkg (n + (E.pkg pkg).SFiles.length + cnt (hasPack E pkg ofiles))) ∨
    (j = 1 + (E.pkg pkg).SFiles.length + cnt (hasPack E pkg ofiles) + cnt (hasInstall E pkg) ∧
      (E.pkg pkg).Main = true ∧
      a = linkAction E pkg (n + (E.pkg pkg).SFiles.length + cnt (hasPack E pkg ofiles)
        + cnt (hasInstall E pkg))) := by
  have hlt : j < (stages E pkg gofiles ofiles deps n).length :=
    (List.getElem?_eq_some_iff.mp hj).1
  rw [stages_length] at hlt
  have c0 := cnt_false
  have c1 := cnt_true
  by_cases h0 : j = 0
  · subst h0
    rw [stages_get_compile] at hj
    exact Or.inl ⟨rfl, (Option.some.inj hj).symm⟩
  by_cases hk : j ≤ (E.pkg pkg).SFiles.length
  · obtain ⟨i, rfl⟩ : ∃ i, j = 1 + i := ⟨j - 1, by omega⟩
    rw [stages_get_asm E pkg gofiles ofiles deps n i (by omega)] at hj
    cases hs : (E.pkg pkg).SFiles[i]? with
    | none => rw [hs] at hj; simp at hj
    | some s =>
      rw [hs] at hj
      exact Or.inr (Or.inl ⟨i, s, rfl, hs, (Option.some.inj hj).symm⟩)
  by_cases hP : hasPack E pkg ofiles = true ∧ j = 1 + (E.pkg pkg).SFiles.length
  · obtain ⟨hp, rfl⟩ := hP
    rw [stages_get_pack E pkg gofiles ofiles deps n hp] at hj
    exact Or.inr (Or.inr (Or.inl ⟨rfl, hp, (Option.some.inj hj).symm⟩))
  by_cases hI : hasInstall E pkg = true ∧
      j = 1 + (E.pkg pkg).SFiles.length + cnt (hasPack E pkg ofiles)
  · obtain ⟨hi, rfl⟩ := hI
    rw [stages_get_install E pkg gofiles ofiles deps n hi] at hj
    exact Or.inr (Or.inr (Or.inr (Or.inl ⟨rfl, hi, (Option.some.inj hj).symm⟩)))
  by_cases hL : (E.pkg pkg).Main = true ∧
      j = 1 + (E.pkg pkg).SFiles.length + cnt (hasPack E pkg ofiles) + cnt (hasInstall E pkg)
  · obtain ⟨hm, rfl⟩ := hL
    rw [stages_get_link E pkg gofiles ofiles deps n hm] at hj
    exact Or.inr (Or.inr (Or.inr (Or.inr ⟨rfl, hm, (Option.some.inj hj).symm⟩)))
  exfalso
  cases hp : hasPack E pkg ofiles <;> cases hi : hasInstall E pkg <;>
    cases hm : (E.pkg pkg).Main <;>
    simp only [hp, hi, hm, true_and, false_and, not_false_eq_true, not_true_eq_false,
      Bool.false_eq_true] at hP hI hL hlt <;>
    omega

/-- C10. For every unit for which `Compile` succeeds, an install stage is
added if and only if `Install` is true and `TestScope` is false; an install
stage depends on exactly one Action, the prior terminal stage (the pack stage
if one was added, else the compile stage), and it is the terminal Action when
the unit is not executable. -/
theorem Compile_install_stage (E : Env) (pkg : PkgPtr) (deps : List Handle)
    (heap heap1 : List Action) (t : Handle)
    (h : Compile E pkg deps heap = (Except.ok t, heap1)) :
    (hasStage heap heap1 Stage.install ↔
      ((E.pkg pkg).Install = true ∧ (E.pkg pkg).TestScope = false)) ∧
    ∀ i x, heap.length ≤ i → heap1[i]? = some x → x.Run.stage = Stage.install →
      x.Run.unit = some pkg ∧
      (∃ d b, x.Deps = [d] ∧ heap.length ≤ d ∧ heap1[d]? = some b ∧ b.Run.unit = some pkg ∧
        (hasStage heap heap1 Stage.pack → b.Run.stage = Stage.pack) ∧
        (¬ hasStage heap heap1 Stage.pack → b.Run.stage = Stage.compile)) ∧
      ((E.pkg pkg).Main = false → i = t) := by
  refine ⟨(Compile_hasStage_install E pkg deps heap heap1 t h).trans (hasInstall_iff E pkg), ?_⟩
  intro i x hi hx hst
  obtain ⟨l1, l2, l3, l4⟩ := Compile_lookup E pkg deps heap heap1 t h
  obtain ⟨b, hb, hu, _, hs2, hs3⟩ :=
    Compile_prior E pkg deps heap heap1 t h false (fun hc => by cases hc)
  have c0 := cnt_false
  have c1 := cnt_true
  rcases Compile_added E pkg deps heap heap1 t h i x hi hx with ⟨hc, _⟩ | ⟨j, a0, hij, hj, rfl⟩
  · rw [hc] at hst; cases hst
  · rw [finish_stage] at hst
    have hI : hasInstall E pkg = true ∧ a0 = installAction E pkg
        (heap.length + cnt (cgoRuns E pkg) + (E.pkg pkg).SFiles.length
          + cnt (hasPack E pkg (cgoOfiles E pkg))) := by
      rcases stages_stage E pkg _ _ _ _ a0 (List.getElem?_mem hj) with
        ⟨hs, _⟩ | ⟨hs, _⟩ | ⟨hs, _⟩ | ⟨_, hp, ha⟩ | ⟨hs, _⟩
      · rw [hs] at hst; cases hst
      · rw [hs] at hst; cases hst
      · rw [hs] at hst; cases hst
      · exact ⟨hp, ha⟩
      · rw [hs] at hst; cases hst
    obtain ⟨hI1, rfl⟩ := hI
    have hget := stages_get_install E pkg (effGofiles E pkg) (cgoOfiles E pkg)
        (effDeps E pkg deps heap.length) (heap.length + cnt (cgoRuns E pkg)) hI1
    refine ⟨by rw [finish_unit]; rfl, ⟨_, b, by rw [finish_Deps]; rfl, by omega, ?_, hu,
      hs2 rfl, hs3 rfl⟩, ?_⟩
    · rw [← hb]; congr 1
    · intro hm
      -- the install Action sits at one position only
      have hpos : j = 1 + (E.pkg pkg).SFiles.length + cnt (hasPack E pkg (cgoOfiles E pkg)) := by
        rcases stages_index E pkg _ _ _ _ j _ hj with
          ⟨_, ha⟩ | ⟨_, _, _, _, ha⟩ | ⟨_, _, ha⟩ | ⟨hp, _⟩ | ⟨_, _, ha⟩
        · cases ha
        · cases ha
        · cases ha
        · exact hp
        · cases ha
      rw [hij, hpos, l3, hI1, hm]
      omega

theorem compileRest_nil (E : Env) (pkg : PkgPtr) (ofiles : List String)
    (deps : List Handle) (heap : List Action) :
    compileRest E pkg [] ofiles deps heap =
      (Except.error (Err.noGoFiles (E.pkg pkg).ImportPath), heap) := by
  simp [compileRest]

theorem compileRest_ok (E : Env) (pkg : PkgPtr) (gofiles ofiles : List String)
    (deps : List Handle) (heap : List Action) (hg : gofiles ≠ []) :
    ∃ t heap1, compileRest E pkg gofiles ofiles deps heap = (Except.ok t, heap1) ∧
      t < heap1.length := by
  refine ⟨_, (compileRest E pkg gofiles ofiles deps heap).2,
    Prod.ext (compileRest_fst E pkg gofiles ofiles deps heap hg) rfl, ?_⟩
  rw [compileRest_length E pkg gofiles ofiles deps heap hg, stages_length]
  unfold Handle
  omega

/-- The three outcomes of `Compile`: the cgo step fails; or it leaves no Go
file to compile; or `Compile` returns an Action. -/
theorem Compile_outcome (E : Env) (pkg : PkgPtr) (deps : List Handle) (heap : List Action) :
    ((E.pkg pkg).CgoFiles ≠ [] ∧ ∃ e, E.cgo pkg = Except.error e ∧
      (Compile E pkg deps heap).1 = Except.error (Err.cgo e)) ∨
    (cgoSucceeds E pkg ∧ effGofiles E pkg = [] ∧
      (Compile E pkg deps heap).1 = Except.error (Err.noGoFiles (E.pkg pkg).ImportPath)) ∨
    (cgoSucceeds E pkg ∧ effGofiles E pkg ≠ [] ∧
      ∃ t, (Compile E pkg deps heap).1 = Except.ok t ∧ t < (Compile E pkg deps heap).2.length) := by
  by_cases hc : 0 < (E.pkg pkg).CgoFiles.length
  · have hr : cgoRuns E pkg = true := by simpa [cgoRuns] using hc
    have hne : (E.pkg pkg).CgoFiles ≠ [] := by
      intro h0; rw [h0] at hc; simp at hc
    cases hcg : E.cgo pkg with
    | error e =>
      left
      refine ⟨hne, e, rfl, ?_⟩
      simp [Compile, hc, hcg]
    | ok r =>
      right
      have hs : cgoSucceeds E pkg := Or.inr ⟨r, hcg⟩
      have he : effGofiles E pkg = (E.pkg pkg).GoFiles ++ r.gofiles := by
        simp [effGofiles, hr, hcg]
      have hC : Compile E pkg deps heap = compileRest E pkg ((E.pkg pkg).GoFiles ++ r.gofiles)
          r.ofiles (deps ++ [heap.length])
          (heap ++ [{ Name := r.name, Deps := [], Run := Step.cgo pkg }]) := by
        simp [Compile, hc, hcg, alloc]
      by_cases hg : (E.pkg pkg).GoFiles ++ r.gofiles = []
      · left
        refine ⟨hs, by rw [he]; exact hg, ?_⟩
        rw [hC, hg, compileRest_nil]
      · right
        refine ⟨hs, by rw [he]; exact hg, ?_⟩
        obtain ⟨t, heap1, h1, h2⟩ := compileRest_ok E pkg _ r.ofiles (deps ++ [heap.length])
          (heap ++ [{ Name := r.name, Deps := [], Run := Step.cgo pkg }]) hg
        rw [hC, h1]
        exact ⟨t, rfl, h2⟩
  · right
    have hr : cgoRuns E pkg = false := by simpa [cgoRuns] using hc
    have hnil : (E.pkg pkg).CgoFiles = [] := by simpa using hc
    have hs : cgoSucceeds E pkg := Or.inl hnil
    have he : effGofiles E pkg = (E.pkg pkg).GoFiles := by
      simp [effGofiles, hr]
    have hC : Compile E pkg deps heap = compileRest E pkg (E.pkg pkg).GoFiles [] deps heap := by
      simp [Compile, hc]
    by_cases hg : (E.pkg pkg).GoFiles = []
    · left
      refine ⟨hs, by rw [he]; exact hg, ?_⟩
      rw [hC, hg, compileRest_nil]
    · right
      refine ⟨hs, by rw [he]; exact hg, ?_⟩
      obtain ⟨t, heap1, h1, h2⟩ := compileRest_ok E pkg _ [] deps heap hg
      rw [hC, h1]
      exact ⟨t, rfl, h2⟩

/-- When the cgo step does not fail and leaves a Go file to compile, `Compile`
returns an Action of the heap. -/
theorem Compile_ok_of (E : Env) (pkg : PkgPtr) (deps : List Handle) (heap : List Action)
    (hs : cgoSucceeds E pkg) (hg : effGofiles E pkg ≠ []) :
    ∃ t, (Compile E pkg deps heap).1 = Except.ok t ∧
      t < (Compile E pkg deps heap).2.length := by
  rcases Compile_outcome E pkg deps heap with ⟨hne, e, he, _⟩ | ⟨_, hg1, _⟩ | ⟨_, _, h1⟩
  · rcases hs with h0 | ⟨r, hr⟩
    · exact absurd h0 hne
    · rw [hr] at he; cases he
  · exact absurd hg1 hg
  · exact h1

theorem effGofiles_eq_nil (E : Env) (pkg : PkgPtr) (hs : cgoSucceeds E pkg) :
    effGofiles E pkg = [] ↔
      ((E.pkg pkg).GoFiles = [] ∧
        ((E.pkg pkg).CgoFiles = [] ∨ ∃ r, E.cgo pkg = Except.ok r ∧ r.gofiles = [])) := by
  unfold effGofiles cgoRuns
  by_cases hc : 0 < (E.pkg pkg).CgoFiles.length
  · have hne : (E.pkg pkg).CgoFiles ≠ [] := by
      intro h0; rw [h0] at hc; simp at hc
    rcases hs with h0 | ⟨r, hr⟩
    · exact absurd h0 hne
    · simp [hc, hr, hne]
  · have hnil : (E.pkg pkg).CgoFiles = [] := by simpa using hc
    simp [hnil]

/-- C9. `Compile` fails with the no-source-files error exactly when `GoFiles`
is empty and either there are no cgo files or the cgo step succeeded and
generated no Go files; the error names the unit. Whenever the cgo step did not
fail and the effective Go source list is non-empty, `Compile` returns an Action
of the heap and no error. -/
theorem Compile_noGoFiles_iff (E : Env) (pkg : PkgPtr) (deps : List Handle)
    (heap : List Action) :
    ((∃ p, (Compile E pkg deps heap).1 = Except.error (Err.noGoFiles p)) ↔
      ((E.pkg pkg).GoFiles = [] ∧
        ((E.pkg pkg).CgoFiles = [] ∨ ∃ r, E.cgo pkg = Except.ok r ∧ r.gofiles = []))) ∧
    (∀ p, (Compile E pkg deps heap).1 = Except.error (Err.noGoFiles p) →
      p = (E.pkg pkg).ImportPath) ∧
    (cgoSucceeds E pkg → effGofiles E pkg ≠ [] →
      ∃ t, (Compile E pkg deps heap).1 = Except.ok t ∧
        t < (Compile E pkg deps heap).2.length) := by
  refine ⟨⟨?_, ?_⟩, ?_, ?_⟩
  · rintro ⟨p, hp⟩
    rcases Compile_outcome E pkg deps heap with ⟨_, e, _, h1⟩ | ⟨hs, hg, _⟩ | ⟨_, _, t, h1, _⟩
    · rw [h1] at hp; cases hp
    · exact (effGofiles_eq_nil E pkg hs).mp hg
    · rw [h1] at hp; cases hp
  · intro hcond
    have hs : cgoSucceeds E pkg := by
      rcases hcond.2 with h0 | ⟨r, hr, _⟩
      · exact Or.inl h0
      · exact Or.inr ⟨r, hr⟩
    have hg := (effGofiles_eq_nil E pkg hs).mpr hcond
    rcases Compile_outcome E pkg deps heap with ⟨hne, e, he, _⟩ | ⟨_, _, h1⟩ | ⟨_, hg1, _⟩
    · rcases hs with h0 | ⟨r, hr⟩
      · exact absurd h0 hne
      · rw [hr] at he; cases he
    · exact ⟨_, h1⟩
    · exact absurd hg hg1
  · intro p hp
    rcases Compile_outcome E pkg deps heap with ⟨_, e, _, h1⟩ | ⟨_, _, h1⟩ | ⟨_, _, t, h1, _⟩
    · rw [h1] at hp; cases hp
    · rw [h1] at hp; cases hp; rfl
    · rw [h1] at hp; cases hp
  · intro hs hg
    exact Compile_ok_of E pkg deps heap hs hg

theorem finish_of_ne (E : Env) (pkg : PkgPtr) (t i : Handle) (a : Action) (h : i ≠ t) :
    finish E pkg t i a = a := by
  simp [finish, h]

theorem hasPack_iff (E : Env) (pkg : PkgPtr) :
    hasPack E pkg (cgoOfiles E pkg) = true ↔ extraObjects E pkg ≠ [] := by
  simp [hasPack, extraObjects, List.length_pos]

/-- C7. For every unit with neither the install nor the executable flag for
which `Compile` succeeds, the terminal Action is the pack stage if and only if
there is at least one extra object file (from cgo, assembly files or system
object files), and otherwise the compile stage. A unit with only plain source
files gets exactly one Action, a compile stage whose dependencies are the
caller-supplied ones. -/
theorem Compile_plain_terminal (E : Env) (pkg : PkgPtr) (deps : List Handle)
    (heap heap1 : List Action) (t : Handle)
    (hI : (E.pkg pkg).Install = false) (hM : (E.pkg pkg).Main = false)
    (h : Compile E pkg deps heap = (Except.ok t, heap1)) :
    ∃ a, heap1[t]? = some a ∧ a.Run.unit = some pkg ∧
      (a.Run.stage = Stage.pack ↔ extraObjects E pkg ≠ []) ∧
      (extraObjects E pkg = [] → a.Run.stage = Stage.compile) ∧
      ((E.pkg pkg).CgoFiles = [] → (E.pkg pkg).SFiles = [] → (E.pkg pkg).SysoFiles = [] →
        heap1 = heap ++ [a] ∧ t = heap.length ∧ a.Run.stage = Stage.compile ∧ a.Deps = deps) := by
  obtain ⟨l1, l2, l3, l4⟩ := Compile_lookup E pkg deps heap heap1 t h
  obtain ⟨f1, f2, f3, f4, f5⟩ := Compile_facts E pkg deps heap heap1 t h
  obtain ⟨b, hb, hu, _, hs2, hs3⟩ :=
    Compile_prior E pkg deps heap heap1 t h false (fun hc => by cases hc)
  have hP := Compile_hasStage_pack E pkg deps heap heap1 t h
  have c0 := cnt_false
  have hi : hasInstall E pkg = false := by simp [hasInstall, hI]
  have ht : heap.length + cnt (cgoRuns E pkg) + (E.pkg pkg).SFiles.length
      + cnt (hasPack E pkg (cgoOfiles E pkg)) + cnt false = t := by
    rw [l3, hi, hM, c0]
  rw [ht] at hb
  refine ⟨b, hb, hu, ?_, ?_, ?_⟩
  · constructor
    · intro hst
      intro hne
      have : ¬ hasStage heap heap1 Stage.pack := by
        rw [hP, hasPack_iff]; exact fun hc => hc hne
      rw [hs3 rfl this] at hst
      cases hst
    · intro hne
      exact hs2 rfl (by rw [hP, hasPack_iff]; exact hne)
  · intro he
    exact hs3 rfl (by rw [hP, hasPack_iff]; exact fun hc => hc he)
  · intro hc hs hy
    have hr : cgoRuns E pkg = false := by simp [cgoRuns, hc]
    have he : extraObjects E pkg = [] := by
      simp [extraObjects, allOfiles, cgoOfiles, hr, hs, hy]
    have hp : hasPack E pkg (cgoOfiles E pkg) = false := by
      cases hh : hasPack E pkg (cgoOfiles E pkg)
      · rfl
      · exact absurd he ((hasPack_iff E pkg).mp hh)
    have htn : t = heap.length := by
      rw [← ht, hr, hp, hs]; simp [c0]
    have hb2 := l4 _ _ (stages_get_compile E pkg (effGofiles E pkg) (cgoOfiles E pkg)
        (effDeps E pkg deps heap.length) (heap.length + cnt (cgoRuns E pkg)))
    have e : heap.length + cnt (cgoRuns E pkg) + 0 = t := by
      rw [htn, hr, c0]; rfl
    rw [e, hb] at hb2
    have hbe := Option.some.inj hb2
    refine ⟨?_, htn, ?_, ?_⟩
    · apply List.ext_getElem?
      intro i
      by_cases h1 : i < heap.length
      · rw [f3 i h1, append_getElem?_lt _ _ _ h1]
      · by_cases h2 : i = heap.length
        · subst h2
          rw [← htn, hb]
          have := append_getElem?_add heap [b] 0
          rw [Nat.add_zero, ← htn] at this
          rw [this]; rfl
        · have h3 : heap1.length ≤ i := by unfold Handle at *; omega
          rw [List.getElem?_eq_none h3, List.getElem?_eq_none (by simp; omega)]
    · rw [hbe, finish_stage]; rfl
    · rw [hbe, finish_Deps]
      simp [compileAction, effDeps, hr]

/-- C8 (amended). For every unit with at least one assembly file and at least
one plain source file, neither the install nor the executable flag, and whose
cgo step does not fail, `Compile` returns a terminal pack stage whose
dependency list is the compile stage followed by one assembly Action per
assembly file in `SFiles` order, and every assembly Action depends on exactly
that compile stage. -/
theorem Compile_asm_pack (E : Env) (pkg : PkgPtr) (deps : List Handle) (heap : List Action)
    (hS : (E.pkg pkg).SFiles ≠ []) (hG : (E.pkg pkg).GoFiles ≠ [])
    (hI : (E.pkg pkg).Install = false) (hM : (E.pkg pkg).Main = false)
    (hc : cgoSucceeds E pkg) :
    ∃ t heap1, Compile E pkg deps heap = (Except.ok t, heap1) ∧
      ∃ (a : Action) (c : Handle) (b : Action) (hs : List Handle), heap1[t]? = some a ∧ a.Run.stage = Stage.pack ∧ a.Run.unit = some pkg ∧
        a.Deps = c :: hs ∧ heap1[c]? = some b ∧ b.Run.stage = Stage.compile ∧
        b.Run.unit = some pkg ∧ hs.length = (E.pkg pkg).SFiles.length ∧
        ∀ (j : Nat) (sfile : String), (E.pkg pkg).SFiles[j]? = some sfile →
          ∃ (h : Handle) (x : Action), hs[j]? = some h ∧ heap1[h]? = some x ∧
            x.Run = Step.asm pkg (asmOfile E pkg sfile) sfile ∧ x.Deps = [c] := by
  have hg : effGofiles E pkg ≠ [] := by
    unfold effGofiles
    intro h0
    exact hG (List.append_eq_nil.mp h0).1
  obtain ⟨t, ht1, _⟩ := Compile_ok_of E pkg deps heap hc hg
  have h : Compile E pkg deps heap = (Except.ok t, (Compile E pkg deps heap).2) :=
    Prod.ext ht1 rfl
  refine ⟨t, (Compile E pkg deps heap).2, h, ?_⟩
  generalize (Compile E pkg deps heap).2 = heap1 at h
  obtain ⟨l1, l2, l3, l4⟩ := Compile_lookup E pkg deps heap heap1 t h
  have c0 := cnt_false
  have c1 := cnt_true
  have hk : 0 < (E.pkg pkg).SFiles.length := List.length_pos.mpr hS
  have hp : hasPack E pkg (cgoOfiles E pkg) = true := by
    cases hh : hasPack E pkg (cgoOfiles E pkg)
    · have := hasPack_of_SFiles E pkg _ hh; omega
    · rfl
  have hi : hasInstall E pkg = false := by simp [hasInstall, hI]
  rw [hp, hi, hM] at l3
  have hpack := l4 _ _ (stages_get_pack E pkg (effGofiles E pkg) (cgoOfiles E pkg)
        (effDeps E pkg deps heap.length) (heap.length + cnt (cgoRuns E pkg)) hp)
  have hcomp := l4 _ _ (stages_get_compile E pkg (effGofiles E pkg) (cgoOfiles E pkg)
        (effDeps E pkg deps heap.length) (heap.length + cnt (cgoRuns E pkg)))
  have e : heap.length + cnt (cgoRuns E pkg) + (1 + (E.pkg pkg).SFiles.length) = t := by
    unfold Handle at *; omega
  rw [e] at hpack
  refine ⟨_, heap.length + cnt (cgoRuns E pkg),  _,
    List.range' (heap.length + cnt (cgoRuns E pkg) + 1) (E.pkg pkg).SFiles.length,
    hpack, ?_, ?_, ?_, hcomp, ?_, ?_, ?_, ?_⟩
  · rw [finish_stage]; rfl
  · rw [finish_unit]; rfl
  · rw [finish_Deps]; rfl
  · rw [finish_stage]; rfl
  · rw [finish_unit]; rfl
  · simp
  · intro j sfile hj
    have hjlt : j < (E.pkg pkg).SFiles.length := (List.getElem?_eq_some_iff.mp hj).1
    have hasm := l4 _ _ (by
      rw [stages_get_asm E pkg (effGofiles E pkg) (cgoOfiles E pkg)
        (effDeps E pkg deps heap.length) (heap.length + cnt (cgoRuns E pkg)) j hjlt, hj]
      rfl)
    have hne : heap.length + cnt (cgoRuns E pkg) + (1 + j) ≠ t := by
      unfold Handle at *; omega
    rw [finish_of_ne E pkg t _ _ hne] at hasm
    refine ⟨heap.length + cnt (cgoRuns E pkg) + 1 + j,
      asmAction E pkg (heap.length + cnt (cgoRuns E pkg)) sfile, ?_, ?_, rfl, rfl⟩
    · rw [List.getElem?_range' _ _ hjlt]; simp
    · rw [← hasm]; congr 1; exact Nat.add_assoc _ 1 j

/-! ## `BuildPackage`, `BuildDependencies`, `BuildPackages` -/

theorem lookup_cons_self (k : String) (v : Handle) (m : List (String × Handle)) :
    List.lookup k ((k, v) :: m) = some v := by
  simp [List.lookup]

theorem lookup_cons_ne (k q : String) (v : Handle) (m : List (String × Handle)) (h : q ≠ k) :
    List.lookup q ((k, v) :: m) = List.lookup q m := by
  have : (q == k) = false := by simpa using h
  simp [List.lookup, this]

/-- The loop over the roots is the loop of `BuildDependencies` over the roots
that have source files. -/
theorem rootLoop_eq (E : Env) (fuel : Nat) (pkgs : List PkgPtr) :
    ∀ (deps : List Handle) (s : State),
      rootLoop E fuel pkgs deps s =
        depsLoop (BuildPackage E fuel)
          (pkgs.filter (fun pkg =>
            !((E.pkg pkg).GoFiles.length + (E.pkg pkg).CgoFiles.length == 0))) deps s := by
  induction pkgs with
  | nil => intro deps s; rfl
  | cons pkg rest ih =>
    intro deps s
    by_cases hz : ((E.pkg pkg).GoFiles.length + (E.pkg pkg).CgoFiles.length == 0) = true
    · simp only [rootLoop, hz, if_true, List.filter, Bool.not_true]
      exact ih deps s
    · have hz1 : ((E.pkg pkg).GoFiles.length + (E.pkg pkg).CgoFiles.length == 0) = false := by
        simpa using hz
      simp only [rootLoop, hz1, List.filter, Bool.not_false, depsLoop]
      cases BuildPackage E fuel s pkg with
      | fuel => rfl
      | error e s1 => rfl
      | ok r s1 =>
        cases r with
        | none => exact ih deps s1
        | some a => exact ih (deps ++ [a]) s1

theorem depsLoop_error (bp : State → PkgPtr → Outcome (Option Handle)) (P : Err → Prop)
    (hbp : ∀ s i e s1, bp s i = Outcome.error e s1 → P e) (pkgs : List PkgPtr) :
    ∀ (deps : List Handle) (s : State) (e : Err) (s1 : State),
      depsLoop bp pkgs deps s = Outcome.error e s1 → P e := by
  induction pkgs with
  | nil => intro deps s e s1 h; simp [depsLoop] at h
  | cons i rest ih =>
    intro deps s e s1 h
    simp only [depsLoop] at h
    cases hb : bp s i with
    | fuel => rw [hb] at h; simp at h
    | error e2 s2 =>
      rw [hb] at h
      simp only [Outcome.error.injEq] at h
      rw [← h.1]
      exact hbp s i e2 s2 hb
    | ok r s2 =>
      rw [hb] at h
      cases r with
      | none => exact ih deps s2 e s1 h
      | some a => exact ih (deps ++ [a]) s2 e s1 h

theorem resolveLoop_error (E : Env) (pkg : PkgPtr) (names : List String) :
    ∀ (pkgs : List PkgPtr) (e : Err), resolveLoop E pkg names pkgs = Except.error e →
      ∃ m, e = Err.resolve m := by
  induction names with
  | nil => intro pkgs e h; simp [resolveLoop] at h
  | cons i rest ih =>
    intro pkgs e h
    simp only [resolveLoop] at h
    cases hr : E.ResolvePackage pkg i with
    | error m => rw [hr] at h; exact ⟨m, (Except.error.inj h).symm⟩
    | ok p => rw [hr] at h; exact ih _ e h

theorem Compile_error (E : Env) (pkg : PkgPtr) (deps : List Handle) (heap heap1 : List Action)
    (e : Err) (h : Compile E pkg deps heap = (Except.error e, heap1)) : BuildErr e := by
  have h1 : (Compile E pkg deps heap).1 = Except.error e := by rw [h]
  rcases Compile_outcome E pkg deps heap with ⟨_, m, _, h2⟩ | ⟨_, _, h2⟩ | ⟨_, _, t, h2, _⟩
  · rw [h2] at h1; exact Or.inr (Or.inr ⟨m, (Except.error.inj h1).symm⟩)
  · rw [h2] at h1; exact Or.inl ⟨_, (Except.error.inj h1).symm⟩
  · rw [h2] at h1; cases h1

theorem BuildPackage_error (E : Env) (fuel : Nat) :
    ∀ (s : State) (pkg : PkgPtr) (e : Err) (s1 : State),
      BuildPackage E fuel s pkg = Outcome.error e s1 → BuildErr e := by
  induction fuel with
  | zero => intro s pkg e s1 h; simp [BuildPackage] at h
  | succ fuel ih =>
    intro s pkg e s1 h
    simp only [BuildPackage] at h
    split at h
    · simp at h
    · split at h
      · simp at h
      · split at h
        · simp at h
        · rename_i e2 s2 hd
          simp only [Outcome.error.injEq] at h
          rw [← h.1]
          unfold BuildDependencies at hd
          split at hd
          · rename_i e3 hr
            simp only [Outcome.error.injEq] at hd
            rw [← hd.1]
            exact Or.inr (Or.inl (resolveLoop_error E pkg _ _ _ hr))
          · exact depsLoop_error _ BuildErr ih _ _ _ _ _ hd
        · split at h
          · rename_i e2 heap2 hc
            simp only [Outcome.error.injEq] at h
            rw [← h.1]
            exact Compile_error E pkg _ _ _ _ hc
          · simp at h

/-- C5. `BuildPackages` called with an empty list of units returns the error
made at line 32 and no Action; called with a non-empty list it never returns
that error. -/
theorem BuildPackages_noPackagesSupplied (E : Env) (fuel : Nat) :
    BuildPackages E fuel [] =
      Outcome.error Err.noPackagesSupplied { heap := [], targets := [] } ∧
    ∀ (pkg0 : PkgPtr) (rest : List PkgPtr) (e : Err) (s : State),
      BuildPackages E fuel (pkg0 :: rest) = Outcome.error e s → e ≠ Err.noPackagesSupplied := by
  refine ⟨rfl, ?_⟩
  intro pkg0 rest e s h
  have hb : BuildErr e := by
    simp only [BuildPackages] at h
    split at h
    · simp at h
    · rename_i e2 s2 hr
      simp only [Outcome.error.injEq] at h
      rw [← h.1]
      rw [rootLoop_eq] at hr
      exact depsLoop_error _ BuildErr (BuildPackage_error E fuel) _ _ _ _ _ hr
    · simp at h
  rcases hb with ⟨p, rfl⟩ | ⟨m, rfl⟩ | ⟨m, rfl⟩ <;> simp

/-- C3 (amended). For every memo table that holds no entry for the identity of
an up-to-date unit, `BuildPackage` returns no Action and no error and leaves the
heap and the memo as they were, whatever the resolver and cgo are; when the memo
holds an entry for that identity, `BuildPackage` returns that entry. -/
theorem BuildPackage_notStale (E : Env) (fuel : Nat) (s : State) (pkg : PkgPtr)
    (hns : (E.pkg pkg).NotStale = true) :
    (s.targets.lookup (E.pkg pkg).ImportPath = none →
      BuildPackage E (fuel + 1) s pkg = Outcome.ok none s) ∧
    (∀ a, s.targets.lookup (E.pkg pkg).ImportPath = some a →
      BuildPackage E (fuel + 1) s pkg = Outcome.ok (some a) s) := by
  constructor
  · intro hm
    simp [BuildPackage, hm, hns]
  · intro a hm
    simp [BuildPackage, hm]

/-- C4. If `BuildPackage` succeeds with Action `a`, then afterwards the memo
maps the unit's `ImportPath` to `a`, and every further call of `BuildPackage`
with the resulting state and the same unit returns `a`, with no error and with
the heap and the memo unchanged. -/
theorem BuildPackage_memoized (E : Env) (fuel : Nat) (s s1 : State) (pkg : PkgPtr)
    (a : Handle) (h : BuildPackage E fuel s pkg = Outcome.ok (some a) s1) :
    s1.targets.lookup (E.pkg pkg).ImportPath = some a ∧
    ∀ fuel2, BuildPackage E (fuel2 + 1) s1 pkg = Outcome.ok (some a) s1 := by
  have hl : s1.targets.lookup (E.pkg pkg).ImportPath = some a := by
    cases fuel with
    | zero => simp [BuildPackage] at h
    | succ fuel =>
      simp only [BuildPackage] at h
      split at h
      · rename_i a2 hm
        simp only [Outcome.ok.injEq, Option.some.injEq] at h
        rw [← h.1, ← h.2]; exact hm
      · split at h
        · simp at h
        · split at h
          · simp at h
          · simp at h
          · split at h
            · simp at h
            · simp only [Outcome.ok.injEq, Option.some.injEq] at h
              rw [← h.1, ← h.2]
              exact lookup_cons_self _ _ _
  refine ⟨hl, ?_⟩
  intro fuel2
  simp [BuildPackage, hl]

/-! ## Induction over the calls of `BuildPackage` -/

theorem depsLoop_chain (bp : State → PkgPtr → Outcome (Option Handle))
    (Post : State → PkgPtr → Option Handle → State → Prop)
    (hbp : ∀ s i r s1, bp s i = Outcome.ok r s1 → Post s i r s1) (pkgs : List PkgPtr) :
    ∀ (acc : List Handle) (s : State) (deps : List Handle) (s1 : State),
      depsLoop bp pkgs acc s = Outcome.ok deps s1 →
      ∃ d, deps = acc ++ d ∧ Chain Post s pkgs d s1 := by
  induction pkgs with
  | nil =>
    intro acc s deps s1 h
    simp only [depsLoop, Outcome.ok.injEq] at h
    exact ⟨[], by rw [← h.1]; simp, by rw [← h.2]; exact Chain.nil s⟩
  | cons i rest ih =>
    intro acc s deps s1 h
    simp only [depsLoop] at h
    cases hb : bp s i with
    | fuel => rw [hb] at h; simp at h
    | error e2 s2 => rw [hb] at h; simp at h
    | ok r s2 =>
      rw [hb] at h
      cases r with
      | none =>
        obtain ⟨d, hd, hc⟩ := ih acc s2 deps s1 h
        exact ⟨d, hd, Chain.cons s s2 s1 i rest none d (hbp s i none s2 hb) hc⟩
      | some a =>
        obtain ⟨d, hd, hc⟩ := ih (acc ++ [a]) s2 deps s1 h
        refine ⟨a :: d, by rw [hd]; simp, ?_⟩
        exact Chain.cons s s2 s1 i rest (some a) d (hbp s i (some a) s2 hb) hc

/-- Induction over the calls of `BuildPackage`: a relation that holds of a memo
hit, of an up-to-date unit, and of a build whose dependency calls satisfy it,
holds of every call that returns. -/
theorem BuildPackage_induct (E : Env)
    (Post : State → PkgPtr → Option Handle → State → Prop)
    (hhit : ∀ (s : State) (pkg : PkgPtr) (a : Handle),
      s.targets.lookup (E.pkg pkg).ImportPath = some a → Post s pkg (some a) s)
    (hskip : ∀ (s : State) (pkg : PkgPtr),
      s.targets.lookup (E.pkg pkg).ImportPath = none → (E.pkg pkg).NotStale = true →
      Post s pkg none s)
    (hbuild : ∀ (s s1 : State) (pkg : PkgPtr) (pkgs : List PkgPtr) (deps : List Handle)
      (build : Handle) (heap1 : List Action),
      s.targets.lookup (E.pkg pkg).ImportPath = none → (E.pkg pkg).NotStale = false →
      resolveLoop E pkg (extraImports E (E.pkg pkg)) (E.pkg pkg).Imports = Except.ok pkgs →
      Chain Post s pkgs deps s1 →
      Compile E pkg deps s1.heap = (Except.ok build, heap1) →
      Post s pkg (some build)
        { heap := heap1, targets := ((E.pkg pkg).ImportPath, build) :: s1.targets }) :
    ∀ (fuel : Nat) (s : State) (pkg : PkgPtr) (r : Option Handle) (s1 : State),
      BuildPackage E fuel s pkg = Outcome.ok r s1 → Post s pkg r s1 := by
  intro fuel
  induction fuel with
  | zero => intro s pkg r s1 h; simp [BuildPackage] at h
  | succ fuel ih =>
    intro s pkg r s1 h
    simp only [BuildPackage] at h
    split at h
    · rename_i a hm
      simp only [Outcome.ok.injEq] at h
      rw [← h.1, ← h.2]
      exact hhit s pkg a hm
    · rename_i hm
      split at h
      · rename_i hns
        simp only [Outcome.ok.injEq] at h
        rw [← h.1, ← h.2]
        exact hskip s pkg hm hns
      · rename_i hns
        have hns1 : (E.pkg pkg).NotStale = false := by simpa using hns
        split at h
        · simp at h
        · simp at h
        · rename_i deps s2 hd
          split at h
          · simp at h
          · rename_i build heap1 hc
            simp only [Outcome.ok.injEq] at h
            rw [← h.1, ← h.2]
            unfold BuildDependencies at hd
            split at hd
            · simp at hd
            · rename_i pkgs hr
              obtain ⟨d, hd1, hch⟩ := depsLoop_chain _ Post ih pkgs [] s deps s2 hd
              rw [List.nil_append] at hd1
              rw [hd1] at hc
              exact hbuild s s2 pkg pkgs d build heap1 hm hns1 hr hch hc

theorem resolveLoop_mem (E : Env) (pkg : PkgPtr) (names : List String) :
    ∀ (acc pkgs : List PkgPtr), resolveLoop E pkg names acc = Except.ok pkgs →
      ∀ i ∈ pkgs, i ∈ acc ∨ ∃ name ∈ names, E.ResolvePackage pkg name = Except.ok i := by
  induction names with
  | nil =>
    intro acc pkgs h i hi
    simp only [resolveLoop, Except.ok.injEq] at h
    rw [← h] at hi
    exact Or.inl hi
  | cons name rest ih =>
    intro acc pkgs h i hi
    simp only [resolveLoop] at h
    cases hr : E.ResolvePackage pkg name with
    | error m => rw [hr] at h; simp at h
    | ok p =>
      rw [hr] at h
      rcases ih _ _ h i hi with h1 | ⟨n, hn, h2⟩
      · rcases List.mem_append.mp h1 with h3 | h3
        · exact Or.inl h3
        · simp only [List.mem_singleton] at h3
          subst h3
          exact Or.inr ⟨name, List.mem_cons_self _ _, hr⟩
      · exact Or.inr ⟨n, List.mem_cons_of_mem _ hn, h2⟩

/-- Under `Acyclic`, every unit the loop of lines 262-272 visits for `pkg` has
a smaller rank than `pkg`. -/
theorem resolveLoop_rank (E : Env) (rank : String → Nat) (hac : Acyclic E rank)
    (pkg : PkgPtr) (pkgs : List PkgPtr)
    (h : resolveLoop E pkg (extraImports E (E.pkg pkg)) (E.pkg pkg).Imports = Except.ok pkgs) :
    ∀ i ∈ pkgs, rank (E.pkg i).ImportPath < rank (E.pkg pkg).ImportPath := by
  intro i hi
  rcases resolveLoop_mem E pkg _ _ _ h i hi with h1 | ⟨n, hn, h2⟩
  · exact (hac pkg).1 i h1
  · exact (hac pkg).2 n hn i h2

/-! ## Up-to-date units contribute nothing -/

theorem Grows.refl (s : State) : Grows s s := fun _ _ h => h

theorem Grows.trans {s s1 s2 : State} (h1 : Grows s s1) (h2 : Grows s1 s2) : Grows s s2 :=
  fun i a h => h2 i a (h1 i a h)

theorem Compile_grows (E : Env) (pkg : PkgPtr) (deps : List Handle) (s1 : State)
    (heap1 : List Action) (t : Handle) (targets : List (String × Handle))
    (h : Compile E pkg deps s1.heap = (Except.ok t, heap1)) :
    Grows s1 { heap := heap1, targets := targets } := by
  obtain ⟨_, _, f3, _, _⟩ := Compile_facts E pkg deps s1.heap heap1 t h
  intro i a hi
  have hlt : i < s1.heap.length := (List.getElem?_eq_some_iff.mp hi).1
  show heap1[i]? = some a
  rw [f3 i hlt]; exact hi

theorem chainA (E : Env) (s : State) (pkgs : List PkgPtr) (deps : List Handle) (s1 : State)
    (h : Chain (PostA E) s pkgs deps s1) : Grows s s1 ∧ (InvA E s → InvA E s1) := by
  induction h with
  | nil s => exact ⟨Grows.refl s, fun h => h⟩
  | cons s s1 s2 i rest r deps hcall _ ih =>
    exact ⟨Grows.trans hcall.1 ih.1, fun h => ih.2 (hcall.2 h)⟩

theorem BuildPackage_postA (E : Env) :
    ∀ (fuel : Nat) (s : State) (pkg : PkgPtr) (r : Option Handle) (s1 : State),
      BuildPackage E fuel s pkg = Outcome.ok r s1 → PostA E s pkg r s1 := by
  apply BuildPackage_induct E (PostA E)
  · intro s pkg a _
    exact ⟨Grows.refl s, fun h => h⟩
  · intro s pkg _ _
    exact ⟨Grows.refl s, fun h => h⟩
  · intro s s1 pkg pkgs deps build heap1 _ hns _ hch hc
    obtain ⟨g1, g2⟩ := chainA E s pkgs deps s1 hch
    have g3 := Compile_grows E pkg deps s1 heap1 build
      (((E.pkg pkg).ImportPath, build) :: s1.targets) hc
    obtain ⟨f1, f2, f3, f4, _⟩ := Compile_facts E pkg deps s1.heap heap1 build hc
    refine ⟨Grows.trans g1 g3, ?_⟩
    intro hinv
    obtain ⟨i1, i2⟩ := g2 hinv
    constructor
    · intro h a q ha hu
      have ha1 : heap1[h]? = some a := ha
      by_cases hlt : h < s1.heap.length
      · rw [f3 h hlt] at ha1
        exact i1 h a q ha1 hu
      · have := (f4 h a (Nat.le_of_not_lt hlt) ha1).1
        rw [this] at hu
        rw [← Option.some.inj hu]; exact hns
    · intro p h hl
      have hl1 : List.lookup p (((E.pkg pkg).ImportPath, build) :: s1.targets) = some h := hl
      by_cases hp : p = (E.pkg pkg).ImportPath
      · subst hp
        rw [lookup_cons_self] at hl1
        have hb : build = h := Option.some.inj hl1
        subst hb
        have hlt : build < heap1.length := by unfold Handle at *; omega
        refine ⟨heap1[build], pkg, ?_, ?_, rfl, hns⟩
        · exact List.getElem?_eq_getElem hlt
        · exact (f4 build _ f1 (List.getElem?_eq_getElem hlt)).1
      · rw [lookup_cons_ne _ _ _ _ hp] at hl1
        obtain ⟨a, q, h1, h2, h3, h4⟩ := i2 p h hl1
        exact ⟨a, q, g3 h a h1, h2, h3, h4⟩

/-- A successful call of `BuildPackages`: the loop over the roots that have
source files returns `deps`, and the umbrella Action `u` is placed after the
last Action the loop added. -/
theorem BuildPackages_ok (E : Env) (fuel : Nat) (pkgs : List PkgPtr) (root : Handle)
    (s : State) (h : BuildPackages E fuel pkgs = Outcome.ok root s) :
    ∃ (pkg0 : PkgPtr) (rest : List PkgPtr) (deps : List Handle) (s1 : State) (u : Action),
      pkgs = pkg0 :: rest ∧
      depsLoop (BuildPackage E fuel)
        (pkgs.filter (fun pkg =>
          !((E.pkg pkg).GoFiles.length + (E.pkg pkg).CgoFiles.length == 0))) []
        { heap := [], targets := [] } = Outcome.ok deps s1 ∧
      u.Deps = deps ∧ u.Run = Step.buildDuration pkg0 ∧
      s = { heap := s1.heap ++ [u], targets := s1.targets } ∧ root = s1.heap.length := by
  cases pkgs with
  | nil => simp [BuildPackages] at h
  | cons pkg0 rest =>
    simp only [BuildPackages] at h
    split at h
    · simp at h
    · simp at h
    · rename_i deps s1 hr
      simp only [alloc, Outcome.ok.injEq] at h
      rw [rootLoop_eq] at hr
      exact ⟨pkg0, rest, deps, s1, _, rfl, hr, rfl, rfl, h.2.symm, h.1.symm⟩

theorem umbrella_getElem? (heap : List Action) (u a : Action) (i : Handle)
    (h : (heap ++ [u])[i]? = some a) :
    (i < heap.length ∧ heap[i]? = some a) ∨ (i = heap.length ∧ a = u) := by
  by_cases hlt : i < heap.length
  · rw [append_getElem?_lt _ _ _ hlt] at h
    exact Or.inl ⟨hlt, h⟩
  · obtain ⟨j, rfl⟩ : ∃ j, i = heap.length + j :=
      ⟨i - heap.length, (Nat.add_sub_cancel' (Nat.le_of_not_lt hlt)).symm⟩
    rw [append_getElem?_add] at h
    cases j with
    | zero =>
      simp only [List.getElem?_cons_zero, Option.some.injEq] at h
      exact Or.inr ⟨rfl, h.symm⟩
    | succ j => simp at h

/-- C2 (amended). For every input to `BuildPackages` that succeeds and every
up-to-date unit: no Action of the heap is a pipeline stage built for that unit;
every memo entry is an Action built for a stale unit of the entry's identity;
so the memo holds no entry for the identity of the up-to-date unit when no
stale unit shares that identity. -/
theorem BuildPackages_notStale_contributes_nothing (E : Env) (fuel : Nat)
    (pkgs : List PkgPtr) (root : Handle) (s : State)
    (h : BuildPackages E fuel pkgs = Outcome.ok root s) (pkg : PkgPtr)
    (hns : (E.pkg pkg).NotStale = true) :
    (∀ (i : Handle) (a : Action), s.heap[i]? = some a → a.Run.unit ≠ some pkg) ∧
    (∀ (p : String) (i : Handle), s.targets.lookup p = some i →
      ∃ (a : Action) (q : PkgPtr), s.heap[i]? = some a ∧ a.Run.unit = some q ∧
        (E.pkg q).ImportPath = p ∧ (E.pkg q).NotStale = false) ∧
    ((∀ q : PkgPtr, (E.pkg q).ImportPath = (E.pkg pkg).ImportPath →
        (E.pkg q).NotStale = true) →
      s.targets.lookup (E.pkg pkg).ImportPath = none) := by
  obtain ⟨pkg0, rest, deps, s1, u, _, hr, _, hu0, hs, _⟩ := BuildPackages_ok E fuel pkgs root s h
  have hinv : InvA E s := by
    obtain ⟨d, _, hch⟩ := depsLoop_chain _ (PostA E) (BuildPackage_postA E fuel) _ _ _ _ _ hr
    obtain ⟨_, g2⟩ := chainA E _ _ _ _ hch
    obtain ⟨i1, i2⟩ := g2 ⟨by intro h a q ha; simp at ha, by intro p h hl; simp at hl⟩
    rw [hs]
    constructor
    · intro i a q ha hu
      rcases umbrella_getElem? s1.heap u a i ha with ⟨_, h1⟩ | ⟨_, h1⟩
      · exact i1 i a q h1 hu
      · rw [h1, hu0] at hu
        simp [Step.unit] at hu
    · intro p i hl
      obtain ⟨a, q, h1, h2, h3, h4⟩ := i2 p i hl
      refine ⟨a, q, ?_, h2, h3, h4⟩
      have hlt : i < s1.heap.length := (List.getElem?_eq_some_iff.mp h1).1
      show (s1.heap ++ [u])[i]? = some a
      rw [append_getElem?_lt _ _ _ hlt]; exact h1
  obtain ⟨i1, i2⟩ := hinv
  refine ⟨?_, i2, ?_⟩
  · intro i a ha hu
    have := i1 i a pkg ha hu
    rw [hns] at this; cases this
  · intro hall
    cases hl : s.targets.lookup (E.pkg pkg).ImportPath with
    | none => rfl
    | some i =>
      obtain ⟨a, q, _, _, h3, h4⟩ := i2 _ i hl
      have := hall q h3
      rw [h4] at this; cases this

/-! ## One terminal Action per unit identity -/

theorem chainB (E : Env) (rank : String → Nat) (s : State) (pkgs : List PkgPtr)
    (deps : List Handle) (s1 : State) (h : Chain (PostB E rank) s pkgs deps s1) :
    Grows s s1 ∧
    (∀ (q : String) (h : Handle), s.targets.lookup q = some h →
      s1.targets.lookup q = some h) ∧
    (∀ R : Nat, (∀ i ∈ pkgs, rank (E.pkg i).ImportPath < R) →
      ∀ q : String, R ≤ rank q → s1.targets.lookup q = s.targets.lookup q) ∧
    (∀ d ∈ deps, ∃ q : String, s1.targets.lookup q = some d) ∧
    (InvB E s → InvB E s1) := by
  induction h with
  | nil s =>
    exact ⟨Grows.refl s, fun _ _ h => h, fun _ _ _ _ => rfl,
      fun d hd => by simp at hd, fun h => h⟩
  | cons s s1 s2 i rest r deps hcall _ ih =>
    obtain ⟨c1, c2, c3, c4, c5⟩ := hcall
    obtain ⟨i1, i2, i3, i4, i5⟩ := ih
    refine ⟨Grows.trans c1 i1, fun q h hq => i2 q h (c2 q h hq), ?_, ?_, fun h => i5 (c5 h)⟩
    · intro R hR q hq
      rw [i3 R (fun j hj => hR j (List.mem_cons_of_mem _ hj)) q hq]
      exact c3 q (Nat.lt_of_lt_of_le (hR i (List.mem_cons_self _ _)) hq)
    · intro d hd
      rcases List.mem_append.mp hd with h1 | h1
      · cases r with
        | none => simp at h1
        | some a =>
          simp only [Option.toList, List.mem_singleton] at h1
          subst h1
          exact ⟨_, i2 _ _ (c4 d rfl)⟩
      · exact i4 d h1

theorem unitOf_of_unit (E : Env) (a : Action) (pkg : PkgPtr) (h : a.Run.unit = some pkg) :
    unitOf E a = some (E.pkg pkg).ImportPath := by
  simp [unitOf, h]

theorem BuildPackage_postB (E : Env) (rank : String → Nat) (hac : Acyclic E rank) :
    ∀ (fuel : Nat) (s : State) (pkg : PkgPtr) (r : Option Handle) (s1 : State),
      BuildPackage E fuel s pkg = Outcome.ok r s1 → PostB E rank s pkg r s1 := by
  apply BuildPackage_induct E (PostB E rank)
  · intro s pkg a hm
    refine ⟨Grows.refl s, fun _ _ h => h, fun _ _ => rfl, ?_, fun h => h⟩
    intro h hh
    rw [← Option.some.inj hh]; exact hm
  · intro s pkg _ _
    refine ⟨Grows.refl s, fun _ _ h => h, fun _ _ => rfl, ?_, fun h => h⟩
    intro h hh; cases hh
  · intro s s1 pkg pkgs deps build heap1 hm hns hr hch hc
    obtain ⟨g1, g2, g3, g4, g5⟩ := chainB E rank s pkgs deps s1 hch
    have g6 := Compile_grows E pkg deps s1 heap1 build
      (((E.pkg pkg).ImportPath, build) :: s1.targets) hc
    obtain ⟨f1, f2, f3, f4, f5⟩ := Compile_facts E pkg deps s1.heap heap1 build hc
    have hrank := resolveLoop_rank E rank hac pkg pkgs hr
    -- the memo has no entry for `pkg` when `Compile` is called
    have hm1 : s1.targets.lookup (E.pkg pkg).ImportPath = none := by
      rw [g3 _ hrank _ (Nat.le_refl _)]; exact hm
    have hnew : ∀ q : String, q ≠ (E.pkg pkg).ImportPath →
        List.lookup q (((E.pkg pkg).ImportPath, build) :: s1.targets) = s1.targets.lookup q :=
      fun q hq => lookup_cons_ne _ _ _ _ hq
    have hkeep : ∀ (q : String) (h : Handle), s1.targets.lookup q = some h →
        List.lookup q (((E.pkg pkg).ImportPath, build) :: s1.targets) = some h := by
      intro q h hq
      have hne : q ≠ (E.pkg pkg).ImportPath := by
        intro he; rw [he, hm1] at hq; cases hq
      rw [hnew q hne]; exact hq
    have hblt : build < heap1.length := by unfold Handle at *; omega
    have hbu : unitOf E heap1[build] = some (E.pkg pkg).ImportPath :=
      unitOf_of_unit E _ pkg (f4 build _ f1 (List.getElem?_eq_getElem hblt)).1
    refine ⟨Grows.trans g1 g6, ?_, ?_, ?_, ?_⟩
    · intro q h hq
      exact hkeep q h (g2 q h hq)
    · intro q hq
      have hne : q ≠ (E.pkg pkg).ImportPath := by
        intro he; rw [he] at hq; exact Nat.lt_irrefl _ hq
      show List.lookup q (((E.pkg pkg).ImportPath, build) :: s1.targets) = _
      rw [hnew q hne]
      exact g3 _ hrank q (Nat.le_of_lt hq)
    · intro h hh
      rw [← Option.some.inj hh]
      exact lookup_cons_self _ _ _
    · intro hinv
      obtain ⟨m1, m2, m3, m4, m5⟩ := g5 hinv
      refine ⟨?_, ?_, ?_, ?_, ?_⟩
      · -- memo entries
        intro p h hl
        have hl1 : List.lookup p (((E.pkg pkg).ImportPath, build) :: s1.targets) = some h := hl
        by_cases hp : p = (E.pkg pkg).ImportPath
        · subst hp
          rw [lookup_cons_self] at hl1
          rw [← Option.some.inj hl1]
          exact ⟨heap1[build], List.getElem?_eq_getElem hblt, hbu⟩
        · rw [hnew p hp] at hl1
          obtain ⟨a, h1, h2⟩ := m1 p h hl1
          exact ⟨a, g6 h a h1, h2⟩
      · -- every pipeline Action is the memo entry or is depended on
        intro h a p ha hu
        have ha1 : heap1[h]? = some a := ha
        by_cases hlt : h < s1.heap.length
        · rw [f3 h hlt] at ha1
          rcases m2 h a p ha1 hu with h1 | ⟨h1, a1, k1, k2, k3⟩
          · exact Or.inl (hkeep p h h1)
          · exact Or.inr ⟨h1, a1, g6 h1 a1 k1, k2, k3⟩
        · have hge : s1.heap.length ≤ h := Nat.le_of_not_lt hlt
          have hup := unitOf_of_unit E a pkg (f4 h a hge ha1).1
          rw [hu] at hup
          have hp : p = (E.pkg pkg).ImportPath := Option.some.inj hup
          by_cases hb : h = build
          · left
            rw [hp, hb]
            exact lookup_cons_self _ _ _
          · right
            have hhl : h < heap1.length := (List.getElem?_eq_some_iff.mp ha1).1
            have hlt2 : h < build := by unfold Handle at *; omega
            obtain ⟨i1, a1, k1, k2, k3⟩ := f5 h hge hlt2
            refine ⟨i1, a1, k2, ?_, k3⟩
            rw [hp]
            exact unitOf_of_unit E a1 pkg (f4 i1 a1 k1 k2).1
      · -- edges that cross identities
        intro h a d b q ha hd hb hq hne
        have ha1 : heap1[h]? = some a := ha
        have hb1 : heap1[d]? = some b := hb
        by_cases hlt : h < s1.heap.length
        · rw [f3 h hlt] at ha1
          have hdl := m4 h a d ha1 hd
          rw [f3 d hdl] at hb1
          exact hkeep q d (m3 h a d b q ha1 hd hb1 hq hne)
        · have hge : s1.heap.length ≤ h := Nat.le_of_not_lt hlt
          obtain ⟨ku, kd⟩ := f4 h a hge ha1
          rcases kd d hd with hin | ⟨hd1, _⟩
          · obtain ⟨q1, hq1⟩ := g4 d hin
            obtain ⟨b1, hb2, hb3⟩ := m1 q1 d hq1
            have hdl : d < s1.heap.length := (List.getElem?_eq_some_iff.mp hb2).1
            rw [f3 d hdl, hb2] at hb1
            rw [← Option.some.inj hb1, hb3] at hq
            rw [← Option.some.inj hq]
            exact hkeep q1 d hq1
          · exfalso
            apply hne
            rw [unitOf_of_unit E a pkg ku, ← hq]
            exact (unitOf_of_unit E b pkg (f4 d b hd1 hb1).1).symm
      · -- no dependency dangles
        intro h a d ha hd
        have ha1 : heap1[h]? = some a := ha
        show d < heap1.length
        by_cases hlt : h < s1.heap.length
        · rw [f3 h hlt] at ha1
          have := m4 h a d ha1 hd
          unfold Handle at *; omega
        · have hge : s1.heap.length ≤ h := Nat.le_of_not_lt hlt
          rcases (f4 h a hge ha1).2 d hd with hin | ⟨_, h2⟩
          · obtain ⟨q1, hq1⟩ := g4 d hin
            obtain ⟨b1, hb2, _⟩ := m1 q1 d hq1
            have hdl : d < s1.heap.length := (List.getElem?_eq_some_iff.mp hb2).1
            unfold Handle at *; omega
          · unfold Handle at *; omega
      · -- the memo entry of an identity is a dependency of no Action of it
        intro p h hl h1 a1 ha hu1 hmem
        have hl1 : List.lookup p (((E.pkg pkg).ImportPath, build) :: s1.targets) = some h := hl
        have ha1 : heap1[h1]? = some a1 := ha
        by_cases hlt : h1 < s1.heap.length
        · rw [f3 h1 hlt] at ha1
          have hdl := m4 h1 a1 h ha1 hmem
          by_cases hp : p = (E.pkg pkg).ImportPath
          · rw [hp, lookup_cons_self] at hl1
            have hb : build = h := Option.some.inj hl1
            unfold Handle at *; omega
          · rw [hnew p hp] at hl1
            exact m5 p h hl1 h1 a1 ha1 hu1 hmem
        · have hge : s1.heap.length ≤ h1 := Nat.le_of_not_lt hlt
          obtain ⟨ku, kd⟩ := f4 h1 a1 hge ha1
          have hup := unitOf_of_unit E a1 pkg ku
          rw [hu1] at hup
          have hp : p = (E.pkg pkg).ImportPath := Option.some.inj hup
          rw [hp, lookup_cons_self] at hl1
          have hb : build = h := Option.some.inj hl1
          rcases kd h hmem with hin | ⟨_, h2⟩
          · obtain ⟨q1, hq1⟩ := g4 h hin
            obtain ⟨b1, hb2, _⟩ := m1 q1 h hq1
            have hdl : h < s1.heap.length := (List.getElem?_eq_some_iff.mp hb2).1
            unfold Handle at *; omega
          · unfold Handle at *; omega

/-- The state `BuildPackages` returns satisfies the sharing invariant. -/
theorem BuildPackages_invB (E : Env) (rank : String → Nat) (hac : Acyclic E rank)
    (fuel : Nat) (pkgs : List PkgPtr) (root : Handle) (s : State)
    (h : BuildPackages E fuel pkgs = Outcome.ok root s) : InvB E s := by
  obtain ⟨pkg0, rest, deps, s1, u, _, hr, hud, hur, hs, _⟩ :=
    BuildPackages_ok E fuel pkgs root s h
  obtain ⟨d, hd0, hch⟩ :=
    depsLoop_chain _ (PostB E rank) (BuildPackage_postB E rank hac fuel) _ _ _ _ _ hr
  rw [List.nil_append] at hd0
  obtain ⟨_, _, _, g4, g5⟩ := chainB E rank _ _ _ _ hch
  obtain ⟨m1, m2, m3, m4, m5⟩ := g5 ⟨by intro p h hl; simp at hl,
    by intro h a p ha; simp at ha, by intro h a d b q ha; simp at ha,
    by intro h a d ha; simp at ha, by intro p h hl; simp at hl⟩
  have hgrow : ∀ (i : Handle) (a : Action), s1.heap[i]? = some a →
      (s1.heap ++ [u])[i]? = some a := by
    intro i a hi
    rw [append_getElem?_lt _ _ _ (List.getElem?_eq_some_iff.mp hi).1]; exact hi
  have huu : unitOf E u = none := by simp [unitOf, hur, Step.unit]
  rw [hs]
  refine ⟨?_, ?_, ?_, ?_, ?_⟩
  · intro p i hl
    obtain ⟨a, h1, h2⟩ := m1 p i hl
    exact ⟨a, hgrow i a h1, h2⟩
  · intro i a p ha hu
    rcases umbrella_getElem? s1.heap u a i ha with ⟨_, h1⟩ | ⟨_, h1⟩
    · rcases m2 i a p h1 hu with k | ⟨h2, a2, k1, k2, k3⟩
      · exact Or.inl k
      · exact Or.inr ⟨h2, a2, hgrow h2 a2 k1, k2, k3⟩
    · rw [h1, huu] at hu; cases hu
  · intro i a d b q ha hd hb hq hne
    rcases umbrella_getElem? s1.heap u a i ha with ⟨_, h1⟩ | ⟨_, h1⟩
    · have hdl := m4 i a d h1 hd
      have hb1 : (s1.heap ++ [u])[d]? = some b := hb
      rw [append_getElem?_lt _ _ _ hdl] at hb1
      exact m3 i a d b q h1 hd hb1 hq hne
    · rw [h1, hud, hd0] at hd
      obtain ⟨q1, hq1⟩ := g4 d hd
      obtain ⟨b1, hb2, hb3⟩ := m1 q1 d hq1
      have hb1 : (s1.heap ++ [u])[d]? = some b := hb
      rw [append_getElem?_lt _ _ _ (List.getElem?_eq_some_iff.mp hb2).1, hb2] at hb1
      rw [← Option.some.inj hb1, hb3] at hq
      rw [← Option.some.inj hq]
      exact hq1
  · intro i a d ha hd
    show d < (s1.heap ++ [u]).length
    rw [List.length_append, List.length_singleton]
    rcases umbrella_getElem? s1.heap u a i ha with ⟨_, h1⟩ | ⟨_, h1⟩
    · exact Nat.lt_succ_of_lt (m4 i a d h1 hd)
    · rw [h1, hud, hd0] at hd
      obtain ⟨q1, hq1⟩ := g4 d hd
      obtain ⟨b1, hb2, _⟩ := m1 q1 d hq1
      exact Nat.lt_succ_of_lt (List.getElem?_eq_some_iff.mp hb2).1
  · intro p i hl h1 a1 ha hu1 hmem
    rcases umbrella_getElem? s1.heap u a1 h1 ha with ⟨_, k⟩ | ⟨_, k⟩
    · exact m5 p i hl h1 a1 k hu1 hmem
    · rw [k, huu] at hu1; cases hu1

/-- A rank on identities is a rank on units. -/
theorem Acyclic.units (E : Env) (rank : String → Nat) (h : Acyclic E rank) :
    AcyclicUnits E (fun i => rank (E.pkg i).ImportPath) :=
  fun pkg => ⟨fun i hi => (h pkg).1 i hi, fun name hn i hi => (h pkg).2 name hn i hi⟩

/-- C1 (amended). For every input whose unit dependency relation is acyclic on
identities (`Acyclic`: no unit depends on a unit of its own identity) and on
which `BuildPackages` succeeds: the terminal Actions are exactly the memo
entries, a terminal Action of an identity being the memo entry of that identity,
so there is at most one per identity; and every dependency edge from an Action
(a compile stage, the umbrella) into the pipeline of another identity points to
the memo entry of that identity, so two units that depend on the same unit
depend on the same Action instance. -/
theorem BuildPackages_one_terminal_per_unit (E : Env) (rank : String → Nat)
    (hac : Acyclic E rank) (fuel : Nat) (pkgs : List PkgPtr) (root : Handle) (s : State)
    (h : BuildPackages E fuel pkgs = Outcome.ok root s) :
    (∀ (p : String) (t : Handle), IsTerminal E s.heap t p ↔ s.targets.lookup p = some t) ∧
    (∀ (p : String) (t1 t2 : Handle), IsTerminal E s.heap t1 p → IsTerminal E s.heap t2 p →
      t1 = t2) ∧
    (∀ (i : Handle) (a : Action) (d : Handle) (b : Action) (q : String),
      s.heap[i]? = some a → d ∈ a.Deps → s.heap[d]? = some b → unitOf E b = some q →
      unitOf E a ≠ some q → s.targets.lookup q = some d) := by
  obtain ⟨m1, m2, m3, _, m5⟩ := BuildPackages_invB E rank hac fuel pkgs root s h
  have hterm : ∀ (p : String) (t : Handle), IsTerminal E s.heap t p →
      s.targets.lookup p = some t := by
    intro p t ht
    obtain ⟨⟨a, ha, hu⟩, hno⟩ := ht
    rcases m2 t a p ha hu with k | ⟨h1, a1, k1, k2, k3⟩
    · exact k
    · exact absurd k3 (hno h1 a1 k1 k2)
  refine ⟨fun p t => ⟨hterm p t, fun hl => ⟨m1 p t hl, m5 p t hl⟩⟩, ?_, m3⟩
  intro p t1 t2 h1 h2
  have e1 := hterm p t1 h1
  have e2 := hterm p t2 h2
  rw [e1] at e2
  exact Option.some.inj e2

/-! ## Implicit dependencies -/

theorem resolveCalls_initial (E : Env) (pkg : PkgPtr) (names : List String) :
    resolveCalls E pkg names <+: names := by
  induction names with
  | nil => exact List.prefix_refl _
  | cons i rest ih =>
    simp only [resolveCalls]
    cases E.ResolvePackage pkg i with
    | error e => exact ⟨rest, rfl⟩
    | ok p => exact (List.prefix_cons_inj i).mpr ih

theorem resolveCalls_ok (E : Env) (pkg : PkgPtr) (names : List String) :
    ∀ (acc pkgs : List PkgPtr), resolveLoop E pkg names acc = Except.ok pkgs →
      resolveCalls E pkg names = names := by
  induction names with
  | nil => intro acc pkgs _; rfl
  | cons i rest ih =>
    intro acc pkgs h
    simp only [resolveLoop] at h
    simp only [resolveCalls]
    cases hr : E.ResolvePackage pkg i with
    | error e => rw [hr] at h; simp at h
    | ok p =>
      rw [hr] at h
      simp only
      rw [ih _ _ h]

/-- The implicit dependency `runtime/cgo` of a unit that is not executable: a
unit with a cgo file and another identity than `runtime/cgo` asks the resolver
for it first; the unit `runtime/cgo` does not ask for it. -/
theorem extraImports_runtime_cgo (E : Env) (pkg : PkgPtr)
    (hmain : (E.pkg pkg).Main = false) :
    ((E.pkg pkg).CgoFiles ≠ [] → (E.pkg pkg).ImportPath ≠ "runtime/cgo" →
      (resolveCalls E pkg (extraImports E (E.pkg pkg))).head? = some "runtime/cgo") ∧
    ((E.pkg pkg).ImportPath = "runtime/cgo" →
      "runtime/cgo" ∉ extraImports E (E.pkg pkg)) := by
  constructor
  · intro hc hp
    have hlen : 0 < (E.pkg pkg).CgoFiles.length := List.length_pos.mpr hc
    have he : extraImports E (E.pkg pkg) = "runtime/cgo" ::
        (if (E.pkg pkg).TestScope then
          ["regexp"] ++ (if E.versionAbove1_7 then ["testing/internal/testdeps"] else [])
        else []) := by
      simp [extraImports, hmain, hlen, hp]
    rw [he]
    simp only [resolveCalls]
    cases E.ResolvePackage pkg "runtime/cgo" <;> rfl
  · intro hp
    simp only [extraImports, hmain, hp]
    cases (E.pkg pkg).TestScope <;> cases E.versionAbove1_7 <;> simp

/-- The calls of the loop of lines 255-261: either the resolver succeeds on
every name, every name is passed and the loop ends with the resolved units
appended; or the names passed end at the first name the resolver fails on, and
the loop returns the error of that call. -/
theorem resolveCalls_cases (E : Env) (pkg : PkgPtr) (names : List String) :
    ((∀ n ∈ names, ∃ p, E.ResolvePackage pkg n = Except.ok p) ∧
      resolveCalls E pkg names = names ∧
      ∀ acc : List PkgPtr, ∃ ps : List PkgPtr,
        resolveLoop E pkg names acc = Except.ok (acc ++ ps)) ∨
    (∃ (pre : List String) (name : String) (post : List String) (m : String),
      names = pre ++ name :: post ∧
      (∀ n ∈ pre, ∃ p, E.ResolvePackage pkg n = Except.ok p) ∧
      E.ResolvePackage pkg name = Except.error m ∧
      resolveCalls E pkg names = pre ++ [name] ∧
      ∀ acc : List PkgPtr, resolveLoop E pkg names acc = Except.error (Err.resolve m)) := by
  induction names with
  | nil =>
    left
    refine ⟨?_, rfl, fun acc => ⟨[], by simp [resolveLoop]⟩⟩
    intro n hn; cases hn
  | cons i rest ih =>
    cases hr : E.ResolvePackage pkg i with
    | error m =>
      right
      refine ⟨[], i, rest, m, rfl, ?_, hr, by simp [resolveCalls, hr], ?_⟩
      · intro n hn; cases hn
      · intro acc; simp [resolveLoop, hr]
    | ok p =>
      rcases ih with ⟨h1, h2, h3⟩ | ⟨pre, name, post, m, h1, h2, h3, h4, h5⟩
      · left
        refine ⟨?_, by simp [resolveCalls, hr, h2], ?_⟩
        · intro n hn
          rcases List.mem_cons.mp hn with rfl | hn1
          · exact ⟨p, hr⟩
          · exact h1 n hn1
        · intro acc
          obtain ⟨ps, hps⟩ := h3 (acc ++ [p])
          exact ⟨p :: ps, by simp [resolveLoop, hr, hps]⟩
      · right
        refine ⟨i :: pre, name, post, m, by rw [h1]; rfl, ?_, h3,
          by simp [resolveCalls, hr, h4], ?_⟩
        · intro n hn
          rcases List.mem_cons.mp hn with rfl | hn1
          · exact ⟨p, hr⟩
          · exact h2 n hn1
        · intro acc
          simp [resolveLoop, hr, h5]

/-- C12 (amended). For every unit without cgo files, the implicit dependency
names `BuildDependencies` sets out to resolve are exactly, in this order:
`runtime` iff the unit is executable, `runtime/race` iff it is executable and
race-instrumented, `regexp` iff it is test-scope, and
`testing/internal/testdeps` iff it is test-scope and the version is above 1.7; a
unit that is neither executable nor test-scope has none. The names passed to the
resolver are a prefix of this sequence: the whole of it when no resolution
fails, and otherwise the names up to and including the first one the resolver
fails on, `BuildDependencies` then returning the error of that call. -/
theorem extraImports_without_cgo (E : Env) (pkg : PkgPtr)
    (hc : (E.pkg pkg).CgoFiles = []) :
    extraImports E (E.pkg pkg) =
      (if (E.pkg pkg).Main = true then ["runtime"] else []) ++
      (if (E.pkg pkg).Main = true ∧ (E.pkg pkg).race = true then ["runtime/race"] else []) ++
      (if (E.pkg pkg).TestScope = true then ["regexp"] else []) ++
      (if (E.pkg pkg).TestScope = true ∧ E.versionAbove1_7 = true then
        ["testing/internal/testdeps"] else []) ∧
    ((E.pkg pkg).Main = false → (E.pkg pkg).TestScope = false →
      extraImports E (E.pkg pkg) = []) ∧
    resolveCalls E pkg (extraImports E (E.pkg pkg)) <+: extraImports E (E.pkg pkg) ∧
    (∀ pkgs, resolveLoop E pkg (extraImports E (E.pkg pkg)) (E.pkg pkg).Imports =
        Except.ok pkgs →
      resolveCalls E pkg (extraImports E (E.pkg pkg)) = extraImports E (E.pkg pkg)) ∧
    (((∀ n ∈ extraImports E (E.pkg pkg), ∃ p, E.ResolvePackage pkg n = Except.ok p) ∧
        resolveCalls E pkg (extraImports E (E.pkg pkg)) = extraImports E (E.pkg pkg) ∧
        ∃ ps : List PkgPtr,
          resolveLoop E pkg (extraImports E (E.pkg pkg)) (E.pkg pkg).Imports =
            Except.ok ((E.pkg pkg).Imports ++ ps)) ∨
      (∃ (pre : List String) (name : String) (post : List String) (m : String),
        extraImports E (E.pkg pkg) = pre ++ name :: post ∧
        (∀ n ∈ pre, ∃ p, E.ResolvePackage pkg n = Except.ok p) ∧
        E.ResolvePackage pkg name = Except.error m ∧
        resolveCalls E pkg (extraImports E (E.pkg pkg)) = pre ++ [name] ∧
        ∀ (bp : State → PkgPtr → Outcome (Option Handle)) (s : State),
          BuildDependencies bp E s pkg = Outcome.error (Err.resolve m) s)) := by
  refine ⟨?_, ?_, resolveCalls_initial E pkg _, fun pkgs h => resolveCalls_ok E pkg _ _ _ h, ?_⟩
  · simp only [extraImports, hc]
    cases (E.pkg pkg).Main <;> cases (E.pkg pkg).race <;> cases (E.pkg pkg).TestScope <;>
      cases E.versionAbove1_7 <;> simp
  · intro hm ht
    simp [extraImports, hc, hm, ht]
  · rcases resolveCalls_cases E pkg (extraImports E (E.pkg pkg)) with
      ⟨h1, h2, h3⟩ | ⟨pre, name, post, m, h1, h2, h3, h4, h5⟩
    · exact Or.inl ⟨h1, h2, h3 _⟩
    · refine Or.inr ⟨pre, name, post, m, h1, h2, h3, h4, ?_⟩
      intro bp s
      unfold BuildDependencies
      rw [h5]

/-! ## The dependencies of the umbrella Action -/

theorem rootLoop_eq_hasSource (E : Env) (fuel : Nat) (pkgs : List PkgPtr)
    (deps : List Handle) (s : State) :
    rootLoop E fuel pkgs deps s =
      depsLoop (BuildPackage E fuel) (pkgs.filter (hasSource E)) deps s :=
  rootLoop_eq E fuel pkgs deps s

theorem depsLoop_nil_of_skipped (bp : State → PkgPtr → Outcome (Option Handle)) (s : State)
    (pkgs : List PkgPtr) (h : ∀ i ∈ pkgs, bp s i = Outcome.ok none s) :
    ∀ deps : List Handle, depsLoop bp pkgs deps s = Outcome.ok deps s := by
  induction pkgs with
  | nil => intro deps; rfl
  | cons i rest ih =>
    intro deps
    simp only [depsLoop, h i (List.mem_cons_self _ _)]
    exact ih (fun j hj => h j (List.mem_cons_of_mem _ hj)) deps

/-- C13 (amended). For every non-empty input on which `BuildPackages`
succeeds, the dependency list of the umbrella Action is exactly, in input
order, the Actions `BuildPackage` returned for the root units that have a Go or
cgo source file, a root for which it returned nil contributing nothing. When
every root has no source file or is up to date, `BuildPackages` succeeds (the
memo is then empty at every call) and the umbrella has no dependencies. -/
theorem BuildPackages_umbrella_deps (E : Env) (fuel : Nat) (pkgs : List PkgPtr) :
    (∀ (root : Handle) (s : State), BuildPackages E fuel pkgs = Outcome.ok root s →
      ∃ (u : Action) (s1 : State) (pkg0 : PkgPtr),
        pkgs.head? = some pkg0 ∧ s.heap[root]? = some u ∧
        s = { heap := s1.heap ++ [u], targets := s1.targets } ∧
        u.Run = Step.buildDuration pkg0 ∧
        Chain (Returned E fuel) emptyState (pkgs.filter (hasSource E)) u.Deps s1) ∧
    (pkgs ≠ [] →
      (∀ pkg ∈ pkgs, hasSource E pkg = false ∨ (E.pkg pkg).NotStale = true) →
      ∃ u : Action, BuildPackages E (fuel + 1) pkgs =
          Outcome.ok 0 { heap := [u], targets := [] } ∧ u.Deps = []) := by
  constructor
  · intro root s h
    obtain ⟨pkg0, rest, deps, s1, u, hp, hr, hud, hur, hs, hroot⟩ :=
      BuildPackages_ok E fuel pkgs root s h
    obtain ⟨d, hd0, hch⟩ := depsLoop_chain _ (Returned E fuel) (fun _ _ _ _ h => h) _ _ _ _ _ hr
    rw [List.nil_append] at hd0
    refine ⟨u, s1, pkg0, by rw [hp]; rfl, ?_, hs, hur, ?_⟩
    · rw [hs, hroot]
      have := append_getElem?_add s1.heap [u] 0
      rw [Nat.add_zero] at this
      exact this
    · rw [hud, hd0]; exact hch
  · intro hne hall
    cases pkgs with
    | nil => exact absurd rfl hne
    | cons pkg0 rest =>
      have hskip : ∀ i ∈ (pkg0 :: rest).filter (hasSource E),
          BuildPackage E (fuel + 1) emptyState i = Outcome.ok none emptyState := by
        intro i hi
        obtain ⟨hmem, hsrc⟩ := List.mem_filter.mp hi
        rcases hall i hmem with h1 | h1
        · rw [h1] at hsrc; cases hsrc
        · simp [BuildPackage, emptyState, h1]
      have hloop := depsLoop_nil_of_skipped (BuildPackage E (fuel + 1)) emptyState _ hskip []
      refine ⟨umbrellaAction E (pkg0 :: rest) pkg0 [], ?_, rfl⟩
      simp only [BuildPackages]
      rw [rootLoop_eq_hasSource]
      have hl : depsLoop (BuildPackage E (fuel + 1)) (List.filter (hasSource E) (pkg0 :: rest)) []
          { heap := [], targets := [] } = Outcome.ok [] emptyState := hloop
      rw [hl]
      rfl

/-! ## Errors abort the construction -/

theorem depsLoop_append (bp : State → PkgPtr → Outcome (Option Handle))
    (pre rest : List PkgPtr) :
    ∀ (acc : List Handle) (s : State) (d : List Handle) (s1 : State),
      depsLoop bp pre acc s = Outcome.ok d s1 →
      depsLoop bp (pre ++ rest) acc s = depsLoop bp rest d s1 := by
  induction pre with
  | nil =>
    intro acc s d s1 h
    simp only [depsLoop, Outcome.ok.injEq] at h
    rw [List.nil_append, h.1, h.2]
  | cons i pre ih =>
    intro acc s d s1 h
    simp only [depsLoop, List.cons_append] at h ⊢
    cases hb : bp s i with
    | fuel => rw [hb] at h; simp at h
    | error e s2 => rw [hb] at h; simp at h
    | ok r s2 =>
      rw [hb] at h
      cases r with
      | none => exact ih acc s2 d s1 h
      | some a => exact ih (acc ++ [a]) s2 d s1 h

/-- The loop of lines 262-272 stops at the first call that does not return an
Action or nil, with the outcome of that call. -/
theorem depsLoop_stops (bp : State → PkgPtr → Outcome (Option Handle))
    (pre post : List PkgPtr) (i : PkgPtr) (acc d : List Handle) (s s1 : State)
    (h : depsLoop bp pre acc s = Outcome.ok d s1) :
    (∀ e s2, bp s1 i = Outcome.error e s2 →
      depsLoop bp (pre ++ i :: post) acc s = Outcome.error e s2) ∧
    (bp s1 i = Outcome.fuel → depsLoop bp (pre ++ i :: post) acc s = Outcome.fuel) := by
  rw [depsLoop_append bp pre (i :: post) acc s d s1 h]
  constructor
  · intro e s2 hb
    simp only [depsLoop, hb]
  · intro hb
    simp only [depsLoop, hb]

/-- The outcome of a call that `BuildPackage` reaches and that does not return
an Action or nil is the outcome of `BuildPackage`. -/
theorem Reaches_stops (E : Env) (fuel : Nat) (s : State) (pkg : PkgPtr) (fuel2 : Nat)
    (s2 : State) (pkg2 : PkgPtr) (h : Reaches E fuel s pkg fuel2 s2 pkg2) :
    (∀ e s3, BuildPackage E fuel2 s2 pkg2 = Outcome.error e s3 →
      BuildPackage E fuel s pkg = Outcome.error e s3) ∧
    (BuildPackage E fuel2 s2 pkg2 = Outcome.fuel → BuildPackage E fuel s pkg = Outcome.fuel) := by
  induction h with
  | here fuel s pkg => exact ⟨fun _ _ h => h, fun h => h⟩
  | dep fuel s s1 pkg i pre post d fuel2 s2 pkg2 hmemo hstale hres hpre _ ih =>
    obtain ⟨k1, k2⟩ := depsLoop_stops (BuildPackage E fuel) pre post i [] d s s1 hpre
    constructor
    · intro e s3 hb
      have := k1 e s3 (ih.1 e s3 hb)
      simp [BuildPackage, hmemo, hstale, BuildDependencies, hres, this]
    · intro hb
      have := k2 (ih.2 hb)
      simp [BuildPackage, hmemo, hstale, BuildDependencies, hres, this]

theorem filter_cons_source (E : Env) (i : PkgPtr) (post : List PkgPtr)
    (hsrc : hasSource E i = true) :
    (pre : List PkgPtr) → (pre ++ i :: post).filter (hasSource E) =
      pre.filter (hasSource E) ++ i :: post.filter (hasSource E) := by
  intro pre
  rw [List.filter_append, List.filter_cons_of_pos hsrc]

/-- The outcome of a call that `BuildPackages` reaches and that does not return
an Action or nil is the outcome of `BuildPackages`. -/
theorem RootReaches_stops (E : Env) (fuel : Nat) (pkgs : List PkgPtr) (fuel2 : Nat)
    (s2 : State) (pkg2 : PkgPtr) (h : RootReaches E fuel pkgs fuel2 s2 pkg2) :
    (∀ e s3, BuildPackage E fuel2 s2 pkg2 = Outcome.error e s3 →
      BuildPackages E fuel pkgs = Outcome.error e s3) ∧
    (BuildPackage E fuel2 s2 pkg2 = Outcome.fuel → BuildPackages E fuel pkgs = Outcome.fuel) := by
  obtain ⟨pre, i, post, d, s1, hp, hsrc, hpre, hr⟩ := h
  obtain ⟨r1, r2⟩ := Reaches_stops E fuel s1 i fuel2 s2 pkg2 hr
  rw [rootLoop_eq_hasSource] at hpre
  obtain ⟨k1, k2⟩ := depsLoop_stops (BuildPackage E fuel) (pre.filter (hasSource E))
    (post.filter (hasSource E)) i [] d emptyState s1 hpre
  rw [← filter_cons_source E i post hsrc pre, ← hp, ← rootLoop_eq_hasSource] at k1 k2
  cases pkgs with
  | nil => cases pre <;> simp at hp
  | cons pkg0 rest =>
    constructor
    · intro e s3 hb
      have := k1 e s3 (r1 e s3 hb)
      simp only [BuildPackages]
      have hl : rootLoop E fuel (pkg0 :: rest) [] { heap := [], targets := [] } =
          Outcome.error e s3 := this
      rw [hl]
    · intro hb
      have := k2 (r2 hb)
      simp only [BuildPackages]
      have hl : rootLoop E fuel (pkg0 :: rest) [] { heap := [], targets := [] } =
          Outcome.fuel := this
      rw [hl]

/-- The loop of lines 255-261 returns the error of the first name the resolver
fails on. -/
theorem resolveLoop_fails (E : Env) (pkg : PkgPtr) (names : List String) :
    ∀ acc : List PkgPtr,
      (∃ name ∈ names, ∃ m, E.ResolvePackage pkg name = Except.error m) →
      ∃ name ∈ names, ∃ m, E.ResolvePackage pkg name = Except.error m ∧
        resolveLoop E pkg names acc = Except.error (Err.resolve m) := by
  induction names with
  | nil => intro acc h; obtain ⟨name, hn, _⟩ := h; cases hn
  | cons i rest ih =>
    intro acc h
    cases hr : E.ResolvePackage pkg i with
    | error m =>
      exact ⟨i, List.mem_cons_self _ _, m, hr, by simp [resolveLoop, hr]⟩
    | ok p =>
      obtain ⟨name, hn, m, hm⟩ := h
      have hrest : ∃ name ∈ rest, ∃ m, E.ResolvePackage pkg name = Except.error m := by
        rcases List.mem_cons.mp hn with h1 | h1
        · rw [h1, hr] at hm; cases hm
        · exact ⟨name, h1, m, hm⟩
      obtain ⟨n2, hn2, m2, h2, h3⟩ := ih (acc ++ [p]) hrest
      exact ⟨n2, List.mem_cons_of_mem _ hn2, m2, h2, by simp [resolveLoop, hr, h3]⟩

/-- C14. If the resolver fails for an implicit dependency of a stale unit that
graph construction reaches and that is not in the memo, then `BuildDependencies`
for that unit returns the error of the resolver (for the first name it fails
on) with the state unchanged, whatever `BuildPackage` would do for the
dependencies of the unit, and `BuildPackages` returns exactly that error and no Action. -/
theorem resolver_failure_aborts (E : Env) (fuel : Nat) (pkgs : List PkgPtr) (fuel1 : Nat)
    (s1 : State) (pkg1 : PkgPtr)
    (hreach : RootReaches E fuel pkgs (fuel1 + 1) s1 pkg1)
    (hstale : (E.pkg pkg1).NotStale = false)
    (hmemo : s1.targets.lookup (E.pkg pkg1).ImportPath = none)
    (hfail : ∃ name ∈ extraImports E (E.pkg pkg1), ∃ m,
      E.ResolvePackage pkg1 name = Except.error m) :
    ∃ name ∈ extraImports E (E.pkg pkg1), ∃ m,
      E.ResolvePackage pkg1 name = Except.error m ∧
      (∀ bp, BuildDependencies bp E s1 pkg1 = Outcome.error (Err.resolve m) s1) ∧
      BuildPackages E fuel pkgs = Outcome.error (Err.resolve m) s1 := by
  obtain ⟨name, hn, m, hm, hl⟩ := resolveLoop_fails E pkg1 _ (E.pkg pkg1).Imports hfail
  refine ⟨name, hn, m, hm, ?_, ?_⟩
  · intro bp
    simp [BuildDependencies, hl]
  · apply (RootReaches_stops E fuel pkgs (fuel1 + 1) s1 pkg1 hreach).1
    simp [BuildPackage, hmemo, hstale, BuildDependencies, hl]

theorem Compile_no_source (E : Env) (pkg : PkgPtr) (deps : List Handle) (heap : List Action)
    (hgo : (E.pkg pkg).GoFiles = []) (hcgo : (E.pkg pkg).CgoFiles = []) :
    Compile E pkg deps heap = (Except.error (Err.noGoFiles (E.pkg pkg).ImportPath), heap) := by
  simp [Compile, hgo, hcgo, compileRest]

/-- C15 (amended). If a stale unit with no Go files and no cgo files, whose
identity is not in the memo, is reached below a root unit that has source
files, then `BuildPackages` does not return a graph: when the dependencies of
the unit are built without error it returns the no-source-files error of the
unit, and when building them fails it returns their error. -/
theorem no_source_dependency_aborts (E : Env) (fuel : Nat) (pkgs : List PkgPtr) (fuel1 : Nat)
    (s1 : State) (pkg1 : PkgPtr)
    (hreach : RootReaches E fuel pkgs (fuel1 + 1) s1 pkg1)
    (hstale : (E.pkg pkg1).NotStale = false)
    (hmemo : s1.targets.lookup (E.pkg pkg1).ImportPath = none)
    (hgo : (E.pkg pkg1).GoFiles = []) (hcgo : (E.pkg pkg1).CgoFiles = []) :
    (∀ deps s2, BuildDependencies (BuildPackage E fuel1) E s1 pkg1 = Outcome.ok deps s2 →
      BuildPackages E fuel pkgs =
        Outcome.error (Err.noGoFiles (E.pkg pkg1).ImportPath) s2) ∧
    (∀ e s2, BuildDependencies (BuildPackage E fuel1) E s1 pkg1 = Outcome.error e s2 →
      BuildPackages E fuel pkgs = Outcome.error e s2) ∧
    (∀ root s, BuildPackages E fuel pkgs ≠ Outcome.ok root s) := by
  obtain ⟨r1, r2⟩ := RootReaches_stops E fuel pkgs (fuel1 + 1) s1 pkg1 hreach
  have hok : ∀ deps s2,
      BuildDependencies (BuildPackage E fuel1) E s1 pkg1 = Outcome.ok deps s2 →
      BuildPackages E fuel pkgs =
        Outcome.error (Err.noGoFiles (E.pkg pkg1).ImportPath) s2 := by
    intro deps s2 hd
    apply r1
    simp [BuildPackage, hmemo, hstale, hd, Compile_no_source E pkg1 deps s2.heap hgo hcgo]
  have herr : ∀ e s2,
      BuildDependencies (BuildPackage E fuel1) E s1 pkg1 = Outcome.error e s2 →
      BuildPackages E fuel pkgs = Outcome.error e s2 := by
    intro e s2 hd
    apply r1
    simp [BuildPackage, hmemo, hstale, hd]
  refine ⟨hok, herr, ?_⟩
  intro root s hc
  cases hd : BuildDependencies (BuildPackage E fuel1) E s1 pkg1 with
  | fuel =>
    have : BuildPackages E fuel pkgs = Outcome.fuel := by
      apply r2
      simp [BuildPackage, hmemo, hstale, hd]
    rw [this] at hc; cases hc
  | error e s2 => rw [herr e s2 hd] at hc; cases hc
  | ok deps s2 => rw [hok deps s2 hd] at hc; cases hc

/-! ## Termination -/

theorem depsLoop_ne_fuel (bp : State → PkgPtr → Outcome (Option Handle)) (pkgs : List PkgPtr)
    (h : ∀ i ∈ pkgs, ∀ s, bp s i ≠ Outcome.fuel) :
    ∀ (acc : List Handle) (s : State), depsLoop bp pkgs acc s ≠ Outcome.fuel := by
  induction pkgs with
  | nil => intro acc s hc; simp [depsLoop] at hc
  | cons i rest ih =>
    intro acc s
    have hi := h i (List.mem_cons_self _ _) s
    have hrest := ih (fun j hj => h j (List.mem_cons_of_mem _ hj))
    simp only [depsLoop]
    cases hb : bp s i with
    | fuel => exact absurd hb hi
    | error e s1 => intro hc; cases hc
    | ok r s1 =>
      cases r with
      | none => exact hrest acc s1
      | some a => exact hrest (acc ++ [a]) s1

/-- A budget above the rank of the unit suffices for `BuildPackage`. -/
theorem BuildPackage_ne_fuel (E : Env) (rank : PkgPtr → Nat) (hac : AcyclicUnits E rank) :
    ∀ (fuel : Nat) (s : State) (pkg : PkgPtr), rank pkg < fuel →
      BuildPackage E fuel s pkg ≠ Outcome.fuel := by
  intro fuel
  induction fuel with
  | zero => intro s pkg h; exact absurd h (Nat.not_lt_zero _)
  | succ fuel ih =>
    intro s pkg hr
    simp only [BuildPackage]
    split
    · intro hc; cases hc
    · split
      · intro hc; cases hc
      · have hd : BuildDependencies (BuildPackage E fuel) E s pkg ≠ Outcome.fuel := by
          unfold BuildDependencies
          split
          · intro hc; cases hc
          · rename_i pkgs hres
            apply depsLoop_ne_fuel
            intro i hi s2
            apply ih
            have hlt : rank i < rank pkg := by
              rcases resolveLoop_mem E pkg _ _ _ hres i hi with h1 | ⟨n, hn, h2⟩
              · exact (hac pkg).1 i h1
              · exact (hac pkg).2 n hn i h2
            omega
        split
        · rename_i hc; exact absurd hc hd
        · intro hc; cases hc
        · split
          · intro hc; cases hc
          · intro hc; cases hc

theorem depsLoop_congr (bp bp2 : State → PkgPtr → Outcome (Option Handle))
    (h : ∀ s i, bp s i ≠ Outcome.fuel → bp2 s i = bp s i) (pkgs : List PkgPtr) :
    ∀ (acc : List Handle) (s : State), depsLoop bp pkgs acc s ≠ Outcome.fuel →
      depsLoop bp2 pkgs acc s = depsLoop bp pkgs acc s := by
  induction pkgs with
  | nil => intro acc s _; rfl
  | cons i rest ih =>
    intro acc s hne
    simp only [depsLoop] at hne ⊢
    cases hb : bp s i with
    | fuel => rw [hb] at hne; exact absurd rfl hne
    | error e s1 =>
      rw [h s i (by rw [hb]; intro hc; cases hc), hb]
    | ok r s1 =>
      rw [h s i (by rw [hb]; intro hc; cases hc), hb]
      rw [hb] at hne
      cases r with
      | none => exact ih acc s1 hne
      | some a => exact ih (acc ++ [a]) s1 hne

theorem BuildPackage_unfold (E : Env) (fuel : Nat) (s : State) (pkg : PkgPtr) :
    BuildPackage E (fuel + 1) s pkg =
      match s.targets.lookup (E.pkg pkg).ImportPath with
      | some a => Outcome.ok (some a) s
      | none =>
        if (E.pkg pkg).NotStale then
          Outcome.ok none s
        else
          match BuildDependencies (BuildPackage E fuel) E s pkg with
          | Outcome.fuel => Outcome.fuel
          | Outcome.error e s1 => Outcome.error e s1
          | Outcome.ok deps s1 =>
            match Compile E pkg deps s1.heap with
            | (Except.error e, heap) => Outcome.error e { s1 with heap := heap }
            | (Except.ok build, heap) =>
              Outcome.ok (some build)
                { heap := heap, targets := ((E.pkg pkg).ImportPath, build) :: s1.targets } := by
  rfl

/-- A call of `BuildPackage` that stays within its budget gives the same
outcome with a larger budget. -/
theorem BuildPackage_succ (E : Env) :
    ∀ (fuel : Nat) (s : State) (pkg : PkgPtr), BuildPackage E fuel s pkg ≠ Outcome.fuel →
      BuildPackage E (fuel + 1) s pkg = BuildPackage E fuel s pkg := by
  intro fuel
  induction fuel with
  | zero => intro s pkg h; exact absurd rfl h
  | succ fuel ih =>
    intro s pkg hne
    rw [BuildPackage_unfold E fuel s pkg] at hne ⊢
    rw [BuildPackage_unfold E (fuel + 1) s pkg]
    cases hm : s.targets.lookup (E.pkg pkg).ImportPath with
    | some a => rfl
    | none =>
      rw [hm] at hne
      simp only at hne ⊢
      cases hs : (E.pkg pkg).NotStale with
      | true => rfl
      | false =>
        rw [hs] at hne
        simp only [Bool.false_eq_true, if_false] at hne ⊢
        have hd : BuildDependencies (BuildPackage E fuel) E s pkg ≠ Outcome.fuel := by
          intro hc; rw [hc] at hne; exact hne rfl
        have he : BuildDependencies (BuildPackage E (fuel + 1)) E s pkg =
            BuildDependencies (BuildPackage E fuel) E s pkg := by
          unfold BuildDependencies at hd ⊢
          cases hr : resolveLoop E pkg (extraImports E (E.pkg pkg)) (E.pkg pkg).Imports with
          | error e => rfl
          | ok pkgs =>
            rw [hr] at hd
            exact depsLoop_congr _ _ ih pkgs [] s hd
        rw [he]

theorem BuildPackage_add (E : Env) (fuel : Nat) (s : State) (pkg : PkgPtr)
    (h : BuildPackage E fuel s pkg ≠ Outcome.fuel) :
    ∀ k, BuildPackage E (fuel + k) s pkg = BuildPackage E fuel s pkg := by
  intro k
  induction k with
  | zero => rfl
  | succ k ih =>
    have := BuildPackage_succ E (fuel + k) s pkg (by rw [ih]; exact h)
    rw [← Nat.add_assoc, this, ih]

theorem rank_lt_depthFor (rank : PkgPtr → Nat) (pkgs : List PkgPtr) :
    ∀ i ∈ pkgs, rank i < depthFor rank pkgs := by
  induction pkgs with
  | nil => intro i hi; cases hi
  | cons p rest ih =>
    intro i hi
    simp only [depthFor, List.map_cons, List.foldr_cons] at ih ⊢
    rcases List.mem_cons.mp hi with h1 | h1
    · subst h1; omega
    · have := ih i h1; omega

/-- C17. For every input whose unit dependency relation (imports and the units
the resolver returns for implicit dependencies) is well-founded, `BuildPackages`
terminates: from some recursion depth on it never exceeds the depth, and its
outcome no longer depends on the depth. -/
theorem BuildPackages_terminates (E : Env) (rank : PkgPtr → Nat)
    (hac : AcyclicUnits E rank) (pkgs : List PkgPtr) :
    ∀ fuel, depthFor rank pkgs ≤ fuel →
      BuildPackages E fuel pkgs ≠ Outcome.fuel ∧
      BuildPackages E fuel pkgs = BuildPackages E (depthFor rank pkgs) pkgs := by
  intro fuel hle
  have hcall : ∀ i ∈ pkgs.filter (hasSource E), ∀ s,
      BuildPackage E (depthFor rank pkgs) s i ≠ Outcome.fuel := by
    intro i hi s
    exact BuildPackage_ne_fuel E rank hac _ s i
      (rank_lt_depthFor rank pkgs i (List.mem_filter.mp hi).1)
  have hloop0 : ∀ acc s, depsLoop (BuildPackage E (depthFor rank pkgs))
      (pkgs.filter (hasSource E)) acc s ≠ Outcome.fuel :=
    depsLoop_ne_fuel _ _ hcall
  obtain ⟨k, rfl⟩ : ∃ k, fuel = depthFor rank pkgs + k := ⟨fuel - depthFor rank pkgs, by omega⟩
  have hstep : ∀ s i, BuildPackage E (depthFor rank pkgs) s i ≠ Outcome.fuel →
      BuildPackage E (depthFor rank pkgs + k) s i = BuildPackage E (depthFor rank pkgs) s i :=
    fun s i h => BuildPackage_add E _ s i h k
  have hloop : rootLoop E (depthFor rank pkgs + k) pkgs [] { heap := [], targets := [] } =
      rootLoop E (depthFor rank pkgs) pkgs [] { heap := [], targets := [] } := by
    rw [rootLoop_eq_hasSource, rootLoop_eq_hasSource]
    exact depsLoop_congr _ _ hstep _ _ _ (hloop0 _ _)
  have heq : BuildPackages E (depthFor rank pkgs + k) pkgs =
      BuildPackages E (depthFor rank pkgs) pkgs := by
    cases pkgs with
    | nil => rfl
    | cons pkg0 rest =>
      simp only [BuildPackages]
      rw [hloop]
  refine ⟨?_, heq⟩
  rw [heq]
  cases pkgs with
  | nil => intro hc; cases hc
  | cons pkg0 rest =>
    have h0 := hloop0 [] { heap := [], targets := [] }
    rw [← rootLoop_eq_hasSource] at h0
    simp only [BuildPackages]
    split
    · rename_i hc; exact absurd hc h0
    · intro hc; cases hc
    · intro hc; cases hc

/-! ## Runs of the closures `Compile` builds -/

theorem printed_append (l r : List Event) : printed (l ++ r) = printed l ++ printed r := by
  induction l with
  | nil => rfl
  | cons e l ih => cases e <;> simp [printed, ih]

/-- A closure that `logInfoFn` did not build prints nothing. -/
theorem printed_of_not_logger (E : Env) (T : Toolchain) (fn : Step) (w : List Event)
    (h : fn.isLogger = false) : printed (fn.run E T w).events = [] := by
  cases fn <;> first | rfl | (simp [Step.isLogger] at h)

/-- The closure of every Action of a pipeline is one that `logInfoFn` did not
build. -/
theorem stages_not_logger (E : Env) (pkg : PkgPtr) (gofiles ofiles : List String)
    (deps : List Handle) (n j : Nat) (a : Action)
    (hj : (stages E pkg gofiles ofiles deps n)[j]? = some a) :
    a.Run.isLogger = false := by
  rcases stages_index E pkg gofiles ofiles deps n j a hj with
    ⟨_, rfl⟩ | ⟨i, s, _, _, rfl⟩ | ⟨_, _, rfl⟩ | ⟨_, _, rfl⟩ | ⟨_, _, rfl⟩ <;> rfl

/-- The terminal Action a successful `Compile` returns is the last Action of the
pipeline, finished by line 213. -/
theorem Compile_terminal (E : Env) (pkg : PkgPtr) (deps : List Handle)
    (heap heap1 : List Action) (t : Handle)
    (h : Compile E pkg deps heap = (Except.ok t, heap1)) :
    ∃ a0 : Action, a0.Run.isLogger = false ∧ a0.Run.unit = some pkg ∧
      heap1[t]? = some (finish E pkg t t a0) := by
  obtain ⟨l1, l2, l3, l4⟩ := Compile_lookup E pkg deps heap heap1 t h
  have hlen := stages_length E pkg (effGofiles E pkg) (cgoOfiles E pkg)
    (effDeps E pkg deps heap.length) (heap.length + cnt (cgoRuns E pkg))
  have hlt : (E.pkg pkg).SFiles.length + cnt (hasPack E pkg (cgoOfiles E pkg))
      + cnt (hasInstall E pkg) + cnt (E.pkg pkg).Main <
      (stages E pkg (effGofiles E pkg) (cgoOfiles E pkg)
        (effDeps E pkg deps heap.length) (heap.length + cnt (cgoRuns E pkg))).length := by
    rw [hlen]; omega
  have hget := List.getElem?_eq_getElem hlt
  have hx := l4 _ _ hget
  have ht : heap.length + cnt (cgoRuns E pkg) + ((E.pkg pkg).SFiles.length
      + cnt (hasPack E pkg (cgoOfiles E pkg)) + cnt (hasInstall E pkg)
      + cnt (E.pkg pkg).Main) = t := by
    rw [l3]; omega
  rw [ht] at hx
  exact ⟨_, stages_not_logger E pkg _ _ _ _ _ _ hget,
    stages_unit E pkg _ _ _ _ _ (List.getElem_mem hlt), hx⟩

/-- C16. For every unit for which `Compile` succeeds, the closure of the
terminal Action is one that `logInfoFn` built if and only if the unit is not
test-scope. It then wraps the closure `fn` of the terminal stage with the
identity of the unit: a run of it makes the calls of one run of `fn`, then one
call of `fmt.Println` with the identity, which is the only thing the run prints,
and it returns what that run of `fn` returns. -/
theorem Compile_completion_logger (E : Env) (pkg : PkgPtr) (deps : List Handle)
    (heap heap1 : List Action) (t : Handle)
    (h : Compile E pkg deps heap = (Except.ok t, heap1)) :
    ∃ (a : Action) (fn : Step), heap1[t]? = some a ∧ fn.isLogger = false ∧
      fn.unit = some pkg ∧
      (a.Run.isLogger = true ↔ (E.pkg pkg).TestScope = false) ∧
      ((E.pkg pkg).TestScope = true → a.Run = fn) ∧
      ((E.pkg pkg).TestScope = false →
        a.Run = logInfoFn fn (E.pkg pkg).ImportPath ∧
        ∀ (T : Toolchain) (w : List Event),
          (a.Run.run E T w).events =
            (fn.run E T w).events ++ [Event.Println (E.pkg pkg).ImportPath] ∧
          printed (fn.run E T w).events = [] ∧
          printed (a.Run.run E T w).events = [(E.pkg pkg).ImportPath] ∧
          (a.Run.run E T w).err = (fn.run E T w).err) := by
  obtain ⟨a0, hn, hu, ha⟩ := Compile_terminal E pkg deps heap heap1 t h
  refine ⟨_, a0.Run, ha, hn, hu, ?_, ?_, ?_⟩
  · cases hs : (E.pkg pkg).TestScope
    · simp [finish, hs, logInfoFn, Step.isLogger]
    · simp [finish, hs, hn]
  · intro hs
    simp [finish, hs]
  · intro hs
    have hr : (finish E pkg t t a0).Run = logInfoFn a0.Run (E.pkg pkg).ImportPath := by
      simp [finish, hs]
    refine ⟨hr, ?_⟩
    intro T w
    rw [hr]
    have hp := printed_of_not_logger E T a0.Run w hn
    refine ⟨rfl, hp, ?_, rfl⟩
    show printed ((a0.Run.run E T w).events ++ [Event.Println (E.pkg pkg).ImportPath]) = _
    rw [printed_append, hp]
    rfl

theorem packCalls_append (l r : List Event) :
    packCalls (l ++ r) = packCalls l ++ packCalls r := by
  induction l with
  | nil => rfl
  | cons e l ih => cases e <;> simp [packCalls, ih]

/-- The calls of the archiver in a run of the closure line 213 leaves are those
in a run of the closure it found. -/
theorem finish_packCalls (E : Env) (T : Toolchain) (pkg : PkgPtr) (t i : Handle) (a : Action)
    (w : List Event) :
    packCalls ((finish E pkg t i a).Run.run E T w).events =
      packCalls (a.Run.run E T w).events := by
  unfold finish
  split
  · show packCalls ((a.Run.run E T w).events ++ [Event.Println (E.pkg pkg).ImportPath]) = _
    rw [packCalls_append]
    simp [packCalls]
  · rfl

/-- C19. For every unit for which `Compile` adds a pack stage, the first run of
the closure of the pack Action calls the archiver once, with the object file of
the unit first, then the object files cgo produced, then one object file per
assembly file in `SFiles` order, then the system object files in `SysoFiles`
order. When the object file of the unit is not one of those extra object files,
it occurs in the list exactly once, at the head. -/
theorem Compile_pack_first_run (E : Env) (pkg : PkgPtr) (deps : List Handle)
    (heap heap1 : List Action) (t : Handle)
    (h : Compile E pkg deps heap = (Except.ok t, heap1)) (T : Toolchain) (w : List Event)
    (i : Nat) (x : Action) (hi : heap.length ≤ i) (hx : heap1[i]? = some x)
    (hst : x.Run.stage = Stage.pack) :
    ∃ ofiles : List String,
      packCalls (x.Run.run E T w).events = [(pkg, ofiles)] ∧
      ofiles = T.objfile pkg ::
        (cgoOfiles E pkg ++ (E.pkg pkg).SFiles.map (asmOfile E pkg)
          ++ (E.pkg pkg).SysoFiles.map (fun syso => E.Join [(E.pkg pkg).Dir, syso])) ∧
      ofiles.head? = some (T.objfile pkg) ∧
      (T.objfile pkg ∉ extraObjects E pkg → ofiles.count (T.objfile pkg) = 1) := by
  have key : packCalls (x.Run.run E T w).events =
      [(pkg, T.objfile pkg :: allOfiles E pkg (cgoOfiles E pkg))] := by
    rcases Compile_added E pkg deps heap heap1 t h i x hi hx with ⟨hc, _⟩ | ⟨j, a0, _, hj, rfl⟩
    · rw [hst] at hc; cases hc
    · rw [finish_stage] at hst
      rw [finish_packCalls]
      rcases stages_index E pkg _ _ _ _ j a0 hj with
        ⟨_, rfl⟩ | ⟨i, s, _, _, rfl⟩ | ⟨_, _, rfl⟩ | ⟨_, _, rfl⟩ | ⟨_, _, rfl⟩
      · cases hst
      · cases hst
      · rfl
      · cases hst
      · cases hst
  refine ⟨_, key, rfl, rfl, ?_⟩
  intro hn
  have h0 : List.count (T.objfile pkg) (allOfiles E pkg (cgoOfiles E pkg)) = 0 :=
    List.count_eq_zero_of_not_mem hn
  rw [List.count_cons_self, h0]

/-! ## Dependency lists without repetition -/

theorem chainD (E : Env) (s : State) (pkgs : List PkgPtr) (deps : List Handle) (s1 : State)
    (h : Chain (PostD E) s pkgs deps s1) :
    Grows s s1 ∧
    (InvD E s → InvD E s1 ∧
      (∀ d ∈ deps, ∃ (a : Action) (q : PkgPtr), s1.heap[d]? = some a ∧ a.Run.unit = some q ∧
        (E.pkg q).ImportPath ∈ names E pkgs) ∧
      ((names E pkgs).Nodup → deps.Nodup)) := by
  induction h with
  | nil s =>
    refine ⟨Grows.refl s, fun hinv => ⟨hinv, ?_, fun _ => List.nodup_nil⟩⟩
    intro d hd; cases hd
  | cons s s1 s2 i rest r deps hcall _ ih =>
    refine ⟨Grows.trans hcall.1 ih.1, ?_⟩
    intro hinv
    obtain ⟨hinv1, hr⟩ := hcall.2 hinv
    obtain ⟨hinv2, hmem, hnd⟩ := ih.2 hinv1
    have hrest : ∀ d ∈ deps, ∃ (a : Action) (q : PkgPtr), s2.heap[d]? = some a ∧
        a.Run.unit = some q ∧ (E.pkg q).ImportPath ∈ names E (i :: rest) := by
      intro d hd
      obtain ⟨a, q, h1, h2, h3⟩ := hmem d hd
      exact ⟨a, q, h1, h2, List.mem_cons_of_mem _ h3⟩
    cases r with
    | none =>
      refine ⟨hinv2, hrest, ?_⟩
      intro hn
      exact hnd (List.nodup_cons.mp hn).2
    | some b =>
      obtain ⟨a, q, h1, h2, h3⟩ := hr b rfl
      have h1g : s2.heap[b]? = some a := ih.1 b a h1
      refine ⟨hinv2, ?_, ?_⟩
      · intro d hd
        rcases List.mem_cons.mp hd with rfl | hd1
        · exact ⟨a, q, h1g, h2, by rw [h3]; exact List.mem_cons_self _ _⟩
        · exact hrest d hd1
      · intro hn
        have hn1 := List.nodup_cons.mp hn
        refine List.nodup_cons.mpr ⟨?_, hnd hn1.2⟩
        intro hb
        obtain ⟨a1, q1, k1, k2, k3⟩ := hmem b hb
        rw [h1g] at k1
        have ha : a = a1 := Option.some.inj k1
        subst ha
        rw [h2] at k2
        have hq : q = q1 := Option.some.inj k2
        subst hq
        rw [h3] at k3
        exact hn1.1 k3

theorem depsDistinct_ok (E : Env) (pkg : PkgPtr) (pkgs : List PkgPtr)
    (hres : resolveLoop E pkg (extraImports E (E.pkg pkg)) (E.pkg pkg).Imports = Except.ok pkgs)
    (h : depsDistinct E pkg = true) : (names E pkgs).Nodup := by
  unfold depsDistinct at h
  rw [hres] at h
  simpa using h

theorem BuildPackage_postD (E : Env) :
    ∀ (fuel : Nat) (s : State) (pkg : PkgPtr) (r : Option Handle) (s1 : State),
      BuildPackage E fuel s pkg = Outcome.ok r s1 → PostD E s pkg r s1 := by
  apply BuildPackage_induct E (PostD E)
  · intro s pkg a hm
    refine ⟨Grows.refl s, fun hinv => ⟨hinv, ?_⟩⟩
    intro h hh
    rw [← Option.some.inj hh]
    exact hinv.1 _ a hm
  · intro s pkg _ _
    refine ⟨Grows.refl s, fun hinv => ⟨hinv, ?_⟩⟩
    intro h hh; cases hh
  · intro s s1 pkg pkgs deps build heap1 _ _ hres hch hc
    obtain ⟨g1, g2⟩ := chainD E s pkgs deps s1 hch
    have g3 := Compile_grows E pkg deps s1 heap1 build
      (((E.pkg pkg).ImportPath, build) :: s1.targets) hc
    obtain ⟨f1, f2, f3, f4, _⟩ := Compile_facts E pkg deps s1.heap heap1 build hc
    refine ⟨Grows.trans g1 g3, ?_⟩
    intro hinv
    obtain ⟨⟨i1, i2⟩, hmem, hnd⟩ := g2 hinv
    have hlt : build < heap1.length := by unfold Handle at *; omega
    have hbuild : ∃ (a : Action) (q : PkgPtr), heap1[build]? = some a ∧ a.Run.unit = some q ∧
        (E.pkg q).ImportPath = (E.pkg pkg).ImportPath :=
      ⟨heap1[build], pkg, List.getElem?_eq_getElem hlt,
        (f4 build _ f1 (List.getElem?_eq_getElem hlt)).1, rfl⟩
    refine ⟨⟨?_, ?_⟩, ?_⟩
    · intro p h hl
      have hl1 : List.lookup p (((E.pkg pkg).ImportPath, build) :: s1.targets) = some h := hl
      by_cases hp : p = (E.pkg pkg).ImportPath
      · subst hp
        rw [lookup_cons_self] at hl1
        rw [← Option.some.inj hl1]
        exact hbuild
      · rw [lookup_cons_ne _ _ _ _ hp] at hl1
        obtain ⟨a, q, h1, h2, h3⟩ := i1 p h hl1
        exact ⟨a, q, g3 h a h1, h2, h3⟩
    · intro h a q ha hst hu hd
      have ha1 : heap1[h]? = some a := ha
      by_cases hlt1 : h < s1.heap.length
      · rw [f3 h hlt1] at ha1
        exact i2 h a q ha1 hst hu hd
      · have hle : s1.heap.length ≤ h := Nat.le_of_not_lt hlt1
        have hq : q = pkg := by
          have := (f4 h a hle ha1).1
          rw [this] at hu
          exact (Option.some.inj hu).symm
        subst hq
        have hnd1 : deps.Nodup := hnd (depsDistinct_ok E q pkgs hres hd)
        rcases Compile_added E q deps s1.heap heap1 build hc h a hle ha1 with
          ⟨hc1, _⟩ | ⟨j, a0, _, hj, rfl⟩
        · rw [hst] at hc1; cases hc1
        · rw [finish_stage] at hst
          rw [finish_Deps]
          rcases stages_index E q _ _ _ _ j a0 hj with
            ⟨_, rfl⟩ | ⟨i, sf, _, _, rfl⟩ | ⟨_, _, rfl⟩ | ⟨_, _, rfl⟩ | ⟨_, _, rfl⟩
          · show (effDeps E q deps s1.heap.length).Nodup
            unfold effDeps
            split
            · refine List.Nodup.append hnd1 (List.nodup_singleton _) ?_
              intro d hd1 hd2
              rw [List.mem_singleton] at hd2
              obtain ⟨a2, q2, k1, _, _⟩ := hmem d hd1
              have := (List.getElem?_eq_some_iff.mp k1).1
              unfold Handle at *
              omega
            · rw [List.append_nil]; exact hnd1
          · cases hst
          · cases hst
          · cases hst
          · cases hst
    · intro h hh
      rw [← Option.some.inj hh]
      exact hbuild

theorem InvD_empty (E : Env) : InvD E { heap := [], targets := [] } := by
  constructor
  · intro p h hl; simp [List.lookup] at hl
  · intro h a q ha; simp at ha

/-- C20 (amended). For every input for which `BuildPackages` succeeds: the
umbrella Action depends on no Action twice when the roots that have a source
file have pairwise distinct identities, and the compile stage of a unit depends
on no Action twice when the units `BuildDependencies` builds for it (its
imports, then the units the resolver returns for its implicit dependencies)
have pairwise distinct identities. -/
theorem BuildPackages_deps_nodup (E : Env) (fuel : Nat) (pkgs : List PkgPtr) (root : Handle)
    (s : State) (h : BuildPackages E fuel pkgs = Outcome.ok root s) :
    (∃ u : Action, s.heap[root]? = some u ∧ u.Run.stage = Stage.umbrella ∧
      ((names E (pkgs.filter (hasSource E))).Nodup → u.Deps.Nodup)) ∧
    (∀ (h : Handle) (a : Action) (q : PkgPtr), s.heap[h]? = some a →
      a.Run.stage = Stage.compile → a.Run.unit = some q → depsDistinct E q = true →
      a.Deps.Nodup) := by
  obtain ⟨pkg0, rest, deps, s1, u, _, hloop, hu1, hu2, rfl, rfl⟩ :=
    BuildPackages_ok E fuel pkgs root s h
  obtain ⟨d, hd, hch⟩ := depsLoop_chain _ (PostD E) (BuildPackage_postD E fuel) _ _ _ _ _ hloop
  rw [List.nil_append] at hd
  subst hd
  obtain ⟨_, g2⟩ := chainD E _ _ _ _ hch
  obtain ⟨⟨_, i2⟩, _, hnd⟩ := g2 (InvD_empty E)
  constructor
  · refine ⟨u, ?_, by rw [hu2]; rfl, ?_⟩
    · have := append_getElem?_add s1.heap [u] 0
      rw [Nat.add_zero] at this
      rw [this]; rfl
    · intro hn
      rw [hu1]
      exact hnd hn
  · intro h a q ha hst hu hdd
    rcases umbrella_getElem? s1.heap u a h ha with ⟨_, h1⟩ | ⟨_, rfl⟩
    · exact i2 h a q h1 hst hu hdd
    · rw [hu2] at hst; cases hst

/-! ## The theorems on concrete inputs -/

theorem diamond_acyclic : Acyclic diamondEnv diamondRank := by
  have hnil : ∀ pkg : PkgPtr, extraImports diamondEnv (diamondEnv.pkg pkg) = [] := by
    intro pkg
    match pkg with
    | 0 => rfl
    | 1 => rfl
    | 2 => rfl
    | 3 => rfl
    | n + 4 => rfl
  intro pkg
  refine ⟨?_, by intro name hn; rw [hnil pkg] at hn; cases hn⟩
  match pkg with
  | 0 => decide
  | 1 => decide
  | 2 => decide
  | 3 => decide
  | n + 4 => intro i hi; cases hi

/-- C1 (amended) on the diamond: the input is acyclic on identities,
`BuildPackages` succeeds, the compile stages of `b` and of `c` both depend on
Action 0, Action 0 is the memo entry of `a`, and it is the terminal Action of
`a`. -/
theorem diamond_shares_a :
    Acyclic diamondEnv diamondRank ∧
    BuildPackages diamondEnv 3 [3] = Outcome.ok 4 diamondState ∧
    diamondState.heap[1]?.map Action.Deps = some [0] ∧
    diamondState.heap[2]?.map Action.Deps = some [0] ∧
    diamondState.targets.lookup "a" = some 0 ∧
    IsTerminal diamondEnv diamondState.heap 0 "a" :=
  ⟨diamond_acyclic, by decide, by decide, by decide,
    (BuildPackages_one_terminal_per_unit diamondEnv diamondRank diamond_acyclic 3 [3] 4
      diamondState (by decide)).2.2 1
      { Name := "compile: b", Deps := [0], Run := Step.logInfo (Step.gc 1 ["b.go"]) "b" } 0
      { Name := "compile: a", Deps := [], Run := Step.logInfo (Step.gc 0 ["a.go"]) "a" } "a"
      (by decide) (by decide) (by decide) (by decide) (by decide),
    ((BuildPackages_one_terminal_per_unit diamondEnv diamondRank diamond_acyclic 3 [3] 4
      diamondState (by decide)).1 "a" 0).mpr (by decide)⟩

theorem shadow_units_acyclic : AcyclicUnits shadowEnv shadowRank := by
  have hnil : ∀ pkg : PkgPtr, extraImports shadowEnv (shadowEnv.pkg pkg) = [] := by
    intro pkg
    match pkg with
    | 0 => rfl
    | 1 => rfl
    | 2 => rfl
    | n + 3 => rfl
  intro pkg
  refine ⟨?_, by intro name hn; rw [hnil pkg] at hn; cases hn⟩
  match pkg with
  | 0 => decide
  | 1 => decide
  | 2 => decide
  | n + 3 => intro i hi; cases hi

theorem shadow_terminal (t : Handle) (ht : t = 0 ∨ t = 2) :
    IsTerminal shadowEnv shadowState.heap t "a" := by
  constructor
  · rcases ht with rfl | rfl
    · exact ⟨_, rfl, rfl⟩
    · exact ⟨_, rfl, rfl⟩
  · intro h1 a1 ha hu
    match h1 with
    | 0 =>
      have : a1 =
          { Name := "compile: a", Deps := [], Run := Step.logInfo (Step.gc 0 ["a.go"]) "a" } :=
        (Option.some.inj ha).symm
      subst this
      simp
    | 1 =>
      have : a1 =
          { Name := "compile: b", Deps := [0], Run := Step.logInfo (Step.gc 1 ["b.go"]) "b" } :=
        (Option.some.inj ha).symm
      subst this
      exact absurd hu (by decide)
    | 2 =>
      have : a1 =
          { Name := "compile: a", Deps := [1], Run := Step.logInfo (Step.gc 2 ["a2.go"]) "a" } :=
        (Option.some.inj ha).symm
      subst this
      rcases ht with rfl | rfl <;> decide
    | 3 =>
      have : a1 = { Name := "build: a", Deps := [2], Run := Step.buildDuration 2 } :=
        (Option.some.inj ha).symm
      subst this
      exact absurd hu (by decide)
    | n + 4 => exact absurd ha (by simp [shadowState])

/-- C1 as stated fails: no unit of `shadowEnv` depends on itself, yet no rank on
identities exists, since the unit 2 with the identity `a` depends through `b` on
the unit 0 with the identity `a`. `BuildPackages` succeeds for the root 2, and
the Actions 0 and 2 are both terminal Actions of the identity `a`. -/
theorem shadow_two_terminals :
    AcyclicUnits shadowEnv shadowRank ∧
    (∀ rank : String → Nat, ¬ Acyclic shadowEnv rank) ∧
    BuildPackages shadowEnv 3 [2] = Outcome.ok 3 shadowState ∧
    IsTerminal shadowEnv shadowState.heap 0 "a" ∧
    IsTerminal shadowEnv shadowState.heap 2 "a" ∧
    (0 : Handle) ≠ 2 := by
  refine ⟨shadow_units_acyclic, ?_, by decide, shadow_terminal 0 (Or.inl rfl),
    shadow_terminal 2 (Or.inr rfl), by decide⟩
  intro rank hac
  have h1 : rank "b" < rank "a" := (hac 2).1 1 (by decide)
  have h2 : rank "a" < rank "b" := (hac 1).1 0 (by decide)
  omega

/-- C2 as stated fails: with two units of identity `a`, one stale and one up
to date, `BuildPackages` succeeds and the memo holds an entry for the identity
of the up-to-date unit. -/
theorem twin_memo_entry_for_notStale :
    (twinEnv.pkg 1).NotStale = true ∧
    BuildPackages twinEnv 1 [0, 1] = Outcome.ok 1 twinState ∧
    twinState.targets.lookup (twinEnv.pkg 1).ImportPath = some 0 := by
  decide

/-- C2 (amended) on `upToDateEnv`: unit 0 is up to date, `BuildPackages`
succeeds, Action 0 is not built for unit 0, and the memo has no entry for `a`. -/
theorem upToDate_contributes_nothing :
    (upToDateEnv.pkg 0).NotStale = true ∧
    BuildPackages upToDateEnv 3 [1] = Outcome.ok 1 upToDateState ∧
    (Step.logInfo (Step.gc 1 ["b.go"]) "b").unit ≠ some 0 ∧
    upToDateState.targets.lookup "a" = none :=
  ⟨by decide, by decide,
    (BuildPackages_notStale_contributes_nothing upToDateEnv 3 [1] 1 upToDateState (by decide) 0
      (by decide)).1 0
      { Name := "compile: b", Deps := [], Run := Step.logInfo (Step.gc 1 ["b.go"]) "b" }
      (by decide),
    (BuildPackages_notStale_contributes_nothing upToDateEnv 3 [1] 1 upToDateState (by decide) 0
      (by decide)).2.2 (by
        intro q hq
        match q with
        | 0 => rfl
        | 1 => exact absurd hq (by decide)
        | n + 2 =>
          have hp : (upToDateEnv.pkg (n + 2)).ImportPath = "" := rfl
          rw [hp] at hq
          exact absurd hq (by decide))⟩

/-- C3 as stated fails: for an up-to-date unit whose identity is in the memo,
`BuildPackage` returns the memo entry, not nil. -/
theorem notStale_memo_hit :
    (twinEnv.pkg 1).NotStale = true ∧
    BuildPackage twinEnv 1 builtA 1 = Outcome.ok (some 0) builtA ∧
    BuildPackage twinEnv 1 builtA 1 ≠ Outcome.ok none builtA := by
  decide

/-- C3 (amended) on `upToDateEnv`: with an empty memo the up-to-date unit 0
yields no Action and the state is unchanged. -/
theorem notStale_empty_memo :
    (upToDateEnv.pkg 0).NotStale = true ∧
    BuildPackage upToDateEnv 1 { heap := [], targets := [] } 0 =
      Outcome.ok none { heap := [], targets := [] } :=
  ⟨by decide,
    (BuildPackage_notStale upToDateEnv 0 { heap := [], targets := [] } 0 (by decide)).1
      (by decide)⟩

/-- C4 on the diamond: building `a` puts it in the memo and a second call
returns the same Action without changing the state. -/
theorem memoized_a :
    BuildPackage diamondEnv 1 { heap := [], targets := [] } 0 = Outcome.ok (some 0) builtA ∧
    builtA.targets.lookup (diamondEnv.pkg 0).ImportPath = some 0 ∧
    BuildPackage diamondEnv (0 + 1) builtA 0 = Outcome.ok (some 0) builtA :=
  ⟨by decide,
    (BuildPackage_memoized diamondEnv 1 { heap := [], targets := [] } builtA 0 0
      (by decide)).1,
    (BuildPackage_memoized diamondEnv 1 { heap := [], targets := [] } builtA 0 0
      (by decide)).2 0⟩

/-- C5 on `mixedEnv`: a non-empty input that fails does so with another error
than the one of the empty input. -/
theorem nonempty_other_error :
    BuildPackages mixedEnv 3 [] =
      Outcome.error Err.noPackagesSupplied { heap := [], targets := [] } ∧
    BuildPackages mixedEnv 3 [2] =
      Outcome.error (Err.resolve "runtime/cgo") { heap := [], targets := [] } ∧
    Err.resolve "runtime/cgo" ≠ Err.noPackagesSupplied :=
  ⟨(BuildPackages_noPackagesSupplied mixedEnv 3).1, by decide,
    (BuildPackages_noPackagesSupplied mixedEnv 3).2 2 [] (Err.resolve "runtime/cgo")
      { heap := [], targets := [] } (by decide)⟩

/-- C6 on the command `m` of `mixedEnv`: `Compile` succeeds and its terminal
Action 5 is the link stage, which depends on the install stage. -/
theorem command_terminal_is_link :
    (mixedEnv.pkg 0).Main = true ∧
    Compile mixedEnv 0 [] [] = (Except.ok 5, mixedHeap) ∧
    ∃ (a : Action) (d : Handle) (b : Action),
      mixedHeap[5]? = some a ∧ a.Run.stage = Stage.link ∧ a.Run.unit = some 0 ∧
      a.Deps = [d] ∧ ([] : List Action).length ≤ d ∧ mixedHeap[d]? = some b ∧
      b.Run.unit = some 0 ∧
      (((mixedEnv.pkg 0).Install = true ∧ (mixedEnv.pkg 0).TestScope = false) →
        b.Run.stage = Stage.install) ∧
      (¬ ((mixedEnv.pkg 0).Install = true ∧ (mixedEnv.pkg 0).TestScope = false) →
        hasStage [] mixedHeap Stage.pack → b.Run.stage = Stage.pack) ∧
      (¬ ((mixedEnv.pkg 0).Install = true ∧ (mixedEnv.pkg 0).TestScope = false) →
        ¬ hasStage [] mixedHeap Stage.pack → b.Run.stage = Stage.compile) :=
  ⟨rfl, rfl, Compile_main_terminal_is_link mixedEnv 0 [] [] mixedHeap 5 rfl rfl⟩

/-- C7 on the unit `a` of the diamond, which has only plain source files:
`Compile` adds one Action, the compile stage. -/
theorem plain_unit_compile_only :
    (diamondEnv.pkg 0).Install = false ∧ (diamondEnv.pkg 0).Main = false ∧
    Compile diamondEnv 0 [] [] = (Except.ok 0, builtA.heap) ∧
    ∃ a : Action, builtA.heap[0]? = some a ∧ a.Run.unit = some 0 ∧
      (a.Run.stage = Stage.pack ↔ extraObjects diamondEnv 0 ≠ []) ∧
      (extraObjects diamondEnv 0 = [] → a.Run.stage = Stage.compile) ∧
      ((diamondEnv.pkg 0).CgoFiles = [] → (diamondEnv.pkg 0).SFiles = [] →
        (diamondEnv.pkg 0).SysoFiles = [] →
        builtA.heap = [] ++ [a] ∧ 0 = ([] : List Action).length ∧
          a.Run.stage = Stage.compile ∧ a.Deps = []) :=
  ⟨rfl, rfl, rfl, Compile_plain_terminal diamondEnv 0 [] [] builtA.heap 0 rfl rfl rfl⟩

/-- C8 as stated fails: the unit `f` of `mixedEnv` has an assembly file, a
plain source file and neither flag, and `Compile` returns the error of its cgo
step and no Action. -/
theorem asm_unit_cgo_fails :
    (mixedEnv.pkg 2).SFiles ≠ [] ∧ (mixedEnv.pkg 2).GoFiles ≠ [] ∧
    (mixedEnv.pkg 2).Install = false ∧ (mixedEnv.pkg 2).Main = false ∧
    Compile mixedEnv 2 [] [] = (Except.error (Err.cgo "boom"), []) :=
  ⟨by decide, by decide, rfl, rfl, rfl⟩

/-- C8 (amended) on the unit `s` of `mixedEnv`, which has two assembly
files and no cgo file. -/
theorem asm_unit_pack :
    (mixedEnv.pkg 1).SFiles ≠ [] ∧ (mixedEnv.pkg 1).GoFiles ≠ [] ∧
    (mixedEnv.pkg 1).Install = false ∧ (mixedEnv.pkg 1).Main = false ∧
    cgoSucceeds mixedEnv 1 ∧
    ∃ (t : Handle) (heap1 : List Action),
      Compile mixedEnv 1 [] [] = (Except.ok t, heap1) ∧
      ∃ (a : Action) (c : Handle) (b : Action) (hs : List Handle),
        heap1[t]? = some a ∧ a.Run.stage = Stage.pack ∧ a.Run.unit = some 1 ∧
        a.Deps = c :: hs ∧ heap1[c]? = some b ∧ b.Run.stage = Stage.compile ∧
        b.Run.unit = some 1 ∧ hs.length = (mixedEnv.pkg 1).SFiles.length ∧
        ∀ (j : Nat) (sfile : String), (mixedEnv.pkg 1).SFiles[j]? = some sfile →
          ∃ (h : Handle) (x : Action), hs[j]? = some h ∧ heap1[h]? = some x ∧
            x.Run = Step.asm 1 (asmOfile mixedEnv 1 sfile) sfile ∧ x.Deps = [c] :=
  ⟨by decide, by decide, rfl, rfl, Or.inl rfl,
    Compile_asm_pack mixedEnv 1 [] [] (by decide) (by decide) rfl rfl (Or.inl rfl)⟩

/-- C9 on `mixedEnv`: the unit `g`, for which cgo generates no Go file, gets
the no-source-files error; the command `m` gets an Action. -/
theorem no_source_files_examples :
    (∃ p, (Compile mixedEnv 3 [] []).1 = Except.error (Err.noGoFiles p)) ∧
    ∃ t, (Compile mixedEnv 0 [] []).1 = Except.ok t ∧ t < (Compile mixedEnv 0 [] []).2.length :=
  ⟨(Compile_noGoFiles_iff mixedEnv 3 [] []).1.mpr
      ⟨rfl, Or.inr ⟨{ name := "cgo: g", ofiles := ["_cgo.o"], gofiles := [] }, rfl, rfl⟩⟩,
    (Compile_noGoFiles_iff mixedEnv 0 [] []).2.2
      (Or.inr ⟨{ name := "cgo: m", ofiles := ["_cgo.o"], gofiles := ["_cgo.go"] }, rfl⟩)
      (by decide)⟩

/-- C10 on the command `m` of `mixedEnv`, which has the install flag: an
install stage is added. -/
theorem command_install_stage :
    Compile mixedEnv 0 [] [] = (Except.ok 5, mixedHeap) ∧
    (hasStage [] mixedHeap Stage.install ↔
      ((mixedEnv.pkg 0).Install = true ∧ (mixedEnv.pkg 0).TestScope = false)) ∧
    hasStage [] mixedHeap Stage.install :=
  ⟨rfl, (Compile_install_stage mixedEnv 0 [] [] mixedHeap 5 rfl).1,
    (Compile_install_stage mixedEnv 0 [] [] mixedHeap 5 rfl).1.mpr ⟨rfl, rfl⟩⟩

/-- C11 fails on the code for an executable unit: the command `cmd/y` has a
cgo file and another identity than `runtime/cgo`, the resolver knows
`runtime/cgo`, and `BuildDependencies` asks the resolver for `runtime` only and
returns the Action of `runtime` only. The library `c`, which has a cgo file too,
gets the unit `runtime/cgo` resolved. -/
theorem command_with_cgo_skips_runtime_cgo :
    (cgoLibEnv.pkg 3).Main = true ∧ (cgoLibEnv.pkg 3).CgoFiles ≠ [] ∧
    (cgoLibEnv.pkg 3).ImportPath ≠ "runtime/cgo" ∧
    cgoLibEnv.ResolvePackage 3 "runtime/cgo" = Except.ok 1 ∧
    extraImports cgoLibEnv (cgoLibEnv.pkg 3) = ["runtime"] ∧
    resolveCalls cgoLibEnv 3 (extraImports cgoLibEnv (cgoLibEnv.pkg 3)) = ["runtime"] ∧
    "runtime/cgo" ∉ resolveCalls cgoLibEnv 3 (extraImports cgoLibEnv (cgoLibEnv.pkg 3)) ∧
    BuildDependencies (BuildPackage cgoLibEnv 1) cgoLibEnv emptyState 3 =
      Outcome.ok [0] commandDepsState ∧
    resolveLoop cgoLibEnv 0 (extraImports cgoLibEnv (cgoLibEnv.pkg 0)) (cgoLibEnv.pkg 0).Imports =
      Except.ok [1] :=
  ⟨rfl, by decide, by decide, rfl, rfl, rfl, by decide, by decide, rfl⟩

/-- C12 as stated fails: the command `cmd/r` is executable and
race-instrumented and has no cgo file, the resolver fails on `runtime`, and the
only name passed to the resolver is `runtime`. -/
theorem race_command_resolver_fails :
    (commandEnv.pkg 0).CgoFiles = [] ∧ (commandEnv.pkg 0).Main = true ∧
    (commandEnv.pkg 0).race = true ∧
    resolveCalls commandEnv 0 (extraImports commandEnv (commandEnv.pkg 0)) = ["runtime"] ∧
    resolveCalls commandEnv 0 (extraImports commandEnv (commandEnv.pkg 0)) ≠
      ["runtime", "runtime/race"] := by
  decide

/-- C12 (amended) on the test-scope library `t` of `cgoLibEnv`: it sets out to
resolve `regexp` and `testing/internal/testdeps`, the resolver fails on `regexp`,
and `regexp` is the only name passed to it. -/
theorem test_scope_names :
    (cgoLibEnv.pkg 2).CgoFiles = [] ∧
    extraImports cgoLibEnv (cgoLibEnv.pkg 2) = ["regexp", "testing/internal/testdeps"] ∧
    cgoLibEnv.ResolvePackage 2 "regexp" = Except.error "regexp" ∧
    resolveCalls cgoLibEnv 2 (extraImports cgoLibEnv (cgoLibEnv.pkg 2)) = ["regexp"] ∧
    resolveCalls cgoLibEnv 2 (extraImports cgoLibEnv (cgoLibEnv.pkg 2)) <+:
      extraImports cgoLibEnv (cgoLibEnv.pkg 2) ∧
    (((∀ n ∈ extraImports cgoLibEnv (cgoLibEnv.pkg 2),
          ∃ p, cgoLibEnv.ResolvePackage 2 n = Except.ok p) ∧
        resolveCalls cgoLibEnv 2 (extraImports cgoLibEnv (cgoLibEnv.pkg 2)) =
          extraImports cgoLibEnv (cgoLibEnv.pkg 2) ∧
        ∃ ps : List PkgPtr,
          resolveLoop cgoLibEnv 2 (extraImports cgoLibEnv (cgoLibEnv.pkg 2))
            (cgoLibEnv.pkg 2).Imports = Except.ok ((cgoLibEnv.pkg 2).Imports ++ ps)) ∨
      (∃ (pre : List String) (name : String) (post : List String) (m : String),
        extraImports cgoLibEnv (cgoLibEnv.pkg 2) = pre ++ name :: post ∧
        (∀ n ∈ pre, ∃ p, cgoLibEnv.ResolvePackage 2 n = Except.ok p) ∧
        cgoLibEnv.ResolvePackage 2 name = Except.error m ∧
        resolveCalls cgoLibEnv 2 (extraImports cgoLibEnv (cgoLibEnv.pkg 2)) = pre ++ [name] ∧
        ∀ (bp : State → PkgPtr → Outcome (Option Handle)) (s : State),
          BuildDependencies bp cgoLibEnv s 2 = Outcome.error (Err.resolve m) s)) :=
  ⟨rfl, by decide, rfl, by decide, (extraImports_without_cgo cgoLibEnv 2 rfl).2.2.1,
    (extraImports_without_cgo cgoLibEnv 2 rfl).2.2.2.2⟩

/-- C13 as stated fails: an up-to-date root whose identity is in the memo
contributes a dependency. With the root 0 alone the umbrella depends on Action
0 once; with the up-to-date root 1 added it depends on Action 0 twice. -/
theorem upToDate_root_contributes :
    (twinEnv.pkg 1).NotStale = true ∧
    BuildPackages twinEnv 1 [0, 1] = Outcome.ok 1 twinState ∧
    twinState.heap[1]?.map Action.Deps = some [0, 0] := by
  decide

/-- C13 (amended) on `upToDateEnv`: the only root is up to date, and the
umbrella has no dependencies. -/
theorem upToDate_root_alone :
    ([0] : List PkgPtr) ≠ [] ∧
    (∀ pkg ∈ ([0] : List PkgPtr),
      hasSource upToDateEnv pkg = false ∨ (upToDateEnv.pkg pkg).NotStale = true) ∧
    ∃ u : Action, BuildPackages upToDateEnv (0 + 1) [0] =
        Outcome.ok 0 { heap := [u], targets := [] } ∧ u.Deps = [] :=
  ⟨by decide, by decide,
    (BuildPackages_umbrella_deps upToDateEnv 0 [0]).2 (by decide) (by decide)⟩

theorem broken_reaches_u : RootReaches brokenEnv 3 [0] 2 emptyState 1 :=
  ⟨[], 0, [], [], emptyState, rfl, by decide, rfl,
    Reaches.dep 2 emptyState emptyState 0 1 [] [] [] 2 emptyState 1 (by decide) (by decide)
      rfl rfl (Reaches.here 2 emptyState 1)⟩

theorem broken_reaches_v : RootReaches brokenEnv 3 [0] 1 emptyState 2 :=
  ⟨[], 0, [], [], emptyState, rfl, by decide, rfl,
    Reaches.dep 2 emptyState emptyState 0 1 [] [] [] 1 emptyState 2 (by decide) (by decide)
      rfl rfl
      (Reaches.dep 1 emptyState emptyState 1 2 [] [] [] 1 emptyState 2 (by decide) (by decide)
        rfl rfl (Reaches.here 1 emptyState 2))⟩

theorem broken_reaches_e : RootReaches brokenEnv 2 [3] 1 emptyState 4 :=
  ⟨[], 3, [], [], emptyState, rfl, by decide, rfl,
    Reaches.dep 1 emptyState emptyState 3 4 [] [] [] 1 emptyState 4 (by decide) (by decide)
      rfl rfl (Reaches.here 1 emptyState 4)⟩

/-- C14 on `brokenEnv`: the library `v` is reached below the root `r`, the
resolver fails on its implicit dependency `runtime/cgo`, and `BuildPackages`
returns that error. -/
theorem resolver_failure_below_root :
    RootReaches brokenEnv 3 [0] (0 + 1) emptyState 2 ∧
    (brokenEnv.pkg 2).NotStale = false ∧
    emptyState.targets.lookup (brokenEnv.pkg 2).ImportPath = none ∧
    brokenEnv.ResolvePackage 2 "runtime/cgo" = Except.error "runtime/cgo" ∧
    BuildPackages brokenEnv 3 [0] = Outcome.error (Err.resolve "runtime/cgo") emptyState ∧
    ∃ name ∈ extraImports brokenEnv (brokenEnv.pkg 2), ∃ m,
      brokenEnv.ResolvePackage 2 name = Except.error m ∧
      (∀ bp, BuildDependencies bp brokenEnv emptyState 2 =
        Outcome.error (Err.resolve m) emptyState) ∧
      BuildPackages brokenEnv 3 [0] = Outcome.error (Err.resolve m) emptyState :=
  ⟨broken_reaches_v, by decide, by decide, rfl, by decide,
    resolver_failure_aborts brokenEnv 3 [0] 0 emptyState 2 broken_reaches_v (by decide)
      (by decide) ⟨"runtime/cgo", by decide, "runtime/cgo", rfl⟩⟩

/-- C15 as stated fails: the stale unit `u` has no Go files and no cgo files
and is reached as an import of the root `r`, which has a source file, and
`BuildPackages` returns the error of the resolver, not a no-source-files error. -/
theorem no_source_unit_other_error :
    (brokenEnv.pkg 1).NotStale = false ∧ (brokenEnv.pkg 1).GoFiles = [] ∧
    (brokenEnv.pkg 1).CgoFiles = [] ∧ hasSource brokenEnv 0 = true ∧
    RootReaches brokenEnv 3 [0] 2 emptyState 1 ∧
    BuildPackages brokenEnv 3 [0] = Outcome.error (Err.resolve "runtime/cgo") emptyState ∧
    ∀ p, Err.resolve "runtime/cgo" ≠ Err.noGoFiles p :=
  ⟨by decide, by decide, by decide, by decide, broken_reaches_u, by decide,
    fun p h => by cases h⟩

/-- C15 (amended) on `brokenEnv`: the stale unit `e` has no source files and no
imports and is reached as an import of the root `q`, and `BuildPackages` returns
its no-source-files error. -/
theorem no_source_unit_aborts :
    RootReaches brokenEnv 2 [3] (0 + 1) emptyState 4 ∧
    (brokenEnv.pkg 4).NotStale = false ∧
    emptyState.targets.lookup (brokenEnv.pkg 4).ImportPath = none ∧
    (brokenEnv.pkg 4).GoFiles = [] ∧ (brokenEnv.pkg 4).CgoFiles = [] ∧
    BuildPackages brokenEnv 2 [3] = Outcome.error (Err.noGoFiles "e") emptyState :=
  ⟨broken_reaches_e, by decide, by decide, by decide, by decide,
    (no_source_dependency_aborts brokenEnv 2 [3] 0 emptyState 4 broken_reaches_e (by decide)
      (by decide) (by decide) (by decide)).1 [] emptyState (by decide)⟩

theorem diamond_units_acyclic : AcyclicUnits diamondEnv diamondUnitRank := by
  have hnil : ∀ pkg : PkgPtr, extraImports diamondEnv (diamondEnv.pkg pkg) = [] := by
    intro pkg
    match pkg with
    | 0 => rfl
    | 1 => rfl
    | 2 => rfl
    | 3 => rfl
    | n + 4 => rfl
  intro pkg
  refine ⟨?_, by intro name hn; rw [hnil pkg] at hn; cases hn⟩
  match pkg with
  | 0 => decide
  | 1 => decide
  | 2 => decide
  | 3 => decide
  | n + 4 => intro i hi; cases hi

/-- C17 on the diamond: the units are ranked, the depth 3 suffices for the
root `d`, and with the depth 7 `BuildPackages` returns the same graph. -/
theorem diamond_terminates :
    AcyclicUnits diamondEnv diamondUnitRank ∧ depthFor diamondUnitRank [3] = 3 ∧
    BuildPackages diamondEnv 7 [3] ≠ Outcome.fuel ∧
    BuildPackages diamondEnv 7 [3] = BuildPackages diamondEnv 3 [3] ∧
    BuildPackages diamondEnv 3 [3] = Outcome.ok 4 diamondState :=
  ⟨diamond_units_acyclic, by decide,
    (BuildPackages_terminates diamondEnv diamondUnitRank diamond_units_acyclic [3] 7
      (by decide)).1,
    (BuildPackages_terminates diamondEnv diamondUnitRank diamond_units_acyclic [3] 7
      (by decide)).2,
    by decide⟩

/-- C16 on the command `m` of `mixedEnv`, which is not test-scope: the closure
of the terminal Action 5 wraps the link closure; with a linker that fails, a run
of it calls the linker, prints `m`, and returns the error of the linker. -/
theorem command_logger_wraps_link :
    Compile mixedEnv 0 [] [] = (Except.ok 5, mixedHeap) ∧
    (∃ (a : Action) (fn : Step), mixedHeap[5]? = some a ∧ fn.isLogger = false ∧
      fn.unit = some 0 ∧
      (a.Run.isLogger = true ↔ (mixedEnv.pkg 0).TestScope = false) ∧
      ((mixedEnv.pkg 0).TestScope = true → a.Run = fn) ∧
      ((mixedEnv.pkg 0).TestScope = false →
        a.Run = logInfoFn fn (mixedEnv.pkg 0).ImportPath ∧
        ∀ (T : Toolchain) (w : List Event),
          (a.Run.run mixedEnv T w).events =
            (fn.run mixedEnv T w).events ++ [Event.Println (mixedEnv.pkg 0).ImportPath] ∧
          printed (fn.run mixedEnv T w).events = [] ∧
          printed (a.Run.run mixedEnv T w).events = [(mixedEnv.pkg 0).ImportPath] ∧
          (a.Run.run mixedEnv T w).err = (fn.run mixedEnv T w).err)) ∧
    (mixedHeap[5]?.map fun a => a.Run.run mixedEnv failingTools []) =
      some { err := some "ld failed"
             events := [Event.Ld 0, Event.Record 0 "link", Event.Println "m"]
             next := Step.logInfo (Step.link 0) "m" } :=
  ⟨rfl, Compile_completion_logger mixedEnv 0 [] [] mixedHeap 5 rfl, by decide⟩

/-- C19 on the command `m` of `mixedEnv`: the first run of the closure of its
pack Action 3 passes the object file of `m`, then the cgo object file, the
object file of `m.s` and the system object file. -/
theorem command_pack_first_run :
    Compile mixedEnv 0 [] [] = (Except.ok 5, mixedHeap) ∧
    (mixedHeap[3]?.map fun a => a.Run.stage) = some Stage.pack ∧
    (∃ ofiles : List String,
      packCalls ((Step.pack 0 ["_cgo.o", "/work/m/m.s.6", "/src/m/m.syso"]).run mixedEnv
        failingTools []).events = [(0, ofiles)] ∧
      ofiles = failingTools.objfile 0 ::
        (cgoOfiles mixedEnv 0 ++ (mixedEnv.pkg 0).SFiles.map (asmOfile mixedEnv 0)
          ++ (mixedEnv.pkg 0).SysoFiles.map
            (fun syso => mixedEnv.Join [(mixedEnv.pkg 0).Dir, syso])) ∧
      ofiles.head? = some (failingTools.objfile 0) ∧
      (failingTools.objfile 0 ∉ extraObjects mixedEnv 0 →
        ofiles.count (failingTools.objfile 0) = 1)) ∧
    failingTools.objfile 0 ∉ extraObjects mixedEnv 0 ∧
    packCalls ((Step.pack 0 ["_cgo.o", "/work/m/m.s.6", "/src/m/m.syso"]).run mixedEnv
        failingTools []).events =
      [(0, ["/work/m.a", "_cgo.o", "/work/m/m.s.6", "/src/m/m.syso"])] :=
  ⟨rfl, rfl,
    Compile_pack_first_run mixedEnv 0 [] [] mixedHeap 5 rfl failingTools [] 3
      { Name := "pack: m", Deps := [1, 2],
        Run := Step.pack 0 ["_cgo.o", "/work/m/m.s.6", "/src/m/m.syso"] } (by decide) rfl rfl,
    by decide, by decide⟩

/-- C20 as stated fails. With the unit `a` of the diamond listed twice as a
root, the umbrella Action depends on the Action 0 twice; the command `cmd/x` of
`runtimeEnv` lists `runtime` among its imports, and its compile stage depends on
the Action 0 twice. -/
theorem deps_with_repetition :
    BuildPackages diamondEnv 1 [0, 0] = Outcome.ok 1 twiceState ∧
    (twiceState.heap[1]?.map fun u => (u.Run.stage, u.Deps)) = some (Stage.umbrella, [0, 0]) ∧
    ¬ ([0, 0] : List Handle).Nodup ∧
    (runtimeEnv.pkg 1).Main = true ∧ (runtimeEnv.pkg 1).Imports = [0] ∧
    (runtimeEnv.pkg 0).ImportPath = "runtime" ∧
    BuildPackages runtimeEnv 2 [1] = Outcome.ok 3 runtimeState ∧
    (runtimeState.heap[1]?.map fun c => (c.Run.stage, c.Run.unit, c.Deps)) =
      some (Stage.compile, some 1, [0, 0]) := by
  decide

/-- C20 (amended) on the diamond with the root `d`: the umbrella Action and the
compile stage of `d` depend on no Action twice. -/
theorem diamond_deps_nodup :
    BuildPackages diamondEnv 3 [3] = Outcome.ok 4 diamondState ∧
    (names diamondEnv ([3].filter (hasSource diamondEnv))).Nodup ∧
    depsDistinct diamondEnv 3 = true ∧
    (∃ u : Action, diamondState.heap[4]? = some u ∧ u.Run.stage = Stage.umbrella ∧
      ((names diamondEnv ([3].filter (hasSource diamondEnv))).Nodup → u.Deps.Nodup)) ∧
    ([1, 2] : List Handle).Nodup :=
  ⟨by decide, by decide, by decide,
    (BuildPackages_deps_nodup diamondEnv 3 [3] 4 diamondState (by decide)).1,
    (BuildPackages_deps_nodup diamondEnv 3 [3] 4 diamondState (by decide)).2 3
      { Name := "compile: d", Deps := [1, 2], Run := Step.logInfo (Step.gc 3 ["d.go"]) "d" }
      3 rfl rfl rfl (by decide)⟩

end Gb
